import Mathlib

/-!
# FreeType cache: the MRU list (`src/cache/ftcmru.c`) and the basic family
glue (`src/cache/ftcbasic.c`); the `SVG` table (`src/sfnt/ttsvg.c`) and the
WOFF2 known tags (`src/sfnt/woff2tags.c`)

The C code manipulates an intrusive circular doubly-linked list through raw
pointers.  The embedding keeps that shape: a node is an address (a natural
number, `0` being `NULL`), and the memory holding the nodes is an explicit
`Heap` that every operation receives and returns.
-/

namespace FTCMru

/-- Node addresses (`FTC_MruNode`); the address `0` is the C `NULL`. -/
abbrev Ptr := Nat

/-- Pointwise store: the map `f` with the cell `p` overwritten by `v`. -/
def upd {α : Type} (f : Ptr → α) (p : Ptr) (v : α) : Ptr → α :=
  fun x => if x = p then v else f x

/-- The memory the nodes live in.  `next`/`prev` are the two link fields of
`FTC_MruNodeRec`; `payload` is the rest of the node (whatever the list class
stores behind the header); `live` lists the blocks currently allocated. -/
structure Heap (P : Type) where
  next : Ptr → Ptr
  prev : Ptr → Ptr
  payload : Ptr → P
  live : List Ptr

/-- The assignment `p->next = v`. -/
def Heap.setNext {P : Type} (h : Heap P) (p v : Ptr) : Heap P :=
  { h with next := upd h.next p v }

/-- The assignment `p->prev = v`. -/
def Heap.setPrev {P : Type} (h : Heap P) (p v : Ptr) : Heap P :=
  { h with prev := upd h.prev p v }

/-- The function `FTC_MruNode_Prepend( plist, node )`, ftcmru.c lines 27-68 (the
`FT_TS_DEBUG_ERROR` scan is compiled out).  Returns the heap and the new
value of `*plist`. -/
def FTC_MruNode_Prepend {P : Type} (h : Heap P) (plist node : Ptr) : Heap P × Ptr :=
  let first := plist
  if first ≠ 0 then
    let last := h.prev first
    let h := h.setPrev first node
    let h := h.setNext last node
    let h := h.setNext node first
    let h := h.setPrev node last
    (h, node)
  else
    let h := h.setNext node node
    let h := h.setPrev node node
    (h, node)

/-- The function `FTC_MruNode_Up( plist, node )`, ftcmru.c lines 71-117.  `FT_TS_ASSERT`
is a no-op in a release build.  Note that `last` is read after the unlink. -/
def FTC_MruNode_Up {P : Type} (h : Heap P) (plist node : Ptr) : Heap P × Ptr :=
  let first := plist
  if first ≠ node then
    let prev := h.prev node
    let next := h.next node
    let h := h.setNext prev next
    let h := h.setPrev next prev
    let last := h.prev first
    let h := h.setNext last node
    let h := h.setPrev first node
    let h := h.setNext node first
    let h := h.setPrev node last
    (h, node)
  else
    (h, plist)

/-- The function `FTC_MruNode_Remove( plist, node )`, ftcmru.c lines 120-164. -/
def FTC_MruNode_Remove {P : Type} (h : Heap P) (plist node : Ptr) : Heap P × Ptr :=
  let first := plist
  let prev := h.prev node
  let next := h.next node
  let h := h.setNext prev next
  let h := h.setPrev next prev
  if node = next then
    (h, 0)
  else if node = first then
    (h, next)
  else
    (h, plist)

/-- What the list code does to the outside world, in program order: the
class callbacks it invokes (on which node, with which key) and the blocks it
allocates and frees. -/
inductive Event (K : Type) where
  | compare (node : Ptr) (key : K)
  | select (node : Ptr)
  | init (node : Ptr) (key : K)
  | reset (node : Ptr) (key : K)
  | done (node : Ptr)
  | alloc (node : Ptr)
  | free (node : Ptr)
  deriving DecidableEq

/-- The callback table `FTC_MruListClassRec` (`node_size` is left to the
allocator).  A callback receives the node and works on the part of the node
behind the list header, the payload: `node_compare( node, key )` reads it,
`node_init( node, key, data )` and `node_reset( node, key, data )` return an
error code (`0` is success) and leave a new payload, `node_done( node, data )`
leaves a new payload.  `node_reset` and `node_done` may be `NULL`. -/
structure FTC_MruListClassRec (P K : Type) where
  node_compare : P → K → Bool
  node_init : P → K → Nat × P
  node_reset : Option (P → K → Nat × P)
  node_done : Option (P → P)

/-- Modelled from the spec: the memory manager behind `FT_TS_ALLOC` and
`FT_TS_FREE` (their definitions are not part of these sources).  `alloc live` is
the block handed out when the blocks `live` are in use, or `none` when the
allocation fails (`Out_Of_Memory`); a new block is zero-filled, `zero` being
the all-zero payload. -/
structure FT_TS_MemoryRec (P : Type) where
  alloc : List Ptr → Option Ptr
  zero : P

/-- The error `FT_TS_ALLOC` reports on failure. -/
def FT_TS_Err_Out_Of_Memory : Nat := 0x40

/-- The constant `FT_TS_UINT_MAX`, the largest `FT_TS_UInt` (32 bits): `2 ^ 32 - 1`. -/
def UINT_MAX : Nat := 4294967295

/-- The record `FTC_MruListRec`, together with the heap its nodes live in and the trace
of events so far.  The `data` pointer is fixed and known to the callbacks. -/
structure FTC_MruListRec (P K : Type) where
  num_nodes : Nat
  max_nodes : Nat
  nodes : Ptr
  clazz : FTC_MruListClassRec P K
  memory : FT_TS_MemoryRec P
  heap : Heap P
  trace : List (Event K)

/-- The function `FTC_MruList_Init`, ftcmru.c lines 167-180, on the heap `heap`. -/
def FTC_MruList_Init {P K : Type} (clazz : FTC_MruListClassRec P K) (max_nodes : Nat)
    (memory : FT_TS_MemoryRec P) (heap : Heap P) : FTC_MruListRec P K :=
  { num_nodes := 0
    max_nodes := max_nodes
    nodes := 0
    clazz := clazz
    memory := memory
    heap := heap
    trace := [] }

/-- The store of a new payload into `node`. -/
def FTC_MruListRec.setPayload {P K : Type} (list : FTC_MruListRec P K) (node : Ptr) (p : P) :
    FTC_MruListRec P K :=
  { list with heap := { list.heap with payload := upd list.heap.payload node p } }

/-- Appends one event to the trace. -/
def FTC_MruListRec.emit {P K : Type} (list : FTC_MruListRec P K) (e : Event K) :
    FTC_MruListRec P K :=
  { list with trace := list.trace ++ [e] }

/-- The statement `if ( list->clazz.node_done ) list->clazz.node_done( node, list->data )`. -/
def callDone {P K : Type} (list : FTC_MruListRec P K) (node : Ptr) : FTC_MruListRec P K :=
  match list.clazz.node_done with
  | some done => (list.setPayload node (done (list.heap.payload node))).emit (Event.done node)
  | none => list

/-- The statement `FT_TS_FREE( node )`: the block leaves the live blocks. -/
def FT_TS_FREE {P K : Type} (list : FTC_MruListRec P K) (node : Ptr) : FTC_MruListRec P K :=
  { list with heap := { list.heap with live := list.heap.live.erase node } }.emit (Event.free node)

/-- The decrement `n--` of an `FT_TS_UInt`: it wraps from `0` to `UINT_MAX`. -/
def decU (n : Nat) : Nat := if n = 0 then UINT_MAX else n - 1

/-- The increment `n++` of an `FT_TS_UInt`: it wraps from `UINT_MAX` to `0`. -/
def incU (n : Nat) : Nat := if n = UINT_MAX then 0 else n + 1

/-- The statement `list->num_nodes--`. -/
def decNodes {P K : Type} (list : FTC_MruListRec P K) : FTC_MruListRec P K :=
  { list with num_nodes := decU list.num_nodes }

/-- The statement `list->num_nodes++`. -/
def incNodes {P K : Type} (list : FTC_MruListRec P K) : FTC_MruListRec P K :=
  { list with num_nodes := incU list.num_nodes }

/-- The function `FTC_MruList_Remove`, ftcmru.c lines 308-324. -/
def FTC_MruList_Remove {P K : Type} (list : FTC_MruListRec P K) (node : Ptr) :
    FTC_MruListRec P K :=
  let r := FTC_MruNode_Remove list.heap list.nodes node
  let list := { list with heap := r.1, nodes := r.2 }
  let list := decNodes list
  let list := callDone list node
  FT_TS_FREE list node

/-- The function `FTC_MruList_Reset`, ftcmru.c lines 183-190: `while ( list->nodes )
FTC_MruList_Remove( list, list->nodes )`.  One unit of fuel per iteration;
`none` when the fuel runs out. -/
def FTC_MruList_Reset {P K : Type} : Nat → FTC_MruListRec P K → Option (FTC_MruListRec P K)
  | 0, list => if list.nodes ≠ 0 then none else some list
  | fuel + 1, list =>
    if list.nodes ≠ 0 then FTC_MruList_Reset fuel (FTC_MruList_Remove list list.nodes)
    else some list

/-- The function `FTC_MruList_Done`, ftcmru.c lines 193-197. -/
def FTC_MruList_Done {P K : Type} (fuel : Nat) (list : FTC_MruListRec P K) :
    Option (FTC_MruListRec P K) :=
  FTC_MruList_Reset fuel list

/-- The `do ... while ( node != first )` loop of `FTC_MruList_Find`, ftcmru.c
lines 215-227, entered at `node`.  One unit of fuel per iteration. -/
def findScan {P K : Type} (first : Ptr) (key : K) :
    Nat → Ptr → FTC_MruListRec P K → Option (Ptr × FTC_MruListRec P K)
  | 0, _, _ => none
  | fuel + 1, node, list =>
    let list := list.emit (Event.compare node key)
    if list.clazz.node_compare (list.heap.payload node) key then
      if node ≠ first then
        let u := FTC_MruNode_Up list.heap list.nodes node
        some (node, { list with heap := u.1, nodes := u.2 })
      else
        some (node, list)
    else
      let node := list.heap.next node
      if node ≠ first then findScan first key fuel node list
      else some (0, list)

/-- The function `FTC_MruList_Find`, ftcmru.c lines 201-231.  The result is the node
returned (`0` for `NULL`) and the list afterwards. -/
def FTC_MruList_Find {P K : Type} (fuel : Nat) (list : FTC_MruListRec P K) (key : K) :
    Option (Ptr × FTC_MruListRec P K) :=
  let first := list.nodes
  if first ≠ 0 then findScan first key fuel first list
  else some (0, list)

/-- The end of `FTC_MruList_New`, ftcmru.c lines 270-286: `node_init`, then
either the prepend or the `Fail` path (`node_done`, `FT_TS_FREE`, which also
sets `node` to `NULL`).  The result is `( error, *anode, list )`. -/
def newInit {P K : Type} (list : FTC_MruListRec P K) (node : Ptr) (key : K) :
    Nat × Ptr × FTC_MruListRec P K :=
  let r := list.clazz.node_init (list.heap.payload node) key
  let list := (list.setPayload node r.2).emit (Event.init node key)
  let error := r.1
  if error ≠ 0 then
    let list := callDone list node
    let list := FT_TS_FREE list node
    (error, 0, list)
  else
    let q := FTC_MruNode_Prepend list.heap list.nodes node
    let list := { list with heap := q.1, nodes := q.2 }
    let list := incNodes list
    (error, node, list)

/-- The middle of the at-capacity branch of `FTC_MruList_New`, ftcmru.c lines
259-264, followed by lines 270-286: the tail node is unlinked, counted out and
`node_done`, and its storage goes on to `node_init`. -/
def newRecycle {P K : Type} (list : FTC_MruListRec P K) (node : Ptr) (key : K) :
    Nat × Ptr × FTC_MruListRec P K :=
  let r := FTC_MruNode_Remove list.heap list.nodes node
  let list := { list with heap := r.1, nodes := r.2 }
  let list := decNodes list
  let list := callDone list node
  newInit list node key

/-- The function `FTC_MruList_New`, ftcmru.c lines 234-287.  The result is
`( error, *anode, list )`. -/
def FTC_MruList_New {P K : Type} (list : FTC_MruListRec P K) (key : K) :
    Nat × Ptr × FTC_MruListRec P K :=
  if list.num_nodes ≥ list.max_nodes ∧ list.max_nodes > 0 then
    let node := list.heap.prev list.nodes
    match list.clazz.node_reset with
    | some reset =>
      let u := FTC_MruNode_Up list.heap list.nodes node
      let list := { list with heap := u.1, nodes := u.2 }
      let r := reset (list.heap.payload node) key
      let list := (list.setPayload node r.2).emit (Event.reset node key)
      if r.1 = 0 then (r.1, node, list)
      else newRecycle list node key
    | none => newRecycle list node key
  else
    match list.memory.alloc list.heap.live with
    | none => (FT_TS_Err_Out_Of_Memory, 0, list)
    | some node =>
      let list := { list with heap := { list.heap with live := node :: list.heap.live } }
      let list := (list.setPayload node list.memory.zero).emit (Event.alloc node)
      newInit list node key

/-- The function `FTC_MruList_Lookup`, ftcmru.c lines 291-305. -/
def FTC_MruList_Lookup {P K : Type} (fuel : Nat) (list : FTC_MruListRec P K) (key : K) :
    Option (Nat × Ptr × FTC_MruListRec P K) :=
  match FTC_MruList_Find fuel list key with
  | none => none
  | some (node, list) =>
    if node = 0 then some (FTC_MruList_New list key)
    else some (0, node, list)

/-- The first loop of `FTC_MruList_RemoveSelection`, ftcmru.c lines 335-340:
`while ( first && ( !selection || selection( first, key ) ) )`. -/
def removeLeading {P K S : Type} (selection : Option (P → S → Bool)) (key : S) :
    Nat → FTC_MruListRec P K → Option (FTC_MruListRec P K)
  | 0, list =>
    if list.nodes ≠ 0 then
      match selection with
      | none => none
      | some sel =>
        if sel (list.heap.payload list.nodes) key then none
        else some (list.emit (Event.select list.nodes))
    else some list
  | fuel + 1, list =>
    if list.nodes ≠ 0 then
      match selection with
      | none => removeLeading selection key fuel (FTC_MruList_Remove list list.nodes)
      | some sel =>
        let first := list.nodes
        let list := list.emit (Event.select first)
        if sel (list.heap.payload first) key then
          removeLeading selection key fuel (FTC_MruList_Remove list first)
        else some list
    else some list

/-- The second loop of `FTC_MruList_RemoveSelection`, ftcmru.c lines 345-353,
at `node`. -/
def removeRest {P K S : Type} (sel : P → S → Bool) (key : S) (first : Ptr) :
    Nat → Ptr → FTC_MruListRec P K → Option (FTC_MruListRec P K)
  | 0, node, list => if node ≠ first then none else some list
  | fuel + 1, node, list =>
    if node ≠ first then
      let next := list.heap.next node
      let list := list.emit (Event.select node)
      let list := if sel (list.heap.payload node) key then FTC_MruList_Remove list node else list
      removeRest sel key first fuel next list
    else some list

/-- The function `FTC_MruList_RemoveSelection`, ftcmru.c lines 327-355.  The second loop
calls `selection` unguarded; it is only reached with a non-null `selection`,
since with a null one the first loop empties the list. -/
def FTC_MruList_RemoveSelection {P K S : Type} (fuel : Nat) (list : FTC_MruListRec P K)
    (selection : Option (P → S → Bool)) (key : S) : Option (FTC_MruListRec P K) :=
  match removeLeading selection key fuel list with
  | none => none
  | some list =>
    let first := list.nodes
    if first ≠ 0 then
      match selection with
      | none => none
      | some sel => removeRest sel key first fuel (list.heap.next first) list
    else some list

/-- A run of `FTC_MruList_Lookup` calls, one per key, in order: the
`( error, *anode )` of every call and the list at the end. -/
def lookups {P K : Type} (fuel : Nat) :
    List K → FTC_MruListRec P K → Option (List (Nat × Ptr) × FTC_MruListRec P K)
  | [], list => some ([], list)
  | k :: ks, list =>
    match FTC_MruList_Lookup fuel list k with
    | none => none
    | some r =>
      match lookups fuel ks r.2.2 with
      | none => none
      | some rs => some ((r.1, r.2.1) :: rs.1, rs.2)

/-- Two adjacent nodes: `a->next == b` and `b->prev == a`. -/
def Linked {P : Type} (h : Heap P) (a b : Ptr) : Prop :=
  h.next a = b ∧ h.prev b = a

instance {P : Type} (h : Heap P) (a b : Ptr) : Decidable (Linked h a b) :=
  inferInstanceAs (Decidable (h.next a = b ∧ h.prev b = a))

/-- The heap `h` holds, under the list pointer `plist`, the circular
doubly-linked list whose nodes are, head first, `L`: the nodes are distinct
and non-null, `plist` is the first of them (or `NULL` when there is none),
each is linked to the one after it, and the last is linked back to the
first. -/
def Ring {P : Type} (h : Heap P) (plist : Ptr) (L : List Ptr) : Prop :=
  L.Nodup ∧ 0 ∉ L ∧ plist = L.headD 0 ∧ List.Chain' (Linked h) L ∧
    ∀ a ∈ L.getLast?, ∀ b ∈ L.head?, Linked h a b

/-- Decision procedure for a chain of linked nodes, by recursion on the list. -/
def decideChain {P : Type} (h : Heap P) : (L : List Ptr) → Decidable (List.Chain' (Linked h) L)
  | [] => isTrue List.chain'_nil
  | [a] => isTrue (List.chain'_singleton a)
  | a :: b :: t =>
    match decideChain h (b :: t) with
    | isTrue ht =>
      if hab : Linked h a b then isTrue (List.chain'_cons.mpr ⟨hab, ht⟩)
      else isFalse (fun hc => hab (List.chain'_cons.mp hc).1)
    | isFalse hf => isFalse (fun hc => hf (List.chain'_cons.mp hc).2)

instance {P : Type} (h : Heap P) (plist : Ptr) (L : List Ptr) : Decidable (Ring h plist L) :=
  @instDecidableAnd _ _ inferInstance
    (@instDecidableAnd _ _ inferInstance
      (@instDecidableAnd _ _ inferInstance
        (@instDecidableAnd _ _ (decideChain h L) inferInstance)))

/-- Walk of `n` steps along a link field `f` from `p`: the nodes visited, `p`
first. -/
def walk (f : Ptr → Ptr) : Nat → Ptr → List Ptr
  | 0, _ => []
  | n + 1, p => p :: walk f n (f p)

/-- The consistency of the circular list with `k` nodes, as the data model
words it: the list is empty (`plist` is `NULL`, no node), or following `next`
from the head visits `k` distinct non-null nodes and is back at the head after
exactly `k` steps, following `prev` likewise, and on every node
`next(prev(x)) = x = prev(next(x))`. -/
def Circular {P : Type} (h : Heap P) (plist : Ptr) (k : Nat) : Prop :=
  (plist = 0 ∧ k = 0) ∨
  (plist ≠ 0 ∧ 0 < k ∧
    (walk h.next k plist).Nodup ∧ 0 ∉ walk h.next k plist ∧
    h.next^[k] plist = plist ∧
    (walk h.prev k plist).Nodup ∧ h.prev^[k] plist = plist ∧
    ∀ x ∈ walk h.next k plist, h.next (h.prev x) = x ∧ h.prev (h.next x) = x)

/-- A well-formed list: the heap holds under `list->nodes` the ring of the
nodes `L`, and `num_nodes`, an `FT_TS_UInt`, counts them. -/
def WF {P K : Type} (list : FTC_MruListRec P K) (L : List Ptr) : Prop :=
  Ring list.heap list.nodes L ∧ list.num_nodes = L.length ∧ list.num_nodes ≤ UINT_MAX

/-- The outcome of `compare( node, key )` on the node `x` as it is in `list`. -/
def hits {P K : Type} (list : FTC_MruListRec P K) (key : K) (x : Ptr) : Bool :=
  list.clazz.node_compare (list.heap.payload x) key

/-- What a list operation leaves alone, and what it adds to the trace: from
`a` to `b` the configuration (`max_nodes`, the class, the memory manager) is
the same and the events `evs` happened. -/
structure Step {P K : Type} (a b : FTC_MruListRec P K) (evs : List (Event K)) : Prop where
  max_nodes : b.max_nodes = a.max_nodes
  clazz : b.clazz = a.clazz
  memory : b.memory = a.memory
  trace : b.trace = a.trace ++ evs

/-- The events of `callDone` on a node: one `done`, if the class has the callback. -/
def doneEvents {P K : Type} (c : FTC_MruListClassRec P K) (node : Ptr) : List (Event K) :=
  match c.node_done with
  | some _ => [Event.done node]
  | none => []

/-- The payload `callDone` leaves in a node whose payload was `p`. -/
def donePayload {P K : Type} (c : FTC_MruListClassRec P K) (p : P) : P :=
  match c.node_done with
  | some done => done p
  | none => p

/-- The events of the `node_reset` attempt of `FTC_MruList_New`: one `reset`,
if the class has the callback. -/
def resetEvents {P K : Type} (c : FTC_MruListClassRec P K) (node : Ptr) (key : K) :
    List (Event K) :=
  match c.node_reset with
  | some _ => [Event.reset node key]
  | none => []

/-- The payload with which a recycled tail node reaches `node_init`, its
payload having been `p`: after the (failed) `node_reset`, if any, and
`node_done`, if any. -/
def recyclePayload {P K : Type} (c : FTC_MruListClassRec P K) (p : P) (key : K) : P :=
  match c.node_reset with
  | some reset => donePayload c (reset p key).2
  | none => donePayload c p

/-- The at-capacity test of `FTC_MruList_New`, ftcmru.c line 244. -/
def atCapacity {P K : Type} (list : FTC_MruListRec P K) : Prop :=
  list.num_nodes ≥ list.max_nodes ∧ list.max_nodes > 0

instance {P K : Type} (list : FTC_MruListRec P K) : Decidable (atCapacity list) :=
  inferInstanceAs (Decidable (list.num_nodes ≥ list.max_nodes ∧ list.max_nodes > 0))

/-- The test `!selection || selection( node, key )` of
`FTC_MruList_RemoveSelection` on the node `x` as it is in `list`. -/
def picks {P K S : Type} (selection : Option (P → S → Bool)) (key : S)
    (list : FTC_MruListRec P K) (x : Ptr) : Bool :=
  match selection with
  | none => true
  | some sel => sel (list.heap.payload x) key

/-- The events of one pass of `FTC_MruList_RemoveSelection` over the nodes
`L`: for every node, in order, the `selection` call (when there is a
`selection`), then, if the node is picked, its `node_done` (when the class has
it) and its release. -/
def selectionEvents {P K : Type} (c : FTC_MruListClassRec P K) (asked : Bool) (q : Ptr → Bool)
    (L : List Ptr) : List (Event K) :=
  L.flatMap (fun x =>
    (if asked then [Event.select x] else []) ++
      (if q x then doneEvents c x ++ [Event.free x] else []))

/-- From `a` to `b` only nodes in `gone` were torn down: every other node
keeps its payload and stays allocated, and no block was allocated. -/
structure Kept {P K : Type} (a b : FTC_MruListRec P K) (gone : Ptr → Prop) : Prop where
  payload : ∀ x, ¬ gone x → b.heap.payload x = a.heap.payload x
  live : ∀ x, x ∈ a.heap.live → ¬ gone x → x ∈ b.heap.live
  room : b.heap.live.length ≤ a.heap.live.length

/-- Is the event a `node_done` call? -/
def Event.isDone {K : Type} : Event K → Bool
  | Event.done _ => true
  | _ => false

/-- The payload `p` was initialised for the key `k`: `compare` answers true on
it for `k` and for no other key. -/
def Holds {P K : Type} (c : FTC_MruListClassRec P K) (p : P) (k : K) : Prop :=
  ∀ k', c.node_compare p k' = true ↔ k' = k

/-- A class whose `compare` is key equality and whose `init` never fails:
`node_init` always succeeds and leaves a payload initialised for the key, and
so does `node_reset` whenever it is present and succeeds. -/
structure KeyedClass {P K : Type} (c : FTC_MruListClassRec P K) : Prop where
  init_ok : ∀ p k, (c.node_init p k).1 = 0
  init_holds : ∀ p k, Holds c (c.node_init p k).2 k
  reset_holds : ∀ rs, c.node_reset = some rs → ∀ p k, (rs p k).1 = 0 → Holds c (rs p k).2 k

/-- A memory manager hands out blocks that are not `NULL` and not in use. -/
def FreshMemory {P : Type} (m : FT_TS_MemoryRec P) : Prop :=
  ∀ live p, m.alloc live = some p → p ≠ 0 ∧ p ∉ live

/-- The invariant of a list in use, `L` being its node sequence: the heap
holds the ring of `L`; a bounded list (`max_nodes > 0`) counts its nodes and
never exceeds its bound; the nodes are allocated blocks. -/
structure Inv {P K : Type} (list : FTC_MruListRec P K) (L : List Ptr) : Prop where
  ring : Ring list.heap list.nodes L
  small : 0 < list.max_nodes → list.num_nodes = L.length ∧ L.length ≤ list.max_nodes
  max_ok : list.max_nodes ≤ UINT_MAX
  owned : ∀ x ∈ L, x ∈ list.heap.live

/-- The invariant of a list of keyed nodes: `Z` lists, head first, the nodes
with the key each one was initialised for; no key occurs twice. -/
structure KInv {P K : Type} (list : FTC_MruListRec P K) (Z : List (Ptr × K)) : Prop where
  inv : Inv list (Z.map Prod.fst)
  holds : ∀ z ∈ Z, Holds list.clazz (list.heap.payload z.1) z.2
  keys_nodup : (Z.map Prod.snd).Nodup

/-- Is the event a `compare` call? -/
def Event.isCompare {K : Type} : Event K → Bool
  | Event.compare _ _ => true
  | _ => false

/-- The keys of an MRU list after a successful lookup of `k`, `ks` being the
keys before, head first: a key already there moves to the front; a new key
goes to the front, pushing out the last key when the list is at capacity. -/
def lruStep {K : Type} [DecidableEq K] (max_nodes : Nat) (ks : List K) (k : K) : List K :=
  if k ∈ ks then k :: ks.erase k
  else if 0 < max_nodes ∧ max_nodes ≤ ks.length then k :: ks.dropLast
  else k :: ks

/-- The distinct elements of a list, each at its first occurrence. -/
def distinctKeys {K : Type} [DecidableEq K] : List K → List K
  | [] => []
  | k :: ks => k :: (distinctKeys ks).filter (fun x => x ≠ k)

/-- The distinct keys of a sequence of lookups `ks` (in the order of the
calls), ordered by most recent access, most recent first, truncated to
`max_nodes` when `max_nodes > 0`. -/
def recencyOrder {K : Type} [DecidableEq K] (max_nodes : Nat) (ks : List K) : List K :=
  if 0 < max_nodes then (distinctKeys ks.reverse).take max_nodes
  else distinctKeys ks.reverse

/-- Is the event a `node_init` call for the key `k`? -/
def Event.isInitFor {K : Type} [DecidableEq K] (k : K) : Event K → Bool
  | Event.init _ k' => decide (k' = k)
  | _ => false

/-- Is the event a `node_init` call? -/
def Event.isInit {K : Type} : Event K → Bool
  | Event.init _ _ => true
  | _ => false

/-- Is the event a `node_reset` call? -/
def Event.isReset {K : Type} : Event K → Bool
  | Event.reset _ _ => true
  | _ => false

/-- Modelled from the spec: `FTC_ScalerRec`, declared in ftcache.h, which is
not part of these sources: a face identifier, the width and height, the
pixel-mode flag and the two resolutions. -/
structure FTC_ScalerRec where
  face_id : Nat
  width : Nat
  height : Nat
  pixel : Int
  x_res : Nat
  y_res : Nat
  deriving DecidableEq

/-- The record `FTC_BasicAttrRec`, ftcbasic.c lines 37-42. -/
structure FTC_BasicAttrRec where
  scaler : FTC_ScalerRec
  load_flags : Nat
  deriving DecidableEq

/-- The definition `FTC_BASIC_ATTR_COMPARE( a, b )`, ftcbasic.c lines 44-46.  The definition of
`FTC_SCALER_COMPARE` (ftcmanag.h) is not part of these sources and is the
parameter `scalerCompare`. -/
def FTC_BASIC_ATTR_COMPARE (scalerCompare : FTC_ScalerRec → FTC_ScalerRec → Bool)
    (a b : FTC_BasicAttrRec) : Bool :=
  scalerCompare a.scaler b.scaler && decide (a.load_flags = b.load_flags)

/-- The record `FTC_BasicQueryRec`, ftcbasic.c lines 52-57; `gquery` is the glyph
index and the family pointer of `FTC_GQueryRec`. -/
structure FTC_BasicQueryRec where
  gindex : Nat
  family : Ptr
  attrs : FTC_BasicAttrRec
  deriving DecidableEq

/-- Modelled from the spec: the part of `FTC_FamilyRec` (ftcglyph.h, not part
of these sources) behind the list header: the number of nodes of the family
and its cache. -/
structure FTC_FamilyRec where
  num_nodes : Nat
  cache : Nat
  deriving DecidableEq

/-- The record `FTC_BasicFamilyRec`, ftcbasic.c lines 60-65. -/
structure FTC_BasicFamilyRec where
  family : FTC_FamilyRec
  attrs : FTC_BasicAttrRec
  deriving DecidableEq

/-- Modelled from the spec: `FTC_Family_Init` (ftcglyph.c, not part of these
sources): a new family has no node and belongs to `cache`; no glyph work. -/
def FTC_Family_Init (_family : FTC_FamilyRec) (cache : Nat) : FTC_FamilyRec :=
  { num_nodes := 0, cache := cache }

/-- The function `ftc_basic_family_compare`, ftcbasic.c lines 68-77. -/
def ftc_basic_family_compare (scalerCompare : FTC_ScalerRec → FTC_ScalerRec → Bool)
    (family : FTC_BasicFamilyRec) (query : FTC_BasicQueryRec) : Bool :=
  FTC_BASIC_ATTR_COMPARE scalerCompare family.attrs query.attrs

/-- The function `ftc_basic_family_init`, ftcbasic.c lines 80-93; the result is the error
code and the family afterwards. -/
def ftc_basic_family_init (cache : Nat) (family : FTC_BasicFamilyRec)
    (query : FTC_BasicQueryRec) : Nat × FTC_BasicFamilyRec :=
  (0, { family := FTC_Family_Init family.family cache, attrs := query.attrs })

/-- The list class of `ftc_basic_image_family_class` and of
`ftc_basic_sbit_family_class`, ftcbasic.c lines 243-252 and 443-451: no
`node_reset`, no `node_done`. -/
def ftc_basic_family_class (scalerCompare : FTC_ScalerRec → FTC_ScalerRec → Bool)
    (cache : Nat) : FTC_MruListClassRec FTC_BasicFamilyRec FTC_BasicQueryRec :=
  { node_compare := ftc_basic_family_compare scalerCompare
    node_init := ftc_basic_family_init cache
    node_reset := none
    node_done := none }

/-- A memory manager that never has `UINT_MAX` blocks outstanding, so that a
count of allocated nodes fits an `FT_TS_UInt`. -/
def BoundedMemory {P : Type} (m : FT_TS_MemoryRec P) : Prop :=
  ∀ live p, m.alloc live = some p → live.length < UINT_MAX

/-- The count and capacity invariant, `L` being the node sequence of the
list: the heap holds the ring of `L`, `num_nodes` is the number of nodes, a
bounded list does not exceed `max_nodes`, and the nodes are allocated blocks. -/
structure Counted {P K : Type} (list : FTC_MruListRec P K) (L : List Ptr) : Prop where
  ring : Ring list.heap list.nodes L
  count : list.num_nodes = L.length
  bound : 0 < list.max_nodes → L.length ≤ list.max_nodes
  fits : L.length ≤ UINT_MAX
  owned : ∀ x ∈ L, x ∈ list.heap.live

/-- The lists reachable from `FTC_MruList_Init` by calls of `FTC_MruList_New`,
`FTC_MruList_Lookup`, `FTC_MruList_Find`, `FTC_MruList_Remove` of a member
node, `FTC_MruList_RemoveSelection` and `FTC_MruList_Reset`, whatever the
calls return. -/
inductive Reachable {P K : Type} (clazz : FTC_MruListClassRec P K) (max_nodes : Nat)
    (memory : FT_TS_MemoryRec P) (heap : Heap P) : FTC_MruListRec P K → Prop
  | init : Reachable clazz max_nodes memory heap (FTC_MruList_Init clazz max_nodes memory heap)
  | new (list : FTC_MruListRec P K) (key : K) :
      Reachable clazz max_nodes memory heap list →
      Reachable clazz max_nodes memory heap (FTC_MruList_New list key).2.2
  | lookup (list : FTC_MruListRec P K) (key : K) (fuel : Nat)
      (r : Nat × Ptr × FTC_MruListRec P K) :
      Reachable clazz max_nodes memory heap list →
      FTC_MruList_Lookup fuel list key = some r →
      Reachable clazz max_nodes memory heap r.2.2
  | find (list : FTC_MruListRec P K) (key : K) (fuel : Nat) (r : Ptr × FTC_MruListRec P K) :
      Reachable clazz max_nodes memory heap list →
      FTC_MruList_Find fuel list key = some r →
      Reachable clazz max_nodes memory heap r.2
  | remove (list : FTC_MruListRec P K) (L : List Ptr) (node : Ptr) :
      Reachable clazz max_nodes memory heap list →
      Ring list.heap list.nodes L → node ∈ L →
      Reachable clazz max_nodes memory heap (FTC_MruList_Remove list node)
  | removeSelection (list : FTC_MruListRec P K) (S : Type) (selection : Option (P → S → Bool))
      (key : S) (fuel : Nat) (r : FTC_MruListRec P K) :
      Reachable clazz max_nodes memory heap list →
      FTC_MruList_RemoveSelection fuel list selection key = some r →
      Reachable clazz max_nodes memory heap r
  | reset (list : FTC_MruListRec P K) (fuel : Nat) (r : FTC_MruListRec P K) :
      Reachable clazz max_nodes memory heap list →
      FTC_MruList_Reset fuel list = some r →
      Reachable clazz max_nodes memory heap r

instance {P K : Type} (list : FTC_MruListRec P K) (L : List Ptr) : Decidable (WF list L) :=
  inferInstanceAs (Decidable (Ring list.heap list.nodes L ∧ list.num_nodes = L.length ∧
    list.num_nodes ≤ UINT_MAX))

instance {P : Type} (h : Heap P) (plist : Ptr) (k : Nat) : Decidable (Circular h plist k) :=
  inferInstanceAs (Decidable ((plist = 0 ∧ k = 0) ∨
    (plist ≠ 0 ∧ 0 < k ∧
      (walk h.next k plist).Nodup ∧ 0 ∉ walk h.next k plist ∧
      h.next^[k] plist = plist ∧
      (walk h.prev k plist).Nodup ∧ h.prev^[k] plist = plist ∧
      ∀ x ∈ walk h.next k plist, h.next (h.prev x) = x ∧ h.prev (h.next x) = x)))

/-- A sample class: a node stores the key it was initialised for, `compare`
is key equality, `init` never fails, there is no `reset` and no `done`. -/
def keyClass : FTC_MruListClassRec (Option Nat) Nat :=
  { node_compare := fun p k => decide (p = some k)
    node_init := fun _ k => (0, some k)
    node_reset := none
    node_done := none }

/-- A sample class like `keyClass`, except that `init` fails with error `7`
on the key `0`, and that it has a `done`, which clears the node. -/
def pickyClass : FTC_MruListClassRec (Option Nat) Nat :=
  { node_compare := fun p k => decide (p = some k)
    node_init := fun p k => if k = 0 then (7, p) else (0, some k)
    node_reset := none
    node_done := some (fun _ => none) }

/-- A sample memory manager that always succeeds: the new block is the one
after the highest block in use. -/
def bumpMemory {P : Type} (zero : P) : FT_TS_MemoryRec P :=
  { alloc := fun live => some (live.foldr max 0 + 1)
    zero := zero }

/-- A sample memory manager with room for `cap` blocks: like `bumpMemory`
while fewer than `cap` blocks are in use, failing otherwise (always, when
`cap = 0`). -/
def poolMemory {P : Type} (cap : Nat) (zero : P) : FT_TS_MemoryRec P :=
  { alloc := fun live => if live.length < cap then some (live.foldr max 0 + 1) else none
    zero := zero }

/-- A sample heap with no block in use. -/
def emptyHeap {P : Type} (zero : P) : Heap P :=
  { next := fun _ => 0
    prev := fun _ => 0
    payload := fun _ => zero
    live := [] }

/-- A sample list of `keyClass` nodes with `max_nodes = 2`, after the keys
`10` and `20` were inserted: node `2` (key `20`) then node `1` (key `10`). -/
def sampleList : FTC_MruListRec (Option Nat) Nat :=
  (FTC_MruList_New (FTC_MruList_New
    (FTC_MruList_Init keyClass 2 (bumpMemory none) (emptyHeap none)) 10).2.2 20).2.2

/-- A sample list of `pickyClass` nodes with `max_nodes = 1`, holding node
`1` (key `5`). -/
def pickyList : FTC_MruListRec (Option Nat) Nat :=
  (FTC_MruList_New (FTC_MruList_Init pickyClass 1 (bumpMemory none) (emptyHeap none)) 5).2.2

/-- The all-zero basic family. -/
def zeroFamily : FTC_BasicFamilyRec :=
  { family := { num_nodes := 0, cache := 0 }
    attrs := { scaler := { face_id := 0, width := 0, height := 0, pixel := 0,
                           x_res := 0, y_res := 0 }
               load_flags := 0 } }

/-- A sample scaler comparison: equality of all the fields. -/
def sameScaler (a b : FTC_ScalerRec) : Bool := decide (a = b)

/-- A sample query: face `7` at 12 by 12 pixels. -/
def sampleQuery : FTC_BasicQueryRec :=
  { gindex := 0
    family := 0
    attrs := { scaler := { face_id := 7, width := 12, height := 12, pixel := 1,
                           x_res := 0, y_res := 0 }
               load_flags := 0 } }

/-- A sample query: face `8` at 12 by 12 pixels. -/
def otherQuery : FTC_BasicQueryRec :=
  { gindex := 0
    family := 0
    attrs := { scaler := { face_id := 8, width := 12, height := 12, pixel := 1,
                           x_res := 0, y_res := 0 }
               load_flags := 0 } }

/-- A sample list of basic families, unbounded (`max_nodes = 0`) as the family
list of a cache, holding one family, for `otherQuery` (face `8`), over a memory
manager with room for `cap` blocks. -/
def familyList (cap : Nat) : FTC_MruListRec FTC_BasicFamilyRec FTC_BasicQueryRec :=
  (FTC_MruList_New
    (FTC_MruList_Init (ftc_basic_family_class sameScaler 0) 0 (poolMemory cap zeroFamily)
      (emptyHeap zeroFamily)) otherQuery).2.2

/-- The selection "the node stores the key `k`" on `keyClass` nodes. -/
def storesKey (p : Option Nat) (k : Nat) : Bool := decide (p = some k)

/-- A sample list of `keyClass` nodes with `max_nodes = 2`, holding one node
(key `10`), over a memory manager with room for 8 blocks. -/
def pooledList : FTC_MruListRec (Option Nat) Nat :=
  (FTC_MruList_New
    (FTC_MruList_Init keyClass 2 (poolMemory 8 none) (emptyHeap none)) 10).2.2

/-- The call `FTC_MruNode_Up( &list->nodes, node )` on the nodes of a list. -/
def FTC_MruListRec.up {P K : Type} (list : FTC_MruListRec P K) (node : Ptr) :
    FTC_MruListRec P K :=
  { list with heap := (FTC_MruNode_Up list.heap list.nodes node).1
              nodes := (FTC_MruNode_Up list.heap list.nodes node).2 }

/-- The number of values of an `FT_TS_UInt` (32 bits): `UINT_MAX + 1`. -/
def UINT_SIZE : Nat := UINT_MAX + 1

/-- The cast `(FT_TS_UInt)x` of a signed value such as the `FT_TS_Int32`
`type->flags`: the value modulo `UINT_SIZE`. -/
def toUInt (x : Int) : Nat := (x % (UINT_SIZE : Int)).toNat

/-- The difference `a - b` of two `FT_TS_UInt`: it wraps below `0`. -/
def subU (a b : Nat) : Nat := if b ≤ a then a - b else UINT_MAX - (b - a) + 1

/-- Modelled from the spec: the error `Invalid_Argument` of
`FT_TS_THROW( Invalid_Argument )`; its number, `0x06` in fterrdef.h, is not part
of these sources. -/
def FT_TS_Err_Invalid_Argument : Nat := 0x06

/-- Modelled from the spec: `FTC_ImageTypeRec`, declared in ftcache.h, which is
not part of these sources: a face identifier, the width and height in pixels
and the load flags, an `FT_TS_Int32`. -/
structure FTC_ImageTypeRec where
  face_id : Nat
  width : Nat
  height : Nat
  flags : Int
  deriving DecidableEq

/-- Modelled from the spec: the fields of a cache node that ftcbasic.c reads
and writes: `ref_count` of `FTC_NodeRec` (ftccache.h), `gindex` of
`FTC_GNodeRec` (ftcglyph.h), `glyph` of `FTC_INodeRec` (ftcimage.h); the array
`sbits` of `FTC_SNodeRec` (ftcsbits.h) is part of the node and needs no field.
None of these headers is part of these sources; the width of `ref_count` is
not known from them and `ref_count++` is the successor. -/
structure FTC_NodeRec where
  ref_count : Int
  gindex : Nat
  glyph : Ptr
  deriving DecidableEq

/-- A value of type `FTC_SBit`: `NULL`, or the address of the element `index`
of the array `sbits` of the node `node`. -/
inductive FTC_SBit where
  | null
  | item (node : Ptr) (index : Nat)
  deriving DecidableEq

/-- The node comparison handed to `FTC_GCACHE_LOOKUP_CMP`: `FTC_GNode_Compare`
by the image cache, `FTC_SNode_Compare` by the small bitmap cache. -/
inductive FTC_NodeCompare where
  | FTC_GNode_Compare
  | FTC_SNode_Compare
  deriving DecidableEq

/-- A cache as ftcbasic.c sees it: its nodes, by address, and the rest of it
(hash buckets, family list, manager), which only the generic lookup touches. -/
structure FTC_GCacheRec (R : Type) where
  node : Ptr → FTC_NodeRec
  rest : R

/-- One use of `FTC_GCACHE_LOOKUP_CMP`: the node comparison, the hash, the
glyph index and the attributes of the query it was given. -/
structure FTC_GCacheCall where
  nodecmp : FTC_NodeCompare
  hash : Nat
  gindex : Nat
  attrs : FTC_BasicAttrRec
  deriving DecidableEq

/-- Modelled from the spec: what ftcbasic.c takes from headers that are not
part of these sources.  `FTC_SCALER_COMPARE` and `FTC_SCALER_HASH` (ftcmanag.h)
compare and hash a scaler, the hash being an `FT_TS_Offset`;
`FTC_SBIT_ITEMS_PER_NODE` (ftcsbits.h) is the number of small bitmaps of a
node; `offset_size` is the number of values of an `FT_TS_Offset` (fttypes.h);
`FTC_GCACHE_LOOKUP_CMP( cache, famcmp, nodecmp, hash, gindex, query, node,
error )` (ftcglyph.h) is the generic lookup: it resolves the family of the
query, then finds or creates the node, and leaves `( error, node )` and the
cache; of the query only the attributes are set when it is reached. -/
structure FTC_BasicEnv (R : Type) where
  FTC_SCALER_COMPARE : FTC_ScalerRec → FTC_ScalerRec → Bool
  FTC_SCALER_HASH : FTC_ScalerRec → Nat
  FTC_SBIT_ITEMS_PER_NODE : Nat
  offset_size : Nat
  FTC_GCACHE_LOOKUP_CMP : FTC_GCacheRec R → (FTC_BasicFamilyRec → FTC_BasicQueryRec → Bool) →
    FTC_NodeCompare → Nat → Nat → FTC_BasicAttrRec → Nat × Ptr × FTC_GCacheRec R

/-- The definition `FTC_BASIC_ATTR_HASH( a )`, ftcbasic.c lines 48-49: the
product `31 * (a)->load_flags` is an `FT_TS_UInt`, the sum an `FT_TS_Offset`. -/
def FTC_BASIC_ATTR_HASH {R : Type} (env : FTC_BasicEnv R) (a : FTC_BasicAttrRec) : Nat :=
  (env.FTC_SCALER_HASH a.scaler + 31 * a.load_flags % UINT_SIZE) % env.offset_size

/-- The outcome of one of the four lookup functions of ftcbasic.c: the error
returned; what the output pointers point to on return, `none` standing for a
pointer that is `NULL` (`out` is `*aglyph` or `*ansbit`); the cache
afterwards; and the uses of `FTC_GCACHE_LOOKUP_CMP` made, in order. -/
structure FTC_LookupRec (R V : Type) where
  error : Nat
  out : Option V
  anode : Option Ptr
  cache : FTC_GCacheRec R
  calls : List FTC_GCacheCall

/-- The statement `node->ref_count++`. -/
def FTC_GCacheRec.pin {R : Type} (cache : FTC_GCacheRec R) (node : Ptr) : FTC_GCacheRec R :=
  let n := cache.node node
  { cache with node := upd cache.node node ⟨n.ref_count + 1, n.gindex, n.glyph⟩ }

/-- The query attributes the type-based lookups build, ftcbasic.c lines
327-334 and 525-532. -/
def typeAttrs (type : FTC_ImageTypeRec) : FTC_BasicAttrRec :=
  { scaler := { face_id := type.face_id, width := type.width, height := type.height,
                pixel := 1, x_res := 0, y_res := 0 }
    load_flags := toUInt type.flags }

/-- The query attributes the scaler-based lookups build, ftcbasic.c lines
408-409 and 608-609; `load_flags` is an `FT_TS_ULong`. -/
def scalerAttrs (scaler : FTC_ScalerRec) (load_flags : Nat) : FTC_BasicAttrRec :=
  { scaler := scaler
    load_flags := load_flags % UINT_SIZE }

/-- The end of the image lookups, from the use of `FTC_GCACHE_LOOKUP_CMP` on,
ftcbasic.c lines 336-364 and 411-432; `anode` is what `*anode` holds when the
pointer is not `NULL`. -/
def imageLookup {R : Type} (env : FTC_BasicEnv R) (cache : FTC_GCacheRec R)
    (attrs : FTC_BasicAttrRec) (gindex : Nat) (anode : Option Ptr) : FTC_LookupRec R Ptr :=
  let hash := (FTC_BASIC_ATTR_HASH env attrs + gindex) % env.offset_size
  let r := env.FTC_GCACHE_LOOKUP_CMP cache (ftc_basic_family_compare env.FTC_SCALER_COMPARE)
    FTC_NodeCompare.FTC_GNode_Compare hash gindex attrs
  let calls := [{ nodecmp := FTC_NodeCompare.FTC_GNode_Compare, hash := hash, gindex := gindex,
                  attrs := attrs }]
  let error := r.1
  let node := r.2.1
  let cache := r.2.2
  if error = 0 then
    match anode with
    | some _ =>
      { error := error, out := some (cache.node node).glyph, anode := some node,
        cache := cache.pin node, calls := calls }
    | none =>
      { error := error, out := some (cache.node node).glyph, anode := none,
        cache := cache, calls := calls }
  else
    { error := error, out := some 0, anode := anode, cache := cache, calls := calls }

/-- The function `FTC_ImageCache_Lookup`, ftcbasic.c lines 290-365.  A pointer argument is
`none` when it is `NULL`; `aglyph` and `anode` hold what they point to.  The
result is `none` when the function reads through a `NULL` `type`. -/
def FTC_ImageCache_Lookup {R : Type} (env : FTC_BasicEnv R) (cache : FTC_GCacheRec R)
    (type : Option FTC_ImageTypeRec) (gindex : Nat) (aglyph anode : Option Ptr) :
    Option (FTC_LookupRec R Ptr) :=
  match aglyph with
  | none =>
    some { error := FT_TS_Err_Invalid_Argument, out := none, anode := anode, cache := cache,
           calls := [] }
  | some _ =>
    let anode := anode.map (fun _ => 0)
    match type with
    | none => none
    | some type => some (imageLookup env cache (typeAttrs type) gindex anode)

/-- The function `FTC_ImageCache_LookupScaler`, ftcbasic.c lines 370-433. -/
def FTC_ImageCache_LookupScaler {R : Type} (env : FTC_BasicEnv R) (cache : FTC_GCacheRec R)
    (scaler : Option FTC_ScalerRec) (load_flags : Nat) (gindex : Nat)
    (aglyph anode : Option Ptr) : FTC_LookupRec R Ptr :=
  match aglyph, scaler with
  | some _, some scaler =>
    let anode := anode.map (fun _ => 0)
    imageLookup env cache (scalerAttrs scaler load_flags) gindex anode
  | _, _ =>
    { error := FT_TS_Err_Invalid_Argument, out := aglyph, anode := anode, cache := cache,
      calls := [] }

/-- The end of the small bitmap lookups, from the use of
`FTC_GCACHE_LOOKUP_CMP` on, ftcbasic.c lines 534-566 and 611-635; `*ansbit` and
`*anode` (when not `NULL`) have been set to `NULL` before. -/
def sbitLookup {R : Type} (env : FTC_BasicEnv R) (cache : FTC_GCacheRec R)
    (attrs : FTC_BasicAttrRec) (gindex : Nat) (anode : Option Ptr) :
    FTC_LookupRec R FTC_SBit :=
  let hash := (FTC_BASIC_ATTR_HASH env attrs + gindex / env.FTC_SBIT_ITEMS_PER_NODE) %
    env.offset_size
  let r := env.FTC_GCACHE_LOOKUP_CMP cache (ftc_basic_family_compare env.FTC_SCALER_COMPARE)
    FTC_NodeCompare.FTC_SNode_Compare hash gindex attrs
  let calls := [{ nodecmp := FTC_NodeCompare.FTC_SNode_Compare, hash := hash, gindex := gindex,
                  attrs := attrs }]
  let error := r.1
  let node := r.2.1
  let cache := r.2.2
  if error ≠ 0 then
    { error := error, out := some FTC_SBit.null, anode := anode, cache := cache, calls := calls }
  else
    let ansbit := FTC_SBit.item node (subU gindex (cache.node node).gindex)
    match anode with
    | some _ =>
      { error := error, out := some ansbit, anode := some node, cache := cache.pin node,
        calls := calls }
    | none =>
      { error := error, out := some ansbit, anode := none, cache := cache, calls := calls }

/-- The function `FTC_SBitCache_Lookup`, ftcbasic.c lines 490-567.  A pointer argument is
`none` when it is `NULL`; `ansbit` and `anode` hold what they point to.  The
result is `none` when the function reads through a `NULL` `type`. -/
def FTC_SBitCache_Lookup {R : Type} (env : FTC_BasicEnv R) (cache : FTC_GCacheRec R)
    (type : Option FTC_ImageTypeRec) (gindex : Nat) (ansbit : Option FTC_SBit)
    (anode : Option Ptr) : Option (FTC_LookupRec R FTC_SBit) :=
  let anode := anode.map (fun _ => 0)
  match ansbit with
  | none =>
    some { error := FT_TS_Err_Invalid_Argument, out := none, anode := anode, cache := cache,
           calls := [] }
  | some _ =>
    match type with
    | none => none
    | some type => some (sbitLookup env cache (typeAttrs type) gindex anode)

/-- The function `FTC_SBitCache_LookupScaler`, ftcbasic.c lines 572-636. -/
def FTC_SBitCache_LookupScaler {R : Type} (env : FTC_BasicEnv R) (cache : FTC_GCacheRec R)
    (scaler : Option FTC_ScalerRec) (load_flags : Nat) (gindex : Nat)
    (ansbit : Option FTC_SBit) (anode : Option Ptr) : FTC_LookupRec R FTC_SBit :=
  let anode := anode.map (fun _ => 0)
  match ansbit, scaler with
  | some _, some scaler => sbitLookup env cache (scalerAttrs scaler load_flags) gindex anode
  | _, _ =>
    { error := FT_TS_Err_Invalid_Argument, out := ansbit, anode := anode, cache := cache,
      calls := [] }

/-- A sample of what the headers provide: the scaler comparison `sameScaler`,
a scaler hash, four small bitmaps per node, a 64-bit `FT_TS_Offset`, and a
generic lookup that always finds the node `1`. -/
def sampleEnv : FTC_BasicEnv Unit :=
  { FTC_SCALER_COMPARE := sameScaler
    FTC_SCALER_HASH := fun s => s.face_id + s.width + s.height * 7
    FTC_SBIT_ITEMS_PER_NODE := 4
    offset_size := 18446744073709551616
    FTC_GCACHE_LOOKUP_CMP := fun cache _ _ _ _ _ => (0, 1, cache) }

/-- A sample cache: every node is unpinned, starts at glyph index `4` and
holds the glyph `9`. -/
def sampleCache : FTC_GCacheRec Unit :=
  { node := fun _ => ⟨0, 4, 9⟩
    rest := () }

/-- A sample image type: face `7` at 12 by 12 pixels, no load flag. -/
def sampleType : FTC_ImageTypeRec :=
  { face_id := 7, width := 12, height := 12, flags := 0 }

/-- Is the event an evaluation of the `selection` of
`FTC_MruList_RemoveSelection`? -/
def Event.isSelect {K : Type} : Event K → Bool
  | Event.select _ => true
  | _ => false

/-- Is the event an allocation or a release of a block? -/
def Event.isMemory {K : Type} : Event K → Bool
  | Event.alloc _ => true
  | Event.free _ => true
  | _ => false

/-- The use `call` of `FTC_GCACHE_LOOKUP_CMP` on `cache` by one of the four
lookups: its `( error, node )` and the cache it leaves. -/
def FTC_BasicEnv.use {R : Type} (env : FTC_BasicEnv R) (cache : FTC_GCacheRec R)
    (call : FTC_GCacheCall) : Nat × Ptr × FTC_GCacheRec R :=
  env.FTC_GCACHE_LOOKUP_CMP cache (ftc_basic_family_compare env.FTC_SCALER_COMPARE)
    call.nodecmp call.hash call.gindex call.attrs

/-- The pinning of a lookup whose outcome on `cache` is `r`, `given` telling
whether `anode` was not `NULL`.  Either the lookup rejected its arguments and
left the cache alone; or it used `FTC_GCACHE_LOOKUP_CMP` once and returned its
error, and then: on success with an `anode`, `*anode` is the node found and
the cache is the one the generic lookup left but for the `ref_count` of that
node, which is one more; on failure, or without an `anode`, the cache is the
one the generic lookup left. -/
def Pinning {R V : Type} (env : FTC_BasicEnv R) (cache : FTC_GCacheRec R) (given : Bool)
    (r : FTC_LookupRec R V) : Prop :=
  (r.calls = [] ∧ r.error ≠ 0 ∧ r.cache = cache) ∨
  ∃ c, r.calls = [c] ∧ r.error = (env.use cache c).1 ∧
    (r.error = 0 → given = true →
      r.anode = some (env.use cache c).2.1 ∧
      (r.cache.node (env.use cache c).2.1).ref_count =
        ((env.use cache c).2.2.node (env.use cache c).2.1).ref_count + 1 ∧
      (r.cache.node (env.use cache c).2.1).gindex =
        ((env.use cache c).2.2.node (env.use cache c).2.1).gindex ∧
      (r.cache.node (env.use cache c).2.1).glyph =
        ((env.use cache c).2.2.node (env.use cache c).2.1).glyph ∧
      (∀ x, x ≠ (env.use cache c).2.1 → r.cache.node x = (env.use cache c).2.2.node x) ∧
      r.cache.rest = (env.use cache c).2.2.rest) ∧
    (r.error ≠ 0 ∨ given = false → r.cache = (env.use cache c).2.2)

/-- The constant `FT_TS_INT_MAX`, the largest `FT_TS_Int` (32 bits): `2 ^ 31 - 1`. -/
def INT_MAX : Nat := 2147483647

/-- The cast `(FT_TS_Int)x` of an `FT_TS_UInt`: the values above `INT_MAX` are
the negative ones. -/
def toInt (x : Nat) : Int := if x ≤ INT_MAX then (x : Int) else (x : Int) - (UINT_SIZE : Int)

/-- A call of one of the outside functions that load glyphs. -/
inductive FTC_LoadCall where
  | lookupSize (scaler : FTC_ScalerRec)
  | loadGlyph (face : Ptr) (gindex : Nat) (flags : Int)
  | getGlyph (face : Ptr)
  deriving DecidableEq

/-- Modelled from the spec: the outside collaborators of the family
callbacks, none of them part of these sources, over a state `W` of the
outside world.  `FTC_Manager_LookupSize( manager, scaler, &size )` resolves a
scaler into a size object: `( error, size )`; `size_face` is `size->face`;
`FT_TS_Load_Glyph( face, gindex, flags )` loads a glyph into the slot of the
face; `glyph_format` is `face->glyph->format`; `FT_TS_Get_Glyph( face->glyph,
&glyph )` extracts the glyph of the slot: `( error, glyph )`; the three
`FT_TS_GLYPH_FORMAT_` constants are the formats a glyph image can be stored
in. -/
structure FTC_LoadEnv (W : Type) where
  FTC_Manager_LookupSize : W → FTC_ScalerRec → Nat × Ptr × W
  size_face : W → Ptr → Ptr
  FT_TS_Load_Glyph : W → Ptr → Nat → Int → Nat × W
  glyph_format : W → Ptr → Nat
  FT_TS_Get_Glyph : W → Ptr → Nat × Ptr × W
  FT_TS_GLYPH_FORMAT_BITMAP : Nat
  FT_TS_GLYPH_FORMAT_OUTLINE : Nat
  FT_TS_GLYPH_FORMAT_SVG : Nat

/-- The outcome of `ftc_basic_family_load_glyph`: the error returned, what
`*aglyph` holds on return, the outside world afterwards, and the calls made,
in order. -/
structure FTC_LoadRec (W : Type) where
  error : Nat
  aglyph : Ptr
  world : W
  calls : List FTC_LoadCall

/-- The function `ftc_basic_family_load_glyph`, ftcbasic.c lines 159-207; `aglyph` is
what `*aglyph` holds at the call. -/
def ftc_basic_family_load_glyph {W : Type} (env : FTC_LoadEnv W) (world : W)
    (family : FTC_BasicFamilyRec) (gindex : Nat) (aglyph : Ptr) : FTC_LoadRec W :=
  let scaler := family.attrs.scaler
  let s := env.FTC_Manager_LookupSize world scaler
  let calls := [FTC_LoadCall.lookupSize scaler]
  if s.1 = 0 then
    let face := env.size_face s.2.2 s.2.1
    let flags := toInt family.attrs.load_flags
    let l := env.FT_TS_Load_Glyph s.2.2 face gindex flags
    let calls := calls ++ [FTC_LoadCall.loadGlyph face gindex flags]
    if l.1 = 0 then
      let format := env.glyph_format l.2 face
      if format = env.FT_TS_GLYPH_FORMAT_BITMAP ∨ format = env.FT_TS_GLYPH_FORMAT_OUTLINE ∨
          format = env.FT_TS_GLYPH_FORMAT_SVG then
        let g := env.FT_TS_Get_Glyph l.2 face
        let calls := calls ++ [FTC_LoadCall.getGlyph face]
        if g.1 = 0 then
          { error := g.1, aglyph := g.2.1, world := g.2.2, calls := calls }
        else
          { error := g.1, aglyph := aglyph, world := g.2.2, calls := calls }
      else
        { error := FT_TS_Err_Invalid_Argument, aglyph := aglyph, world := l.2, calls := calls }
    else
      { error := l.1, aglyph := aglyph, world := l.2, calls := calls }
  else
    { error := s.1, aglyph := aglyph, world := s.2.2, calls := calls }

/-- The outcome of `ftc_basic_gnode_compare_faceid`: the result, what
`*list_changed` holds on return (`none` for a `NULL` pointer), the cache
afterwards, and the nodes `FTC_GNode_UnselectFamily` was called on. -/
structure FTC_FaceidRec (W : Type) where
  result : Bool
  list_changed : Option Bool
  cache : W
  unselected : List Ptr

/-- The function `ftc_basic_gnode_compare_faceid`, ftcbasic.c lines 210-233.
`FTC_GNode_UnselectFamily( gnode, cache )` (ftcglyph.c) is not part of these
sources and is a parameter; `family` reads, in the cache, the basic family
`gnode->family` points to. -/
def ftc_basic_gnode_compare_faceid {W : Type} (FTC_GNode_UnselectFamily : W → Ptr → W)
    (family : W → Ptr → FTC_BasicFamilyRec) (gnode : Ptr) (face_id : Nat) (cache : W)
    (list_changed : Option Bool) : FTC_FaceidRec W :=
  let list_changed := list_changed.map (fun _ => false)
  let result := decide ((family cache gnode).attrs.scaler.face_id = face_id)
  if result then
    { result := result, list_changed := list_changed,
      cache := FTC_GNode_UnselectFamily cache gnode, unselected := [gnode] }
  else
    { result := result, list_changed := list_changed, cache := cache, unselected := [] }

/-- A sample of the outside collaborators, over no state: every scaler
resolves to the size `1`, whose face is `2`; loading the glyph index `99`
fails with `Invalid_Argument`, any other succeeds; the slot holds a glyph of
format `1` (bitmap) unless the face is `0`; the glyph extracted is `9`. -/
def sampleLoadEnv : FTC_LoadEnv Unit :=
  { FTC_Manager_LookupSize := fun w _ => (0, 1, w)
    size_face := fun _ _ => 2
    FT_TS_Load_Glyph := fun w _ gindex _ =>
      (if gindex = 99 then FT_TS_Err_Invalid_Argument else 0, w)
    glyph_format := fun _ face => if face = 0 then 0 else 1
    FT_TS_Get_Glyph := fun w _ => (0, 9, w)
    FT_TS_GLYPH_FORMAT_BITMAP := 1
    FT_TS_GLYPH_FORMAT_OUTLINE := 2
    FT_TS_GLYPH_FORMAT_SVG := 3 }

/-- A sample like `sampleEnv`, except that the generic lookup always fails
with `Out_Of_Memory`. -/
def failingEnv : FTC_BasicEnv Unit :=
  { FTC_SCALER_COMPARE := sameScaler
    FTC_SCALER_HASH := fun s => s.face_id + s.width + s.height * 7
    FTC_SBIT_ITEMS_PER_NODE := 4
    offset_size := 18446744073709551616
    FTC_GCACHE_LOOKUP_CMP := fun cache _ _ _ _ _ => (FT_TS_Err_Out_Of_Memory, 0, cache) }

/-- A sample cache of glyph nodes, as the list of the nodes detached from
their family so far; every node belongs to the family built for `sampleQuery`
(face `7`). -/
def sampleUnselect (detached : List Ptr) (gnode : Ptr) : List Ptr := gnode :: detached

/-- The family of every node of the sample cache of glyph nodes. -/
def sampleFamilyOf (_detached : List Ptr) (_gnode : Ptr) : FTC_BasicFamilyRec :=
  (ftc_basic_family_init 0 zeroFamily sampleQuery).2

/-- The function `ftc_basic_family_get_count`, ftcbasic.c lines 96-127: the count
returned and the outside world afterwards.  `FTC_Manager_LookupFace( manager,
face_id, &face )`, which leaves `( error, face )`, and the field
`face->num_glyphs`, an `FT_TS_Long`, are not part of these sources and are
parameters. -/
def ftc_basic_family_get_count {W : Type} (FTC_Manager_LookupFace : W → Nat → Nat × Ptr × W)
    (num_glyphs : W → Ptr → Int) (world : W) (family : FTC_BasicFamilyRec) : Nat × W :=
  let r := FTC_Manager_LookupFace world family.attrs.scaler.face_id
  if r.1 ≠ 0 ∨ r.2.1 = 0 then (0, r.2.2)
  else (toUInt (num_glyphs r.2.2 r.2.1), r.2.2)

/-- The scaler the type-based lookups build from an image type, ftcbasic.c
lines 327-334: the face, width and height of the type, in pixels. -/
def typeScaler (type : FTC_ImageTypeRec) : FTC_ScalerRec :=
  { face_id := type.face_id, width := type.width, height := type.height,
    pixel := 1, x_res := 0, y_res := 0 }

/-- A sample face lookup: the face `0` is unknown (error `0x23`), the face
`5` resolves to a null face, any other face resolves to itself. -/
def sampleLookupFace (w : Unit) (face_id : Nat) : Nat × Ptr × Unit :=
  if face_id = 0 then (0x23, 0, w) else if face_id = 5 then (0, 0, w) else (0, face_id, w)

/-- A sample glyph count: the face `7` has 300 glyphs, the face `8` reports
`-1`. -/
def sampleNumGlyphs (_w : Unit) (face : Ptr) : Int :=
  if face = 8 then -1 else 300

/-- Modelled from the spec: the byte at position `p` of a buffer, as the
reading definitions of ftstream.h, which is not part of these sources, see it;
a byte is a value below 256, and a position outside the buffer reads as `0`
here. -/
def byteAt (stream : List Nat) (p : Nat) : Nat := stream.getD p 0 % 256

/-- Modelled from the spec: `FT_TS_NEXT_USHORT` (ftstream.h), the big-endian
16-bit value at position `p`. -/
def FT_TS_NEXT_USHORT (stream : List Nat) (p : Nat) : Nat :=
  byteAt stream p * 256 + byteAt stream (p + 1)

/-- Modelled from the spec: `FT_TS_NEXT_ULONG` (ftstream.h), the big-endian
32-bit value at position `p`. -/
def FT_TS_NEXT_ULONG (stream : List Nat) (p : Nat) : Nat :=
  ((byteAt stream p * 256 + byteAt stream (p + 1)) * 256 + byteAt stream (p + 2)) * 256 +
    byteAt stream (p + 3)

/-- Modelled from the spec: the error `Invalid_Table` (`0x08` in fterrdef.h,
which is not part of these sources). -/
def FT_TS_Err_Invalid_Table : Nat := 0x08

/-- Modelled from the spec: the error `Invalid_Glyph_Index` (`0x10` in
fterrdef.h, which is not part of these sources). -/
def FT_TS_Err_Invalid_Glyph_Index : Nat := 0x10

/-- The constant `SVG_TABLE_HEADER_SIZE`, ttsvg.c line 42. -/
def SVG_TABLE_HEADER_SIZE : Nat := 10

/-- The constant `SVG_DOCUMENT_RECORD_SIZE`, ttsvg.c line 43. -/
def SVG_DOCUMENT_RECORD_SIZE : Nat := 12

/-- The constant `SVG_DOCUMENT_LIST_MINIMUM_SIZE`, ttsvg.c line 44. -/
def SVG_DOCUMENT_LIST_MINIMUM_SIZE : Nat := 2 + SVG_DOCUMENT_RECORD_SIZE

/-- The constant `SVG_MINIMUM_SIZE`, ttsvg.c lines 45-46. -/
def SVG_MINIMUM_SIZE : Nat := SVG_TABLE_HEADER_SIZE + SVG_DOCUMENT_LIST_MINIMUM_SIZE

/-- The record `Svg`, ttsvg.c lines 49-59; `svg_doc_list` is the position of the
document list in the table. -/
structure Svg where
  version : Nat
  num_entries : Nat
  svg_doc_list : Nat
  table : List Nat
  table_size : Nat
  deriving DecidableEq

/-- Modelled from the spec: what `tt_face_load_svg` gets from the stream and
the memory manager, none of it part of these sources: the error of
`face->goto_table`, the bytes of the table (`table_size` is their number), the
error of `FT_TS_FRAME_EXTRACT` and the error of `FT_TS_NEW`. -/
structure SvgSource where
  goto_error : Nat
  table : List Nat
  extract_error : Nat
  new_error : Nat

/-- The function `tt_face_load_svg`, ttsvg.c lines 72-138: the error returned and
`face->svg` afterwards (`none` for `NULL`). -/
def tt_face_load_svg (src : SvgSource) : Nat × Option Svg :=
  let table_size := src.table.length
  if src.goto_error ≠ 0 then (src.goto_error, none)
  else if table_size < SVG_MINIMUM_SIZE then (FT_TS_Err_Invalid_Table, none)
  else if src.extract_error ≠ 0 then (src.extract_error, none)
  else if src.new_error ≠ 0 then (src.new_error, none)
  else
    let table := src.table
    let version := FT_TS_NEXT_USHORT table 0
    let offsetToSVGDocumentList := FT_TS_NEXT_ULONG table 2
    if offsetToSVGDocumentList < SVG_TABLE_HEADER_SIZE ∨
        offsetToSVGDocumentList > table_size - SVG_DOCUMENT_LIST_MINIMUM_SIZE then
      (FT_TS_Err_Invalid_Table, none)
    else
      let svg_doc_list := offsetToSVGDocumentList
      let num_entries := FT_TS_NEXT_USHORT table svg_doc_list
      if offsetToSVGDocumentList + num_entries * SVG_DOCUMENT_RECORD_SIZE > table_size then
        (FT_TS_Err_Invalid_Table, none)
      else
        (0, some { version := version, num_entries := num_entries,
                   svg_doc_list := svg_doc_list, table := table, table_size := table_size })

/-- The record `Svg_doc`, ttsvg.c lines 158-166. -/
structure Svg_doc where
  start_glyph_id : Nat
  end_glyph_id : Nat
  offset : Nat
  length : Nat
  deriving DecidableEq

/-- The function `extract_svg_doc`, ttsvg.c lines 169-182, on the 12 bytes at position
`p` of `stream`. -/
def extract_svg_doc (stream : List Nat) (p : Nat) : Svg_doc :=
  { start_glyph_id := FT_TS_NEXT_USHORT stream p
    end_glyph_id := FT_TS_NEXT_USHORT stream (p + 2)
    offset := FT_TS_NEXT_ULONG stream (p + 4)
    length := FT_TS_NEXT_ULONG stream (p + 8) }

/-- The function `compare_svg_doc`, ttsvg.c lines 185-195. -/
def compare_svg_doc (doc : Svg_doc) (glyph_index : Nat) : Int :=
  if glyph_index < doc.start_glyph_id then -1
  else if glyph_index > doc.end_glyph_id then 1
  else 0

/-- What `find_doc` does, in program order: it reads a record (12 bytes) at a
byte offset of `stream`; it probes the record of index `i`; it computes
`end_index = i - 1`. -/
inductive FindEvent where
  | read (offset : Nat)
  | probe (i : Nat)
  | lower (i : Nat)
  deriving DecidableEq

/-- The sum `a + b` of two `FT_TS_UInt`: it wraps above `UINT_MAX`. -/
def addU (a b : Nat) : Nat := if a + b ≤ UINT_MAX then a + b else a + b - UINT_MAX - 1

/-- The `while ( start_index <= end_index )` loop of `find_doc`, ttsvg.c lines
238-259.  One unit of fuel per iteration.  The result is the record found
(`none` when `found` is still `FALSE`) and the events so far.  The records
read into `start_doc` and `end_doc` at lines 247 and 252 are never used. -/
def findLoop (stream : List Nat) (glyph_index : Nat) :
    Nat → Nat → Nat → List FindEvent → Option (Option Svg_doc × List FindEvent)
  | 0, start_index, end_index, tr => if start_index ≤ end_index then none else some (none, tr)
  | fuel + 1, start_index, end_index, tr =>
    if start_index ≤ end_index then
      let i := addU start_index end_index / 2
      let mid_doc := extract_svg_doc stream (i * 12)
      let tr := tr ++ [FindEvent.probe i, FindEvent.read (i * 12)]
      let comp_res := compare_svg_doc mid_doc glyph_index
      if comp_res = 1 then
        let start_index := incU i
        findLoop stream glyph_index fuel start_index end_index
          (tr ++ [FindEvent.read (start_index * 4)])
      else if comp_res = -1 then
        let end_index := decU i
        findLoop stream glyph_index fuel start_index end_index
          (tr ++ [FindEvent.lower i, FindEvent.read (end_index * 4)])
      else some (some mid_doc, tr)
    else some (none, tr)

/-- The outcome of `find_doc`: the error returned; the record whose fields
were written to `*doc_offset`, `*doc_length`, `*start_glyph` and `*end_glyph`
(`none` when they were not written); and the events of the call. -/
structure FindRec where
  error : Nat
  doc : Option Svg_doc
  trace : List FindEvent
  deriving DecidableEq

/-- The function `find_doc`, ttsvg.c lines 198-279; `stream` holds the records of the
document list.  `none` when the fuel runs out. -/
def find_doc (stream : List Nat) (num_entries glyph_index fuel : Nat) : Option FindRec :=
  let start_index := 0
  let end_index := decU num_entries
  if num_entries = 0 then some { error := FT_TS_Err_Invalid_Table, doc := none, trace := [] }
  else
    let start_doc := extract_svg_doc stream (start_index * 12)
    let end_doc := extract_svg_doc stream (end_index * 12)
    let tr := [FindEvent.read (start_index * 12), FindEvent.read (end_index * 12)]
    if compare_svg_doc start_doc glyph_index = -1 ∨ compare_svg_doc end_doc glyph_index = 1 then
      some { error := FT_TS_Err_Invalid_Glyph_Index, doc := none, trace := tr }
    else
      match findLoop stream glyph_index fuel start_index end_index tr with
      | none => none
      | some (none, tr) => some { error := FT_TS_Err_Invalid_Glyph_Index, doc := none, trace := tr }
      | some (some mid_doc, tr) => some { error := 0, doc := some mid_doc, trace := tr }

/-- Modelled from the spec: `FT_TS_MAKE_TAG( a, b, c, d )` (fttypes.h, not part
of these sources): the four character codes, the first in the high byte. -/
def FT_TS_MAKE_TAG (a b c d : Char) : Nat :=
  ((a.toNat * 256 + b.toNat) * 256 + c.toNat) * 256 + d.toNat

/-- The table `known_tags` of `woff2_known_tags`, woff2tags.c lines 37-102. -/
def known_tags : List Nat :=
  [ FT_TS_MAKE_TAG 'c' 'm' 'a' 'p', FT_TS_MAKE_TAG 'h' 'e' 'a' 'd',
    FT_TS_MAKE_TAG 'h' 'h' 'e' 'a', FT_TS_MAKE_TAG 'h' 'm' 't' 'x',
    FT_TS_MAKE_TAG 'm' 'a' 'x' 'p', FT_TS_MAKE_TAG 'n' 'a' 'm' 'e',
    FT_TS_MAKE_TAG 'O' 'S' '/' '2', FT_TS_MAKE_TAG 'p' 'o' 's' 't',
    FT_TS_MAKE_TAG 'c' 'v' 't' ' ', FT_TS_MAKE_TAG 'f' 'p' 'g' 'm',
    FT_TS_MAKE_TAG 'g' 'l' 'y' 'f', FT_TS_MAKE_TAG 'l' 'o' 'c' 'a',
    FT_TS_MAKE_TAG 'p' 'r' 'e' 'p', FT_TS_MAKE_TAG 'C' 'F' 'F' ' ',
    FT_TS_MAKE_TAG 'V' 'O' 'R' 'G', FT_TS_MAKE_TAG 'E' 'B' 'D' 'T',
    FT_TS_MAKE_TAG 'E' 'B' 'L' 'C', FT_TS_MAKE_TAG 'g' 'a' 's' 'p',
    FT_TS_MAKE_TAG 'h' 'd' 'm' 'x', FT_TS_MAKE_TAG 'k' 'e' 'r' 'n',
    FT_TS_MAKE_TAG 'L' 'T' 'S' 'H', FT_TS_MAKE_TAG 'P' 'C' 'L' 'T',
    FT_TS_MAKE_TAG 'V' 'D' 'M' 'X', FT_TS_MAKE_TAG 'v' 'h' 'e' 'a',
    FT_TS_MAKE_TAG 'v' 'm' 't' 'x', FT_TS_MAKE_TAG 'B' 'A' 'S' 'E',
    FT_TS_MAKE_TAG 'G' 'D' 'E' 'F', FT_TS_MAKE_TAG 'G' 'P' 'O' 'S',
    FT_TS_MAKE_TAG 'G' 'S' 'U' 'B', FT_TS_MAKE_TAG 'E' 'B' 'S' 'C',
    FT_TS_MAKE_TAG 'J' 'S' 'T' 'F', FT_TS_MAKE_TAG 'M' 'A' 'T' 'H',
    FT_TS_MAKE_TAG 'C' 'B' 'D' 'T', FT_TS_MAKE_TAG 'C' 'B' 'L' 'C',
    FT_TS_MAKE_TAG 'C' 'O' 'L' 'R', FT_TS_MAKE_TAG 'C' 'P' 'A' 'L',
    FT_TS_MAKE_TAG 'S' 'V' 'G' ' ', FT_TS_MAKE_TAG 's' 'b' 'i' 'x',
    FT_TS_MAKE_TAG 'a' 'c' 'n' 't', FT_TS_MAKE_TAG 'a' 'v' 'a' 'r',
    FT_TS_MAKE_TAG 'b' 'd' 'a' 't', FT_TS_MAKE_TAG 'b' 'l' 'o' 'c',
    FT_TS_MAKE_TAG 'b' 's' 'l' 'n', FT_TS_MAKE_TAG 'c' 'v' 'a' 'r',
    FT_TS_MAKE_TAG 'f' 'd' 's' 'c', FT_TS_MAKE_TAG 'f' 'e' 'a' 't',
    FT_TS_MAKE_TAG 'f' 'm' 't' 'x', FT_TS_MAKE_TAG 'f' 'v' 'a' 'r',
    FT_TS_MAKE_TAG 'g' 'v' 'a' 'r', FT_TS_MAKE_TAG 'h' 's' 't' 'y',
    FT_TS_MAKE_TAG 'j' 'u' 's' 't', FT_TS_MAKE_TAG 'l' 'c' 'a' 'r',
    FT_TS_MAKE_TAG 'm' 'o' 'r' 't', FT_TS_MAKE_TAG 'm' 'o' 'r' 'x',
    FT_TS_MAKE_TAG 'o' 'p' 'b' 'd', FT_TS_MAKE_TAG 'p' 'r' 'o' 'p',
    FT_TS_MAKE_TAG 't' 'r' 'a' 'k', FT_TS_MAKE_TAG 'Z' 'a' 'p' 'f',
    FT_TS_MAKE_TAG 'S' 'i' 'l' 'f', FT_TS_MAKE_TAG 'G' 'l' 'a' 't',
    FT_TS_MAKE_TAG 'G' 'l' 'o' 'c', FT_TS_MAKE_TAG 'F' 'e' 'a' 't',
    FT_TS_MAKE_TAG 'S' 'i' 'l' 'l' ]

/-- The function `woff2_known_tags`, woff2tags.c lines 34-109; `index` is an `FT_TS_Byte`. -/
def woff2_known_tags (index : Nat) : Nat :=
  if index > 62 then 0 else known_tags.getD index 0

/-- Modelled from the spec: the known-table list of the WOFF2 specification
(section 5.1, "Known Table Tags"), tag by tag, in the order of their
numbers. -/
def woff2SpecTags : List String :=
  [ "cmap", "head", "hhea", "hmtx", "maxp", "name", "OS/2", "post", "cvt ", "fpgm",
    "glyf", "loca", "prep", "CFF ", "VORG", "EBDT", "EBLC", "gasp", "hdmx", "kern",
    "LTSH", "PCLT", "VDMX", "vhea", "vmtx", "BASE", "GDEF", "GPOS", "GSUB", "EBSC",
    "JSTF", "MATH", "CBDT", "CBLC", "COLR", "CPAL", "SVG ", "sbix", "acnt", "avar",
    "bdat", "bloc", "bsln", "cvar", "fdsc", "feat", "fmtx", "fvar", "gvar", "hsty",
    "just", "lcar", "mort", "morx", "opbd", "prop", "trak", "Zapf", "Silf", "Glat",
    "Gloc", "Feat", "Sill" ]

/-- The number a four-character tag stands for: its character codes, the
first in the high byte. -/
def tagOfString (s : String) : Nat :=
  s.toList.foldl (fun acc c => acc * 256 + c.toNat) 0

/-- The record of index `j` of a document list. -/
def docAt (stream : List Nat) (j : Nat) : Svg_doc := extract_svg_doc stream (j * 12)

/-- The glyph range of the record holds the glyph index. -/
def Svg_doc.holds (doc : Svg_doc) (glyph_index : Nat) : Prop :=
  doc.start_glyph_id ≤ glyph_index ∧ glyph_index ≤ doc.end_glyph_id

instance (doc : Svg_doc) (glyph_index : Nat) : Decidable (doc.holds glyph_index) :=
  inferInstanceAs (Decidable (doc.start_glyph_id ≤ glyph_index ∧ glyph_index ≤ doc.end_glyph_id))

/-- An event of `find_doc` on a list of `n` records is in bounds: a read of
12 bytes lies within the `n * 12` bytes of the list, a probed index is below
`n`, and `i - 1` is computed for a positive `i` only. -/
def FindEvent.inBounds (n : Nat) : FindEvent → Prop
  | FindEvent.read offset => offset + 12 ≤ n * 12
  | FindEvent.probe i => i < n
  | FindEvent.lower i => 0 < i

/-- A sample document list of three records: glyphs 2 to 4, 7 to 7 and 10
to 20, with the documents at the offsets 100, 200 and 300, of lengths 50, 60
and 70. -/
def sampleDocs : List Nat :=
  [0, 2, 0, 4, 0, 0, 0, 100, 0, 0, 0, 50,
   0, 7, 0, 7, 0, 0, 0, 200, 0, 0, 0, 60,
   0, 10, 0, 20, 0, 0, 1, 44, 0, 0, 0, 70]

/-- A sample `SVG` table of 36 bytes: version 0, the document list at the
offset 12, two entries; the records start at the offset 14, so the second one
would end at the offset 38. -/
def shortSvgTable : List Nat :=
  [0, 0, 0, 0, 0, 12, 0, 0, 0, 0, 0, 0,
   0, 2,
   0, 2, 0, 4, 0, 0, 0, 100, 0, 0, 0, 50,
   0, 7, 0, 7, 0, 0, 0, 200, 0, 0]

/-- A sample `SVG` table of 38 bytes: as `shortSvgTable`, with the two bytes
that complete the second record. -/
def fullSvgTable : List Nat := shortSvgTable ++ [0, 60]


@[simp] theorem upd_same {α : Type} (f : Ptr → α) (p : Ptr) (v : α) : upd f p v p = v := by
  simp [upd]

theorem upd_other {α : Type} (f : Ptr → α) (p : Ptr) (v : α) (x : Ptr) (hx : x ≠ p) :
    upd f p v x = f x := by
  simp [upd, hx]

/-- A path survives any change of the heap that leaves alone the `next` of
its nodes but the last and the `prev` of its nodes but the first. -/
theorem chain_frame {P : Type} (h h' : Heap P) :
    ∀ (l : List Ptr), List.Chain' (Linked h) l →
      (∀ a ∈ l.dropLast, h'.next a = h.next a) →
      (∀ b ∈ l.tail, h'.prev b = h.prev b) → List.Chain' (Linked h') l
  | [], _, _, _ => List.chain'_nil
  | [_], _, _, _ => List.chain'_singleton _
  | a :: b :: t, hc, hn, hp => by
    rw [List.chain'_cons] at hc ⊢
    refine ⟨?_, chain_frame h h' (b :: t) hc.2 ?_ ?_⟩
    · have h1 := hn a (by simp)
      have h2 := hp b (by simp)
      unfold Linked at hc ⊢
      rw [h1, h2]; exact hc.1
    · intro x hx; exact hn x (by simp [List.dropLast, hx])
    · intro x hx; exact hp x (by simp at hx ⊢; exact Or.inr hx)

theorem getLast_not_mem_dropLast {l : List Ptr} (hl : l.Nodup) (a : Ptr)
    (ha : a ∈ l.getLast?) : a ∉ l.dropLast := by
  intro hmem
  rcases List.eq_nil_or_concat l with rfl | ⟨l', z, rfl⟩
  · simp at ha
  · rw [List.concat_eq_append] at hl ha hmem
    simp at ha hmem
    subst ha
    rw [List.nodup_append] at hl
    exact hl.2.2 hmem (by simp)

theorem head_not_mem_tail {l : List Ptr} (hl : l.Nodup) (a : Ptr)
    (ha : a ∈ l.head?) : a ∉ l.tail := by
  cases l with
  | nil => simp at ha
  | cons x xs =>
    simp at ha; subst ha
    simpa using (List.nodup_cons.mp hl).1

theorem ring_last {P : Type} {h : Heap P} {x : Ptr} {xs : List Ptr}
    (hr : Ring h x (x :: xs)) :
    ∃ z, (x :: xs).getLast? = some z ∧ h.next z = x ∧ h.prev x = z := by
  obtain ⟨_, _, _, _, hc⟩ := hr
  have hne : (x :: xs) ≠ [] := by simp
  refine ⟨(x :: xs).getLast hne, List.getLast?_eq_getLast _ hne, ?_⟩
  exact hc _ (List.getLast?_eq_getLast _ hne) x (by simp)

theorem ring_prepend {P : Type} (h : Heap P) (plist node : Ptr) (L : List Ptr)
    (hr : Ring h plist L) (hn0 : node ≠ 0) (hnL : node ∉ L) :
    Ring (FTC_MruNode_Prepend h plist node).1 (FTC_MruNode_Prepend h plist node).2 (node :: L) := by
  cases L with
  | nil =>
    obtain ⟨_, _, hp, _, _⟩ := hr
    simp at hp; subst hp
    simp [FTC_MruNode_Prepend, Ring, Linked, Heap.setNext, Heap.setPrev, hn0, Ne.symm hn0]
  | cons x xs =>
    obtain ⟨z, hz, hzn, hzp⟩ := ring_last (by
      have := hr.2.2.1; simp at this; subst this; exact hr)
    obtain ⟨hnd, h0, hp, hch, hcl⟩ := hr
    simp at hp; subst hp
    have hx0 : plist ≠ 0 := by intro h; apply h0; simp [h]
    have hzL : z ∈ plist :: xs := List.mem_of_mem_getLast? hz
    have hzne : z ≠ node := by rintro rfl; exact hnL hzL
    have hxne : plist ≠ node := by rintro rfl; exact hnL (by simp)
    simp only [FTC_MruNode_Prepend, hx0, ne_eq, not_false_eq_true, if_true, Heap.setNext, Heap.setPrev, hzp]
    refine ⟨List.nodup_cons.mpr ⟨hnL, hnd⟩, ?_, by simp, ?_, ?_⟩
    · simp only [List.mem_cons, not_or]; exact ⟨Ne.symm hn0, by simpa using h0⟩
    · rw [List.chain'_cons]
      refine ⟨?_, chain_frame h _ _ hch ?_ ?_⟩
      · simp [Linked, upd_other _ _ _ _ hxne]
      · intro a ha
        have h1 : a ≠ node := by rintro rfl; exact hnL (List.mem_of_mem_dropLast ha)
        have h2 : a ≠ z := by rintro rfl; exact getLast_not_mem_dropLast hnd _ hz ha
        simp [upd_other _ _ _ _ h1, upd_other _ _ _ _ h2]
      · intro b hb
        have h1 : b ≠ node := by rintro rfl; exact hnL (List.mem_of_mem_tail hb)
        have h2 : b ≠ plist := by rintro rfl; exact head_not_mem_tail hnd _ (by simp) hb
        simp [upd_other _ _ _ _ h1, upd_other _ _ _ _ h2]
    · intro a ha b hb
      have ha' : a = z := by
        rw [List.getLast?_cons_cons, hz] at ha; simpa using ha.symm
      simp at hb; subst hb; subst ha'
      simp [Linked, upd_other _ _ _ _ hzne]

theorem ring_remove {P : Type} (h : Heap P) (plist n : Ptr) (A B : List Ptr)
    (hr : Ring h plist (A ++ n :: B)) :
    Ring (FTC_MruNode_Remove h plist n).1 (FTC_MruNode_Remove h plist n).2 (A ++ B) := by
  obtain ⟨hnd, h0, hp, hch, hcl⟩ := hr
  rcases List.eq_nil_or_concat A with rfl | ⟨A', p, rfl⟩
  · cases B with
    | nil =>
      have hl : Linked h n n := hcl n (by simp) n (by simp)
      simp [FTC_MruNode_Remove, hl.1, Ring]
    | cons s B' =>
      simp only [List.nil_append] at hnd h0 hp hch hcl ⊢
      simp at hp; subst hp
      obtain ⟨z, hz⟩ : ∃ z, (s :: B').getLast? = some z :=
        ⟨_, List.getLast?_eq_getLast _ (by simp)⟩
      have hzl : Linked h z plist := hcl z (by rw [List.getLast?_cons_cons, hz]; rfl) plist (by simp)
      rw [List.chain'_cons] at hch
      have hns : plist ≠ s := by
        intro e; subst e; simp at hnd
      have hnd' : (s :: B').Nodup := (List.nodup_cons.mp hnd).2
      simp only [FTC_MruNode_Remove, hch.1.1, hzl.2, hns, if_false, if_true, Heap.setNext, Heap.setPrev]
      refine ⟨hnd', ?_, by simp, chain_frame h _ _ hch.2 ?_ ?_, ?_⟩
      · intro hm; exact h0 (List.mem_cons_of_mem _ hm)
      · intro a ha
        have : a ≠ z := by rintro rfl; exact getLast_not_mem_dropLast hnd' _ hz ha
        simp [upd_other _ _ _ _ this]
      · intro b hb
        have : b ≠ s := by rintro rfl; exact head_not_mem_tail hnd' _ (by simp) hb
        simp [upd_other _ _ _ _ this]
      · intro a ha b hb
        rw [hz] at ha
        simp at ha hb; subst ha; subst hb
        simp [Linked]
  · rw [List.concat_eq_append] at hnd h0 hp hch hcl ⊢
    obtain ⟨x, hx⟩ : ∃ x, (A' ++ [p]).head? = some x := by
      cases A' <;> simp
    have hxm : x ∈ A' ++ [p] := List.mem_of_mem_head? hx
    have hpx : plist = x := by
      rw [hp]; cases A' <;> simp at hx ⊢ <;> exact hx
    have hnA : n ∉ A' ++ [p] := by
      intro hm
      rw [List.nodup_append] at hnd
      exact hnd.2.2 hm (by simp)
    have hnx : n ≠ x := by rintro rfl; exact hnA hxm
    have hndA : (A' ++ [p]).Nodup := (List.nodup_append.mp hnd).1
    have hch' := hch
    rw [List.append_assoc, List.singleton_append, List.chain'_append_cons_cons] at hch
    obtain ⟨hcA, hpn, hcB⟩ := hch
    have hnp : n ≠ p := by rintro rfl; exact hnA (by simp)
    cases B with
    | nil =>
      have hl : Linked h n x := hcl n (by simp) x (by
        rw [List.head?_append_of_ne_nil _ (by simp)]; exact hx)
      simp only [FTC_MruNode_Remove, hl.1, hpn.2, hnx, hpx, if_false, Heap.setNext, Heap.setPrev,
        List.append_nil]
      refine ⟨hndA, ?_, ?_, chain_frame h _ _ hcA ?_ ?_, ?_⟩
      · intro hm; exact h0 (List.mem_append_left _ hm)
      · cases A' <;> simp at hx ⊢ <;> exact hx.symm
      · intro a ha
        have : a ≠ p := by
          rintro rfl; exact getLast_not_mem_dropLast hndA _ (by simp) ha
        simp [upd_other _ _ _ _ this]
      · intro b hb
        have : b ≠ x := by rintro rfl; exact head_not_mem_tail hndA _ hx hb
        simp [upd_other _ _ _ _ this]
      · intro a ha b hb
        rw [hx] at hb
        simp at ha hb; subst ha; subst hb
        simp [Linked]
    | cons s B' =>
      rw [List.chain'_cons] at hcB
      obtain ⟨hns', hcB⟩ := hcB
      obtain ⟨z, hz⟩ : ∃ z, (s :: B').getLast? = some z :=
        ⟨_, List.getLast?_eq_getLast _ (by simp)⟩
      have hzm : z ∈ s :: B' := List.mem_of_mem_getLast? hz
      have hl : Linked h z x := hcl z (by
        rw [List.getLast?_append_of_ne_nil _ (by simp), List.getLast?_cons_cons]; exact hz) x (by
        rw [List.head?_append_of_ne_nil _ (by simp)]; exact hx)
      have hdisj : ∀ a, a ∈ A' ++ [p] → a ∈ s :: B' → False := by
        intro a h1 h2
        rw [List.nodup_append] at hnd
        exact hnd.2.2 h1 (List.mem_cons_of_mem _ h2)
      have hndB : (s :: B').Nodup := by
        rw [List.nodup_append] at hnd
        exact (List.nodup_cons.mp hnd.2.1).2
      have hns : n ≠ s := by
        rintro rfl
        rw [List.nodup_append] at hnd
        have := (List.nodup_cons.mp hnd.2.1).1
        simp at this
      simp only [FTC_MruNode_Remove, hns'.1, hpn.2, hns, hnx, hpx, if_false, Heap.setNext,
        Heap.setPrev]
      refine ⟨?_, ?_, ?_, ?_, ?_⟩
      · rw [List.nodup_append]
        exact ⟨hndA, hndB, fun a h1 h2 => hdisj a h1 h2⟩
      · intro hm
        rcases List.mem_append.mp hm with h1 | h1
        · exact h0 (List.mem_append_left _ h1)
        · exact h0 (List.mem_append_right _ (List.mem_cons_of_mem _ h1))
      · cases A' <;> simp at hx ⊢ <;> exact hx.symm
      · rw [List.chain'_append]
        refine ⟨chain_frame h _ _ hcA ?_ ?_, chain_frame h _ _ hcB ?_ ?_, ?_⟩
        · intro a ha
          have : a ≠ p := by
            rintro rfl; exact getLast_not_mem_dropLast hndA _ (by simp) ha
          simp [upd_other _ _ _ _ this]
        · intro b hb
          have : b ≠ s := by
            rintro rfl; exact hdisj _ (List.mem_of_mem_tail hb) (by simp)
          simp [upd_other _ _ _ _ this]
        · intro a ha
          have : a ≠ p := by
            rintro rfl; exact hdisj _ (by simp) (List.mem_of_mem_dropLast ha)
          simp [upd_other _ _ _ _ this]
        · intro b hb
          have : b ≠ s := by
            rintro rfl; exact head_not_mem_tail hndB _ (by simp) hb
          simp [upd_other _ _ _ _ this]
        · intro a ha b hb
          simp at ha hb; subst ha; subst hb
          simp [Linked]
      · intro a ha b hb
        rw [List.getLast?_append_of_ne_nil _ (by simp), hz] at ha
        rw [List.head?_append_of_ne_nil _ (by simp), hx] at hb
        have ha' : z = a := by simpa using ha
        have hb' : x = b := by simpa using hb
        subst ha'; subst hb'
        have h1 : z ≠ p := by rintro rfl; exact hdisj _ (by simp) hzm
        have h2 : x ≠ s := by rintro rfl; exact hdisj _ hxm (by simp)
        simp [Linked, upd_other _ _ _ _ h1, upd_other _ _ _ _ h2, hl.1, hl.2]

theorem remove_heap {P : Type} (h : Heap P) (plist n : Ptr) :
    (FTC_MruNode_Remove h plist n).1 =
      (h.setNext (h.prev n) (h.next n)).setPrev (h.next n) (h.prev n) := by
  unfold FTC_MruNode_Remove
  simp only
  split_ifs <;> rfl

theorem up_eq_remove_prepend {P : Type} (h : Heap P) (plist n : Ptr)
    (hne : plist ≠ n) (h0 : plist ≠ 0) :
    FTC_MruNode_Up h plist n =
      FTC_MruNode_Prepend (FTC_MruNode_Remove h plist n).1 plist n := by
  rw [remove_heap]
  simp only [FTC_MruNode_Up, FTC_MruNode_Prepend, hne, h0, ne_eq, not_false_eq_true, if_true]
  rfl

theorem ring_head {P : Type} {h : Heap P} {plist : Ptr} {L : List Ptr}
    (hr : Ring h plist L) : plist = L.headD 0 := hr.2.2.1

theorem ring_up {P : Type} (h : Heap P) (plist n : Ptr) (A B : List Ptr)
    (hr : Ring h plist (A ++ n :: B)) :
    Ring (FTC_MruNode_Up h plist n).1 (FTC_MruNode_Up h plist n).2 (n :: (A ++ B)) := by
  cases A with
  | nil =>
    have hp := ring_head hr
    simp at hp; subst hp
    simpa [FTC_MruNode_Up] using hr
  | cons x A' =>
    have hp := ring_head hr
    simp at hp; subst hp
    have hnd := hr.1
    have h0 := hr.2.1
    have hx0 : plist ≠ 0 := by intro e; apply h0; simp [e]
    have hxn : plist ≠ n := by
      rintro rfl
      simp at hnd
    have hn0 : n ≠ 0 := by intro e; apply h0; simp [e]
    have hnm : n ∉ (plist :: A') ++ B := by
      intro hm
      have h1 := List.nodup_append.mp hnd
      rcases List.mem_append.mp hm with h2 | h2
      · exact h1.2.2 h2 (by simp)
      · exact (List.nodup_cons.mp h1.2.1).1 h2
    have hrem := ring_remove h plist n (plist :: A') B hr
    have hp2 := ring_head hrem
    simp at hp2
    rw [hp2] at hrem
    rw [up_eq_remove_prepend h plist n hxn hx0]
    exact ring_prepend _ plist n _ hrem hn0 hnm

theorem prepend_payload {P : Type} (h : Heap P) (plist n : Ptr) :
    (FTC_MruNode_Prepend h plist n).1.payload = h.payload ∧
    (FTC_MruNode_Prepend h plist n).1.live = h.live := by
  unfold FTC_MruNode_Prepend
  simp only
  split_ifs <;> exact ⟨rfl, rfl⟩

theorem remove_payload {P : Type} (h : Heap P) (plist n : Ptr) :
    (FTC_MruNode_Remove h plist n).1.payload = h.payload ∧
    (FTC_MruNode_Remove h plist n).1.live = h.live := by
  rw [remove_heap]; exact ⟨rfl, rfl⟩

theorem up_payload {P : Type} (h : Heap P) (plist n : Ptr) :
    (FTC_MruNode_Up h plist n).1.payload = h.payload ∧
    (FTC_MruNode_Up h plist n).1.live = h.live := by
  unfold FTC_MruNode_Up
  simp only
  split_ifs <;> exact ⟨rfl, rfl⟩

/-- A ring does not depend on payloads or live blocks. -/
theorem ring_congr {P : Type} {h h' : Heap P} (hn : h'.next = h.next) (hp : h'.prev = h.prev)
    {plist : Ptr} {L : List Ptr} (hr : Ring h plist L) : Ring h' plist L := by
  obtain ⟨a, b, c, d, e⟩ := hr
  refine ⟨a, b, c, d.imp ?_, fun x hx y hy => ?_⟩
  · intro u v huv; simpa [Linked, hn, hp] using huv
  · simpa [Linked, hn, hp] using e x hx y hy

theorem ring_next {P : Type} {h : Heap P} {first : Ptr} {A B : List Ptr} {a b : Ptr}
    (hr : Ring h first (A ++ a :: b :: B)) : h.next a = b ∧ h.prev b = a := by
  have hc := hr.2.2.2.1
  rw [List.chain'_append_cons_cons] at hc
  exact hc.2.1

theorem ring_next_last {P : Type} {h : Heap P} {first : Ptr} {A : List Ptr} {a : Ptr}
    (hr : Ring h first (A ++ [a])) : h.next a = first ∧ h.prev first = a := by
  obtain ⟨_, _, hp, _, hcl⟩ := hr
  have hne : A ++ [a] ≠ [] := by simp
  obtain ⟨x, hx⟩ : ∃ x, (A ++ [a]).head? = some x := by
    cases A <;> simp
  have : first = x := by
    rw [hp]; cases A <;> simp at hx ⊢ <;> exact hx
  subst this
  exact hcl a (by simp) first hx

theorem ring_ne_head {P : Type} {h : Heap P} {first : Ptr} {A B : List Ptr} {a b : Ptr}
    (hr : Ring h first (A ++ a :: b :: B)) : b ≠ first := by
  obtain ⟨hnd, _, hp, _, _⟩ := hr
  rintro rfl
  cases A with
  | nil =>
    simp at hp; subst hp
    simp at hnd
  | cons x A' =>
    simp at hp; subst hp
    simp at hnd

theorem findScan_miss {P K : Type} (key : K) :
    ∀ (B A : List Ptr) (node : Ptr) (fuel : Nat) (list : FTC_MruListRec P K),
      Ring list.heap list.nodes (A ++ node :: B) → B.length < fuel →
      (∀ x ∈ node :: B, hits list key x = false) →
      findScan list.nodes key fuel node list =
        some (0, { list with
          trace := list.trace ++ (node :: B).map (fun x => Event.compare x key) })
  | [], A, node, fuel, list, hr, hf, hm => by
    obtain ⟨f, rfl⟩ : ∃ f, fuel = f + 1 := ⟨fuel - 1, by omega⟩
    have h1 := hm node (by simp)
    have h2 := (ring_next_last hr).1
    simp only [hits] at h1
    simp [findScan, FTC_MruListRec.emit, h1, h2]
  | b :: B, A, node, fuel, list, hr, hf, hm => by
    obtain ⟨f, rfl⟩ : ∃ f, fuel = f + 1 := ⟨fuel - 1, by omega⟩
    have h1 := hm node (by simp)
    have h2 := (ring_next hr).1
    have h3 := ring_ne_head hr
    simp only [hits] at h1
    have ih := findScan_miss key B (A ++ [node]) b f (list.emit (Event.compare node key))
      (by simpa [FTC_MruListRec.emit] using hr) (by simpa using hf)
      (fun x hx => by simpa [hits, FTC_MruListRec.emit] using hm x (List.mem_cons_of_mem _ hx))
    simp only [FTC_MruListRec.emit] at ih
    simp [findScan, FTC_MruListRec.emit, h1, h2, h3, ih]

theorem findScan_hit {P K : Type} (key : K) (n : Ptr) (B : List Ptr) :
    ∀ (C A : List Ptr) (node : Ptr) (fuel : Nat) (list : FTC_MruListRec P K),
      Ring list.heap list.nodes (A ++ (C ++ n :: B)) → (C ++ [n]).head? = some node →
      C.length < fuel →
      (∀ x ∈ C, hits list key x = false) → hits list key n = true →
      findScan list.nodes key fuel node list =
        some (n, { list with
          heap := (FTC_MruNode_Up list.heap list.nodes n).1
          nodes := (FTC_MruNode_Up list.heap list.nodes n).2
          trace := list.trace ++ (C ++ [n]).map (fun x => Event.compare x key) })
  | [], A, node, fuel, list, hr, hh, hf, hm, hn => by
    obtain ⟨f, rfl⟩ : ∃ f, fuel = f + 1 := ⟨fuel - 1, by omega⟩
    simp at hh; subst hh
    simp only [hits] at hn
    by_cases hfirst : n = list.nodes
    · subst hfirst
      simp [findScan, FTC_MruListRec.emit, hn, FTC_MruNode_Up]
    · simp [findScan, FTC_MruListRec.emit, hn, hfirst]
  | c :: C, A, node, fuel, list, hr, hh, hf, hm, hn => by
    obtain ⟨f, rfl⟩ : ∃ f, fuel = f + 1 := ⟨fuel - 1, by omega⟩
    simp at hh; subst hh
    have h1 := hm c (by simp)
    simp only [hits] at h1
    obtain ⟨b, hb⟩ : ∃ b, (C ++ [n]).head? = some b := by cases C <;> simp
    have hsplit : C ++ n :: B = b :: (C ++ n :: B).tail := by
      cases C <;> simp at hb ⊢ <;> exact hb.symm ▸ rfl
    have hr' : Ring list.heap list.nodes (A ++ c :: b :: (C ++ n :: B).tail) := by
      rw [← hsplit]; simpa using hr
    have h2 := (ring_next hr').1
    have h3 := ring_ne_head hr'
    have ih := findScan_hit key n B C (A ++ [c]) b f (list.emit (Event.compare c key))
      (by simpa [FTC_MruListRec.emit] using hr) hb (by simpa using hf)
      (fun x hx => by simpa [hits, FTC_MruListRec.emit] using hm x (List.mem_cons_of_mem _ hx))
      (by simpa [hits, FTC_MruListRec.emit] using hn)
    simp only [FTC_MruListRec.emit] at ih
    simp [findScan, FTC_MruListRec.emit, h1, h2, h3, ih]

theorem ring_nodes_ne_zero {P : Type} {h : Heap P} {first x : Ptr} {xs : List Ptr}
    (hr : Ring h first (x :: xs)) : first = x ∧ first ≠ 0 := by
  obtain ⟨_, h0, hp, _, _⟩ := hr
  simp at hp; subst hp
  refine ⟨rfl, ?_⟩
  intro e; apply h0; simp [e]

theorem find_miss {P K : Type} (list : FTC_MruListRec P K) (L : List Ptr) (key : K) (fuel : Nat)
    (hr : Ring list.heap list.nodes L) (hf : L.length ≤ fuel)
    (hm : ∀ x ∈ L, hits list key x = false) :
    FTC_MruList_Find fuel list key =
      some (0, { list with trace := list.trace ++ L.map (fun x => Event.compare x key) }) := by
  cases L with
  | nil =>
    have : list.nodes = 0 := by simpa using ring_head hr
    have h : ¬ (list.nodes ≠ 0) := by simp [this]
    simp only [FTC_MruList_Find, h, if_false, List.map_nil, List.append_nil]
  | cons x xs =>
    obtain ⟨hx, h0⟩ := ring_nodes_ne_zero hr
    have := findScan_miss key xs [] x fuel list (by simpa using hr) (by simpa using hf) hm
    simp only [FTC_MruList_Find, h0, ne_eq, not_false_eq_true, if_true]
    rw [hx] at this ⊢
    exact this

theorem find_hit {P K : Type} (list : FTC_MruListRec P K) (A B : List Ptr) (n : Ptr) (key : K)
    (fuel : Nat) (hr : Ring list.heap list.nodes (A ++ n :: B)) (hf : A.length < fuel)
    (hm : ∀ x ∈ A, hits list key x = false) (hn : hits list key n = true) :
    FTC_MruList_Find fuel list key =
      some (n, { list with
        heap := (FTC_MruNode_Up list.heap list.nodes n).1
        nodes := (FTC_MruNode_Up list.heap list.nodes n).2
        trace := list.trace ++ (A ++ [n]).map (fun x => Event.compare x key) }) := by
  obtain ⟨b, hb⟩ : ∃ b, (A ++ [n]).head? = some b := by cases A <;> simp
  have hsplit : A ++ n :: B = b :: (A ++ n :: B).tail := by
    cases A <;> simp at hb ⊢ <;> exact hb.symm ▸ rfl
  obtain ⟨hx, h0⟩ := ring_nodes_ne_zero (hsplit ▸ hr)
  have := findScan_hit key n B A [] b fuel list (by simpa using hr) hb hf hm hn
  simp only [FTC_MruList_Find, h0, ne_eq, not_false_eq_true, if_true]
  rw [hx] at this ⊢
  exact this

theorem erase_mid {A B : List Ptr} {n : Ptr} (hnd : (A ++ n :: B).Nodup) :
    (A ++ n :: B).erase n = A ++ B := by
  have : n ∉ A := by
    intro hm
    exact (List.nodup_append.mp hnd).2.2 hm (by simp)
  rw [List.erase_append_right _ this]
  simp

theorem Step.stepRefl {P K : Type} (a : FTC_MruListRec P K) : Step a a [] :=
  ⟨rfl, rfl, rfl, by simp⟩

theorem Step.stepTrans {P K : Type} {a b c : FTC_MruListRec P K} {e1 e2 : List (Event K)}
    (h1 : Step a b e1) (h2 : Step b c e2) : Step a c (e1 ++ e2) :=
  ⟨h2.max_nodes.trans h1.max_nodes, h2.clazz.trans h1.clazz, h2.memory.trans h1.memory,
    by rw [h2.trace, h1.trace, List.append_assoc]⟩

theorem callDone_spec {P K : Type} (list : FTC_MruListRec P K) (node : Ptr) :
    Step list (callDone list node) (doneEvents list.clazz node) ∧
    (callDone list node).num_nodes = list.num_nodes ∧
    (callDone list node).nodes = list.nodes ∧
    (callDone list node).heap.next = list.heap.next ∧
    (callDone list node).heap.prev = list.heap.prev ∧
    (callDone list node).heap.live = list.heap.live ∧
    (callDone list node).heap.payload =
      upd list.heap.payload node (donePayload list.clazz (list.heap.payload node)) := by
  unfold callDone doneEvents donePayload
  cases hd : list.clazz.node_done with
  | none =>
    refine ⟨⟨rfl, rfl, rfl, by simp⟩, rfl, rfl, rfl, rfl, rfl, ?_⟩
    funext x
    by_cases hx : x = node
    · simp [upd, hx]
    · simp [upd, hx]
  | some d =>
    exact ⟨⟨rfl, rfl, rfl, rfl⟩, rfl, rfl, rfl, rfl, rfl, rfl⟩

theorem free_spec {P K : Type} (list : FTC_MruListRec P K) (node : Ptr) :
    Step list (FT_TS_FREE list node) [Event.free node] ∧
    (FT_TS_FREE list node).num_nodes = list.num_nodes ∧
    (FT_TS_FREE list node).nodes = list.nodes ∧
    (FT_TS_FREE list node).heap.next = list.heap.next ∧
    (FT_TS_FREE list node).heap.prev = list.heap.prev ∧
    (FT_TS_FREE list node).heap.live = list.heap.live.erase node ∧
    (FT_TS_FREE list node).heap.payload = list.heap.payload :=
  ⟨⟨rfl, rfl, rfl, rfl⟩, rfl, rfl, rfl, rfl, rfl, rfl⟩

theorem upd_upd {α : Type} (f : Ptr → α) (p : Ptr) (v w : α) :
    upd (upd f p v) p w = upd f p w := by
  funext x; by_cases hx : x = p <;> simp [upd, hx]

/-- The function `FTC_MruList_Remove` of the member `n`. -/
theorem list_remove_spec {P K : Type} (list : FTC_MruListRec P K) (A B : List Ptr) (n : Ptr)
    (hr : Ring list.heap list.nodes (A ++ n :: B)) :
    Ring (FTC_MruList_Remove list n).heap (FTC_MruList_Remove list n).nodes (A ++ B) ∧
    Step list (FTC_MruList_Remove list n) (doneEvents list.clazz n ++ [Event.free n]) ∧
    (FTC_MruList_Remove list n).num_nodes = decU list.num_nodes ∧
    (FTC_MruList_Remove list n).heap.live = list.heap.live.erase n ∧
    (FTC_MruList_Remove list n).heap.payload =
      upd list.heap.payload n (donePayload list.clazz (list.heap.payload n)) := by
  have hrem := ring_remove list.heap list.nodes n A B hr
  have hpl := remove_payload list.heap list.nodes n
  obtain ⟨l1, hl1⟩ : ∃ l1 : FTC_MruListRec P K, l1 = decNodes { list with
    heap := (FTC_MruNode_Remove list.heap list.nodes n).1
    nodes := (FTC_MruNode_Remove list.heap list.nodes n).2 } := ⟨_, rfl⟩
  have a1 : l1.heap = (FTC_MruNode_Remove list.heap list.nodes n).1 := by rw [hl1]; rfl
  have a2 : l1.nodes = (FTC_MruNode_Remove list.heap list.nodes n).2 := by rw [hl1]; rfl
  have a3 : l1.clazz = list.clazz := by rw [hl1]; rfl
  have a4 : l1.num_nodes = decU list.num_nodes := by
    rw [hl1]; rfl
  have s1 : Step list l1 [] := by
    rw [hl1]; exact ⟨rfl, rfl, rfl, by simp [decNodes]⟩
  have e : FTC_MruList_Remove list n = FT_TS_FREE (callDone l1 n) n := by rw [hl1]; rfl
  rw [e]
  obtain ⟨hd1, hd2, hd3, hd4, hd5, hd6, hd7⟩ := callDone_spec l1 n
  obtain ⟨hf1, hf2, hf3, hf4, hf5, hf6, hf7⟩ := free_spec (callDone l1 n) n
  refine ⟨?_, ?_, ?_, ?_, ?_⟩
  · rw [hf3, hd3, a2]
    exact ring_congr (by rw [hf4, hd4, a1]) (by rw [hf5, hd5, a1]) hrem
  · have := (s1.stepTrans hd1).stepTrans hf1
    simpa [a3] using this
  · rw [hf2, hd2, a4]
  · rw [hf6, hd6, a1, hpl.2]
  · rw [hf7, hd7, a1, a3, hpl.1]

theorem newInit_spec {P K : Type} (list : FTC_MruListRec P K) (node : Ptr) (key : K)
    (L : List Ptr) (hr : Ring list.heap list.nodes L) (hn0 : node ≠ 0) (hnL : node ∉ L) :
    (newInit list node key).1 = (list.clazz.node_init (list.heap.payload node) key).1 ∧
    ((list.clazz.node_init (list.heap.payload node) key).1 = 0 →
      (newInit list node key).2.1 = node ∧
      Ring (newInit list node key).2.2.heap (newInit list node key).2.2.nodes (node :: L) ∧
      Step list (newInit list node key).2.2 [Event.init node key] ∧
      (newInit list node key).2.2.num_nodes = incU list.num_nodes ∧
      (newInit list node key).2.2.heap.live = list.heap.live ∧
      (newInit list node key).2.2.heap.payload =
        upd list.heap.payload node (list.clazz.node_init (list.heap.payload node) key).2) ∧
    ((list.clazz.node_init (list.heap.payload node) key).1 ≠ 0 →
      (newInit list node key).2.1 = 0 ∧
      Ring (newInit list node key).2.2.heap (newInit list node key).2.2.nodes L ∧
      Step list (newInit list node key).2.2
        ([Event.init node key] ++ doneEvents list.clazz node ++ [Event.free node]) ∧
      (newInit list node key).2.2.num_nodes = list.num_nodes ∧
      (newInit list node key).2.2.heap.live = list.heap.live.erase node ∧
      (newInit list node key).2.2.heap.payload =
        upd list.heap.payload node
          (donePayload list.clazz (list.clazz.node_init (list.heap.payload node) key).2)) := by
  obtain ⟨l1, hl1⟩ : ∃ l1 : FTC_MruListRec P K, l1 =
      (list.setPayload node (list.clazz.node_init (list.heap.payload node) key).2).emit
        (Event.init node key) := ⟨_, rfl⟩
  have b1 : l1.heap.next = list.heap.next := by rw [hl1]; rfl
  have b2 : l1.heap.prev = list.heap.prev := by rw [hl1]; rfl
  have b3 : l1.nodes = list.nodes := by rw [hl1]; rfl
  have b4 : l1.clazz = list.clazz := by rw [hl1]; rfl
  have b5 : l1.heap.payload =
      upd list.heap.payload node (list.clazz.node_init (list.heap.payload node) key).2 := by
    rw [hl1]; rfl
  have b6 : l1.heap.live = list.heap.live := by rw [hl1]; rfl
  have b7 : l1.num_nodes = list.num_nodes := by rw [hl1]; rfl
  have s1 : Step list l1 [Event.init node key] := by rw [hl1]; exact ⟨rfl, rfl, rfl, rfl⟩
  have hr1 : Ring l1.heap l1.nodes L := by rw [b3]; exact ring_congr b1 b2 hr
  by_cases he : (list.clazz.node_init (list.heap.payload node) key).1 = 0
  · have e : newInit list node key = (0, node, incNodes { l1 with
        heap := (FTC_MruNode_Prepend l1.heap l1.nodes node).1
        nodes := (FTC_MruNode_Prepend l1.heap l1.nodes node).2 }) := by
      rw [hl1]; simp [newInit, he]
    rw [e]
    refine ⟨he.symm, fun _ => ⟨rfl, ring_prepend _ _ _ _ hr1 hn0 hnL, ?_, ?_, ?_, ?_⟩,
      fun h => absurd he h⟩
    · exact ⟨s1.max_nodes, s1.clazz, s1.memory, s1.trace⟩
    · show incU l1.num_nodes = _
      rw [b7]
    · show (FTC_MruNode_Prepend l1.heap l1.nodes node).1.live = _
      rw [(prepend_payload _ _ _).2, b6]
    · show (FTC_MruNode_Prepend l1.heap l1.nodes node).1.payload = _
      rw [(prepend_payload _ _ _).1, b5]
  · have e : newInit list node key =
        ((list.clazz.node_init (list.heap.payload node) key).1, 0,
          FT_TS_FREE (callDone l1 node) node) := by
      rw [hl1]; simp [newInit, he]
    rw [e]
    obtain ⟨hd1, hd2, hd3, hd4, hd5, hd6, hd7⟩ := callDone_spec l1 node
    obtain ⟨hf1, hf2, hf3, hf4, hf5, hf6, hf7⟩ := free_spec (callDone l1 node) node
    refine ⟨rfl, fun h => absurd h he, fun _ => ⟨rfl, ?_, ?_, ?_, ?_, ?_⟩⟩
    · show Ring (FT_TS_FREE (callDone l1 node) node).heap (FT_TS_FREE (callDone l1 node) node).nodes L
      rw [hf3, hd3]
      exact ring_congr (by rw [hf4, hd4]) (by rw [hf5, hd5]) hr1
    · have := (s1.stepTrans hd1).stepTrans hf1
      simpa [b4] using this
    · show (FT_TS_FREE (callDone l1 node) node).num_nodes = _
      rw [hf2, hd2, b7]
    · show (FT_TS_FREE (callDone l1 node) node).heap.live = _
      rw [hf6, hd6, b6]
    · show (FT_TS_FREE (callDone l1 node) node).heap.payload = _
      rw [hf7, hd7, b5, b4, upd_same, upd_upd]

theorem mem_split_not_mem {A B : List Ptr} {t : Ptr} (hnd : (A ++ t :: B).Nodup) :
    t ∉ A ++ B := by
  intro hm
  have h1 := List.nodup_append.mp hnd
  rcases List.mem_append.mp hm with h2 | h2
  · exact h1.2.2 h2 (by simp)
  · exact (List.nodup_cons.mp h1.2.1).1 h2

theorem newRecycle_spec {P K : Type} (list : FTC_MruListRec P K) (t : Ptr) (key : K)
    (A B : List Ptr) (hr : Ring list.heap list.nodes (A ++ t :: B)) :
    (newRecycle list t key).1 =
      (list.clazz.node_init (donePayload list.clazz (list.heap.payload t)) key).1 ∧
    ((list.clazz.node_init (donePayload list.clazz (list.heap.payload t)) key).1 = 0 →
      (newRecycle list t key).2.1 = t ∧
      Ring (newRecycle list t key).2.2.heap (newRecycle list t key).2.2.nodes (t :: (A ++ B)) ∧
      Step list (newRecycle list t key).2.2 (doneEvents list.clazz t ++ [Event.init t key]) ∧
      (newRecycle list t key).2.2.num_nodes = incU (decU list.num_nodes) ∧
      (newRecycle list t key).2.2.heap.live = list.heap.live ∧
      (newRecycle list t key).2.2.heap.payload =
        upd list.heap.payload t
          (list.clazz.node_init (donePayload list.clazz (list.heap.payload t)) key).2) ∧
    ((list.clazz.node_init (donePayload list.clazz (list.heap.payload t)) key).1 ≠ 0 →
      (newRecycle list t key).2.1 = 0 ∧
      Ring (newRecycle list t key).2.2.heap (newRecycle list t key).2.2.nodes (A ++ B) ∧
      Step list (newRecycle list t key).2.2
        (doneEvents list.clazz t ++
          ([Event.init t key] ++ doneEvents list.clazz t ++ [Event.free t])) ∧
      (newRecycle list t key).2.2.num_nodes = decU list.num_nodes ∧
      (newRecycle list t key).2.2.heap.live = list.heap.live.erase t ∧
      (newRecycle list t key).2.2.heap.payload =
        upd list.heap.payload t (donePayload list.clazz
          (list.clazz.node_init (donePayload list.clazz (list.heap.payload t)) key).2)) := by
  have hrem := ring_remove list.heap list.nodes t A B hr
  have hpl := remove_payload list.heap list.nodes t
  obtain ⟨l0, hl0⟩ : ∃ l0 : FTC_MruListRec P K, l0 = decNodes { list with
    heap := (FTC_MruNode_Remove list.heap list.nodes t).1
    nodes := (FTC_MruNode_Remove list.heap list.nodes t).2 } := ⟨_, rfl⟩
  have a1 : l0.heap = (FTC_MruNode_Remove list.heap list.nodes t).1 := by rw [hl0]; rfl
  have a2 : l0.nodes = (FTC_MruNode_Remove list.heap list.nodes t).2 := by rw [hl0]; rfl
  have a3 : l0.clazz = list.clazz := by rw [hl0]; rfl
  have a4 : l0.num_nodes = decU list.num_nodes := by rw [hl0]; rfl
  have s0 : Step list l0 [] := by
    rw [hl0]; exact ⟨rfl, rfl, rfl, by simp [decNodes]⟩
  obtain ⟨hd1, hd2, hd3, hd4, hd5, hd6, hd7⟩ := callDone_spec l0 t
  have e : newRecycle list t key = newInit (callDone l0 t) t key := by rw [hl0]; rfl
  have hr1 : Ring (callDone l0 t).heap (callDone l0 t).nodes (A ++ B) := by
    rw [hd3, a2]
    exact ring_congr (by rw [hd4, a1]) (by rw [hd5, a1]) hrem
  have ht0 : t ≠ 0 := by
    intro e0; apply hr.2.1; simp [e0]
  have hc : (callDone l0 t).clazz = list.clazz := by rw [hd1.clazz, a3]
  have hp : (callDone l0 t).heap.payload t = donePayload list.clazz (list.heap.payload t) := by
    rw [hd7, a1, a3, hpl.1, upd_same]
  have sd : Step list (callDone l0 t) (doneEvents list.clazz t) := by
    have := s0.stepTrans hd1
    simpa [a3] using this
  obtain ⟨n1, n2, n3⟩ := newInit_spec (callDone l0 t) t key (A ++ B) hr1 ht0
    (mem_split_not_mem hr.1)
  rw [hc, hp] at n1 n2 n3
  rw [e]
  refine ⟨n1, fun h => ?_, fun h => ?_⟩
  · obtain ⟨m1, m2, m3, m4, m5, m6⟩ := n2 h
    refine ⟨m1, m2, sd.stepTrans m3, ?_, ?_, ?_⟩
    · rw [m4, hd2, a4]
    · rw [m5, hd6, a1, hpl.2]
    · rw [m6, hd7, a1, a3, hpl.1, upd_upd]
  · obtain ⟨m1, m2, m3, m4, m5, m6⟩ := n3 h
    refine ⟨m1, m2, sd.stepTrans m3, ?_, ?_, ?_⟩
    · rw [m4, hd2, a4]
    · rw [m5, hd6, a1, hpl.2]
    · rw [m6, hd7, a1, a3, hpl.1, upd_upd]

theorem new_full_reset {P K : Type} (list : FTC_MruListRec P K) (key : K) (D : List Ptr)
    (t : Ptr) (rs : P → K → Nat × P) (hcap : atCapacity list)
    (hr : Ring list.heap list.nodes (D ++ [t])) (hrs : list.clazz.node_reset = some rs)
    (hok : (rs (list.heap.payload t) key).1 = 0) :
    (FTC_MruList_New list key).1 = 0 ∧ (FTC_MruList_New list key).2.1 = t ∧
    Ring (FTC_MruList_New list key).2.2.heap (FTC_MruList_New list key).2.2.nodes (t :: D) ∧
    Step list (FTC_MruList_New list key).2.2 [Event.reset t key] ∧
    (FTC_MruList_New list key).2.2.num_nodes = list.num_nodes ∧
    (FTC_MruList_New list key).2.2.heap.live = list.heap.live ∧
    (FTC_MruList_New list key).2.2.heap.payload =
      upd list.heap.payload t (rs (list.heap.payload t) key).2 := by
  have ht : list.heap.prev list.nodes = t := (ring_next_last hr).2
  have hup := ring_up list.heap list.nodes t D [] hr
  have hpl := up_payload list.heap list.nodes t
  have hcap' : list.num_nodes ≥ list.max_nodes ∧ list.max_nodes > 0 := hcap
  have e : FTC_MruList_New list key = (0, t,
      ({ list with
          heap := (FTC_MruNode_Up list.heap list.nodes t).1
          nodes := (FTC_MruNode_Up list.heap list.nodes t).2 }.setPayload t
            (rs (list.heap.payload t) key).2).emit (Event.reset t key)) := by
    unfold FTC_MruList_New
    rw [if_pos hcap']
    simp only [hrs, ht, hpl.1, hok, if_true]
  rw [e]
  refine ⟨rfl, rfl, ?_, ⟨rfl, rfl, rfl, rfl⟩, rfl, hpl.2, ?_⟩
  · have := @ring_congr _ (FTC_MruNode_Up list.heap list.nodes t).1
      { (FTC_MruNode_Up list.heap list.nodes t).1 with
        payload := upd (FTC_MruNode_Up list.heap list.nodes t).1.payload t
          (rs (list.heap.payload t) key).2 } rfl rfl _ _ hup
    simpa using this
  · show upd (FTC_MruNode_Up list.heap list.nodes t).1.payload t _ = _
    rw [hpl.1]

theorem new_full_recycle {P K : Type} (list : FTC_MruListRec P K) (key : K) (D : List Ptr)
    (t : Ptr) (hcap : atCapacity list) (hr : Ring list.heap list.nodes (D ++ [t]))
    (hfail : ∀ rs, list.clazz.node_reset = some rs → (rs (list.heap.payload t) key).1 ≠ 0) :
    (FTC_MruList_New list key).1 =
      (list.clazz.node_init (recyclePayload list.clazz (list.heap.payload t) key) key).1 ∧
    ((list.clazz.node_init (recyclePayload list.clazz (list.heap.payload t) key) key).1 = 0 →
      (FTC_MruList_New list key).2.1 = t ∧
      Ring (FTC_MruList_New list key).2.2.heap (FTC_MruList_New list key).2.2.nodes (t :: D) ∧
      Step list (FTC_MruList_New list key).2.2
        (resetEvents list.clazz t key ++ (doneEvents list.clazz t ++ [Event.init t key])) ∧
      (FTC_MruList_New list key).2.2.num_nodes = incU (decU list.num_nodes) ∧
      (FTC_MruList_New list key).2.2.heap.live = list.heap.live ∧
      (FTC_MruList_New list key).2.2.heap.payload =
        upd list.heap.payload t
          (list.clazz.node_init (recyclePayload list.clazz (list.heap.payload t) key) key).2) ∧
    ((list.clazz.node_init (recyclePayload list.clazz (list.heap.payload t) key) key).1 ≠ 0 →
      (FTC_MruList_New list key).2.1 = 0 ∧
      Ring (FTC_MruList_New list key).2.2.heap (FTC_MruList_New list key).2.2.nodes D ∧
      Step list (FTC_MruList_New list key).2.2
        (resetEvents list.clazz t key ++ (doneEvents list.clazz t ++
          ([Event.init t key] ++ doneEvents list.clazz t ++ [Event.free t]))) ∧
      (FTC_MruList_New list key).2.2.num_nodes = decU list.num_nodes ∧
      (FTC_MruList_New list key).2.2.heap.live = list.heap.live.erase t ∧
      (FTC_MruList_New list key).2.2.heap.payload =
        upd list.heap.payload t (donePayload list.clazz
          (list.clazz.node_init (recyclePayload list.clazz (list.heap.payload t) key) key).2)) := by
  have ht : list.heap.prev list.nodes = t := (ring_next_last hr).2
  have hcap' : list.num_nodes ≥ list.max_nodes ∧ list.max_nodes > 0 := hcap
  cases hrs : list.clazz.node_reset with
  | none =>
    have e : FTC_MruList_New list key = newRecycle list t key := by
      unfold FTC_MruList_New
      rw [if_pos hcap']
      simp only [hrs, ht]
    have hrp : recyclePayload list.clazz (list.heap.payload t) key =
        donePayload list.clazz (list.heap.payload t) := by
      simp [recyclePayload, hrs]
    have hre : resetEvents list.clazz t key = [] := by simp [resetEvents, hrs]
    obtain ⟨n1, n2, n3⟩ := newRecycle_spec list t key D [] hr
    rw [List.append_nil] at n2 n3
    rw [e, hrp, hre]
    exact ⟨n1, n2, n3⟩
  | some rs =>
    have hne := hfail rs hrs
    have hup := ring_up list.heap list.nodes t D [] hr
    have hpl := up_payload list.heap list.nodes t
    obtain ⟨l2, hl2⟩ : ∃ l2 : FTC_MruListRec P K, l2 = ({ list with
          heap := (FTC_MruNode_Up list.heap list.nodes t).1
          nodes := (FTC_MruNode_Up list.heap list.nodes t).2 }.setPayload t
            (rs (list.heap.payload t) key).2).emit (Event.reset t key) := ⟨_, rfl⟩
    have e : FTC_MruList_New list key = newRecycle l2 t key := by
      unfold FTC_MruList_New
      rw [if_pos hcap', hl2]
      simp only [hrs, ht, hpl.1, hne, if_false]
    have c1 : l2.clazz = list.clazz := by rw [hl2]; rfl
    have c2 : l2.heap.payload = upd list.heap.payload t (rs (list.heap.payload t) key).2 := by
      rw [hl2]
      show upd (FTC_MruNode_Up list.heap list.nodes t).1.payload t _ = _
      rw [hpl.1]
    have c3 : l2.heap.live = list.heap.live := by rw [hl2]; exact hpl.2
    have c4 : l2.num_nodes = list.num_nodes := by rw [hl2]; rfl
    have s2 : Step list l2 [Event.reset t key] := by rw [hl2]; exact ⟨rfl, rfl, rfl, rfl⟩
    have hr2 : Ring l2.heap l2.nodes ([] ++ t :: D) := by
      rw [hl2]
      have := @ring_congr _ (FTC_MruNode_Up list.heap list.nodes t).1
        { (FTC_MruNode_Up list.heap list.nodes t).1 with
          payload := upd (FTC_MruNode_Up list.heap list.nodes t).1.payload t
            (rs (list.heap.payload t) key).2 } rfl rfl _ _ hup
      simpa using this
    have hrp : recyclePayload list.clazz (list.heap.payload t) key =
        donePayload list.clazz (rs (list.heap.payload t) key).2 := by
      simp [recyclePayload, hrs]
    have hre : resetEvents list.clazz t key = [Event.reset t key] := by
      simp [resetEvents, hrs]
    obtain ⟨n1, n2, n3⟩ := newRecycle_spec l2 t key [] D hr2
    rw [c1, c2, upd_same] at n1 n2 n3
    rw [e, hrp, hre]
    refine ⟨n1, fun h => ?_, fun h => ?_⟩
    · obtain ⟨m1, m2, m3, m4, m5, m6⟩ := n2 h
      refine ⟨m1, by simpa using m2, s2.stepTrans m3, ?_, ?_, ?_⟩
      · rw [m4, c4]
      · rw [m5, c3]
      · rw [m6, upd_upd]
    · obtain ⟨m1, m2, m3, m4, m5, m6⟩ := n3 h
      refine ⟨m1, by simpa using m2, s2.stepTrans m3, ?_, ?_, ?_⟩
      · rw [m4, c4]
      · rw [m5, c3]
      · rw [m6, upd_upd]

theorem new_room_oom {P K : Type} (list : FTC_MruListRec P K) (key : K)
    (hcap : ¬ atCapacity list) (ha : list.memory.alloc list.heap.live = none) :
    FTC_MruList_New list key = (FT_TS_Err_Out_Of_Memory, 0, list) := by
  have hcap' : ¬ (list.num_nodes ≥ list.max_nodes ∧ list.max_nodes > 0) := hcap
  unfold FTC_MruList_New
  rw [if_neg hcap']
  simp only [ha]

theorem new_room {P K : Type} (list : FTC_MruListRec P K) (key : K) (L : List Ptr) (p : Ptr)
    (hcap : ¬ atCapacity list) (hr : Ring list.heap list.nodes L)
    (ha : list.memory.alloc list.heap.live = some p) (hp0 : p ≠ 0) (hpL : p ∉ L) :
    (FTC_MruList_New list key).1 = (list.clazz.node_init list.memory.zero key).1 ∧
    ((list.clazz.node_init list.memory.zero key).1 = 0 →
      (FTC_MruList_New list key).2.1 = p ∧
      Ring (FTC_MruList_New list key).2.2.heap (FTC_MruList_New list key).2.2.nodes (p :: L) ∧
      Step list (FTC_MruList_New list key).2.2 ([Event.alloc p] ++ [Event.init p key]) ∧
      (FTC_MruList_New list key).2.2.num_nodes = incU list.num_nodes ∧
      (FTC_MruList_New list key).2.2.heap.live = p :: list.heap.live ∧
      (FTC_MruList_New list key).2.2.heap.payload =
        upd list.heap.payload p (list.clazz.node_init list.memory.zero key).2) ∧
    ((list.clazz.node_init list.memory.zero key).1 ≠ 0 →
      (FTC_MruList_New list key).2.1 = 0 ∧
      Ring (FTC_MruList_New list key).2.2.heap (FTC_MruList_New list key).2.2.nodes L ∧
      Step list (FTC_MruList_New list key).2.2
        ([Event.alloc p] ++ ([Event.init p key] ++ doneEvents list.clazz p ++ [Event.free p])) ∧
      (FTC_MruList_New list key).2.2.num_nodes = list.num_nodes ∧
      (FTC_MruList_New list key).2.2.heap.live = list.heap.live ∧
      (FTC_MruList_New list key).2.2.heap.payload =
        upd list.heap.payload p
          (donePayload list.clazz (list.clazz.node_init list.memory.zero key).2)) := by
  have hcap' : ¬ (list.num_nodes ≥ list.max_nodes ∧ list.max_nodes > 0) := hcap
  obtain ⟨l2, hl2⟩ : ∃ l2 : FTC_MruListRec P K, l2 =
      ({ list with heap := { list.heap with live := p :: list.heap.live } }.setPayload p
        list.memory.zero).emit (Event.alloc p) := ⟨_, rfl⟩
  have e : FTC_MruList_New list key = newInit l2 p key := by
    unfold FTC_MruList_New
    rw [if_neg hcap', hl2]
    simp only [ha]
  have c1 : l2.clazz = list.clazz := by rw [hl2]; rfl
  have c2 : l2.heap.payload = upd list.heap.payload p list.memory.zero := by rw [hl2]; rfl
  have c3 : l2.heap.live = p :: list.heap.live := by rw [hl2]; rfl
  have c4 : l2.num_nodes = list.num_nodes := by rw [hl2]; rfl
  have s2 : Step list l2 [Event.alloc p] := by rw [hl2]; exact ⟨rfl, rfl, rfl, rfl⟩
  have hr2 : Ring l2.heap l2.nodes L := by
    rw [hl2]; exact ring_congr (h := list.heap) rfl rfl hr
  obtain ⟨n1, n2, n3⟩ := newInit_spec l2 p key L hr2 hp0 hpL
  rw [c1, c2, upd_same] at n1 n2 n3
  rw [e]
  refine ⟨n1, fun h => ?_, fun h => ?_⟩
  · obtain ⟨m1, m2, m3, m4, m5, m6⟩ := n2 h
    refine ⟨m1, m2, s2.stepTrans m3, ?_, ?_, ?_⟩
    · rw [m4, c4]
    · rw [m5, c3]
    · rw [m6, upd_upd]
  · obtain ⟨m1, m2, m3, m4, m5, m6⟩ := n3 h
    refine ⟨m1, m2, s2.stepTrans m3, ?_, ?_, ?_⟩
    · rw [m4, c4]
    · rw [m5, c3]; simp
    · rw [m6, upd_upd]

/-- What `FTC_MruList_Find` does on a ring, by cases on the first node that
compares equal to the key. -/
theorem find_spec {P K : Type} (list : FTC_MruListRec P K) (L : List Ptr) (key : K)
    (fuel : Nat) (hr : Ring list.heap list.nodes L) (hfuel : L.length ≤ fuel) :
    ∃ list', FTC_MruList_Find fuel list key = some ((L.find? (hits list key)).getD 0, list') ∧
      (∀ n, L.find? (hits list key) = some n →
        Ring list'.heap list'.nodes (n :: L.erase n)) ∧
      (L.find? (hits list key) = none →
        list'.heap = list.heap ∧ list'.nodes = list.nodes) ∧
      list'.num_nodes = list.num_nodes ∧
      (∃ evs, Step list list' evs ∧ ∀ e ∈ evs, ∃ x, e = Event.compare x key) ∧
      list'.heap.payload = list.heap.payload ∧ list'.heap.live = list.heap.live := by
  cases hfind : L.find? (hits list key) with
  | none =>
    have hm : ∀ x ∈ L, hits list key x = false := by
      intro x hx
      have := (List.find?_eq_none.mp hfind) x hx
      simpa using this
    refine ⟨_, find_miss list L key fuel hr hfuel hm, ?_, fun _ => ⟨rfl, rfl⟩, rfl,
      ⟨_, ⟨rfl, rfl, rfl, rfl⟩, ?_⟩, rfl, rfl⟩
    · intro n hn; cases hn
    · intro e he
      obtain ⟨x, _, rfl⟩ := List.mem_map.mp he
      exact ⟨x, rfl⟩
  | some n =>
    obtain ⟨hn, A, B, hL, hA⟩ := List.find?_eq_some.mp hfind
    subst hL
    have hm : ∀ x ∈ A, hits list key x = false := by
      intro x hx
      simpa using hA x hx
    have hf : A.length < fuel := by
      simp at hfuel; omega
    refine ⟨_, find_hit list A B n key fuel hr hf hm hn, ?_, ?_, rfl,
      ⟨_, ⟨rfl, rfl, rfl, rfl⟩, ?_⟩, (up_payload _ _ _).1, (up_payload _ _ _).2⟩
    · intro n' hn'
      cases hn'
      rw [erase_mid hr.1]
      exact ring_up list.heap list.nodes n A B hr
    · intro h; cases h
    · intro e he
      obtain ⟨x, _, rfl⟩ := List.mem_map.mp he
      exact ⟨x, rfl⟩

/-- C6: `FTC_MruList_Find` on a well-formed list with node sequence `L`
returns (with fuel for one pass) the first node of `L`, head to tail, whose
`compare( node, key )` is true, and the sequence becomes that node followed by
`L` with the node erased; if no node compares true it returns `NULL` (`0`) and
heap links and list pointer are unchanged.  In both cases the list stays
well-formed, `num_nodes` is unchanged, and the only callbacks invoked are
`compare` calls with this key: no `init`, `reset` or `done`. -/
theorem C6_find_first_match_promoted {P K : Type} (list : FTC_MruListRec P K) (L : List Ptr)
    (key : K) (fuel : Nat) (hwf : WF list L) (hfuel : L.length ≤ fuel) :
    ∃ list', FTC_MruList_Find fuel list key = some ((L.find? (hits list key)).getD 0, list') ∧
      (∀ n, L.find? (hits list key) = some n → WF list' (n :: L.erase n)) ∧
      (L.find? (hits list key) = none →
        list'.heap = list.heap ∧ list'.nodes = list.nodes ∧ WF list' L) ∧
      list'.num_nodes = list.num_nodes ∧
      (∃ evs, list'.trace = list.trace ++ evs ∧ ∀ e ∈ evs, ∃ x, e = Event.compare x key) := by
  obtain ⟨hr, hnum, hmax⟩ := hwf
  obtain ⟨list', h1, h2, h3, h4, ⟨evs, h5, h6⟩, _, _⟩ := find_spec list L key fuel hr hfuel
  refine ⟨list', h1, ?_, ?_, h4, ⟨evs, h5.trace, h6⟩⟩
  · intro n hn
    refine ⟨h2 n hn, ?_, by rw [h4]; exact hmax⟩
    have hmem : n ∈ L := List.mem_of_find?_eq_some hn
    rw [h4, hnum]
    simp [List.length_erase_of_mem hmem]
    have : 0 < L.length := List.length_pos_of_mem hmem
    omega
  · intro hn
    obtain ⟨e1, e2⟩ := h3 hn
    refine ⟨e1, e2, ?_, by rw [h4]; exact hnum, by rw [h4]; exact hmax⟩
    rw [e1, e2]; exact hr

theorem Kept.keptRefl {P K : Type} (a : FTC_MruListRec P K) (g : Ptr → Prop) : Kept a a g :=
  ⟨fun _ _ => rfl, fun _ h _ => h, le_refl _⟩

theorem Kept.keptTrans {P K : Type} {a b c : FTC_MruListRec P K} {g1 g2 g : Ptr → Prop}
    (h1 : Kept a b g1) (h2 : Kept b c g2) (hg1 : ∀ x, g1 x → g x) (hg2 : ∀ x, g2 x → g x) :
    Kept a c g :=
  ⟨fun x hx => by
      rw [h2.payload x (fun h => hx (hg2 x h)), h1.payload x (fun h => hx (hg1 x h))],
    fun x hx hn => h2.live x (h1.live x hx (fun h => hn (hg1 x h))) (fun h => hn (hg2 x h)),
    le_trans h2.room h1.room⟩

theorem kept_remove {P K : Type} (list : FTC_MruListRec P K) (A B : List Ptr) (n : Ptr)
    (hr : Ring list.heap list.nodes (A ++ n :: B)) :
    Kept list (FTC_MruList_Remove list n) (fun x => x = n) := by
  obtain ⟨_, _, _, h4, h5⟩ := list_remove_spec list A B n hr
  refine ⟨fun x hx => ?_, fun x hx hn => ?_, ?_⟩
  · rw [h5, upd_other _ _ _ _ hx]
  · rw [h4]; exact (List.mem_erase_of_ne hn).mpr hx
  · rw [h4]; exact List.length_erase_le _ _

theorem emit_ring {P K : Type} (list : FTC_MruListRec P K) (e : Event K) (L : List Ptr)
    (hr : Ring list.heap list.nodes L) : Ring (list.emit e).heap (list.emit e).nodes L := hr

theorem removeLeading_spec {P K S : Type} (selection : Option (P → S → Bool)) (key : S)
    (q : Ptr → Bool) (c : FTC_MruListClassRec P K) :
    ∀ (L : List Ptr) (fuel : Nat) (list : FTC_MruListRec P K),
      Ring list.heap list.nodes L → L.length ≤ fuel → list.clazz = c →
      (∀ x ∈ L, picks selection key list x = q x) →
      ∃ list', removeLeading selection key fuel list = some list' ∧
        Ring list'.heap list'.nodes (L.dropWhile q) ∧
        list'.num_nodes = decU^[(L.takeWhile q).length] list.num_nodes ∧
        Step list list' (selectionEvents c selection.isSome q (L.takeWhile q) ++
          (if selection.isSome then (L.dropWhile q).take 1 |>.map Event.select else [])) ∧
        Kept list list' (fun x => x ∈ L.takeWhile q)
  | [], fuel, list, hr, _, _, _ => by
    have hn : list.nodes = 0 := by simpa using ring_head hr
    have h : ¬ (list.nodes ≠ 0) := by simp [hn]
    refine ⟨list, ?_, by simpa using hr, by simp, ?_, Kept.keptRefl _ _⟩
    · cases fuel <;> simp only [removeLeading, h, if_false]
    · simpa [selectionEvents] using Step.stepRefl list
  | x :: xs, fuel, list, hr, hf, hc, hq => by
    obtain ⟨f, rfl⟩ : ∃ f, fuel = f + 1 := ⟨fuel - 1, by simp at hf; omega⟩
    obtain ⟨hx, h0⟩ := ring_nodes_ne_zero hr
    have hqx := hq x (by simp)
    have hxxs : x ∉ xs := (List.nodup_cons.mp hr.1).1
    cases hsel : selection with
    | none =>
      subst hsel
      have hqt : q x = true := by rw [← hqx]; rfl
      obtain ⟨r1, r2, r3, r4, r5⟩ := list_remove_spec list [] xs x (by simpa using hr)
      have hk := kept_remove list [] xs x (by simpa using hr)
      obtain ⟨list', i1, i2, i3, i4, i5⟩ := removeLeading_spec none key q c xs f
        (FTC_MruList_Remove list x) (by simpa using r1) (by simpa using hf)
        (by rw [r2.clazz, hc]) (fun y hy => by
          rw [← hq y (List.mem_cons_of_mem _ hy)]; rfl)
      refine ⟨list', ?_, ?_, ?_, ?_, ?_⟩
      · simp only [removeLeading, h0, ne_eq, not_false_eq_true, if_true]
        rw [hx]; exact i1
      · simpa [hqt] using i2
      · rw [i3, r3]
        simp [hqt, Function.iterate_succ_apply]
      · have := r2.stepTrans i4
        simpa [hqt, selectionEvents, hc] using this
      · exact hk.keptTrans i5 (fun y hy => by simp [hqt, hy]) (fun y hy => by
          simp [hqt]; exact Or.inr hy)
    | some sel =>
      subst hsel
      have hqx' : sel (list.heap.payload x) key = q x := hqx
      by_cases hqt : q x = true
      · have hre : Ring (list.emit (Event.select x)).heap (list.emit (Event.select x)).nodes
            ([] ++ x :: xs) := by simpa using hr
        obtain ⟨r1, r2, r3, r4, r5⟩ := list_remove_spec (list.emit (Event.select x)) [] xs x hre
        have hk := kept_remove (list.emit (Event.select x)) [] xs x hre
        have r5' : (FTC_MruList_Remove (list.emit (Event.select x)) x).heap.payload =
            upd list.heap.payload x (donePayload list.clazz (list.heap.payload x)) := r5
        obtain ⟨list', i1, i2, i3, i4, i5⟩ := removeLeading_spec (some sel) key q c xs f
          (FTC_MruList_Remove (list.emit (Event.select x)) x) (by simpa using r1)
          (by simpa using hf) (by rw [r2.clazz]; exact hc) (fun y hy => by
            rw [← hq y (List.mem_cons_of_mem _ hy)]
            have hyx : y ≠ x := by rintro rfl; exact hxxs hy
            simp only [picks]
            rw [r5', upd_other _ _ _ _ hyx])
        have se : Step list (list.emit (Event.select x)) [Event.select x] := ⟨rfl, rfl, rfl, rfl⟩
        have ke : Kept list (list.emit (Event.select x)) (fun _ => False) :=
          ⟨fun _ _ => rfl, fun _ h _ => h, le_refl _⟩
        refine ⟨list', ?_, ?_, ?_, ?_, ?_⟩
        · simp only [removeLeading, h0, ne_eq, not_false_eq_true, if_true]
          rw [hx]
          have : sel ((list.emit (Event.select x)).heap.payload x) key = true := by
            rw [← hqt, ← hqx']; rfl
          rw [if_pos this]
          exact i1
        · simpa [hqt] using i2
        · rw [i3, r3]
          simp [hqt, Function.iterate_succ_apply]
          rfl
        · have := (se.stepTrans r2).stepTrans i4
          have hc' : (list.emit (Event.select x)).clazz = c := hc
          simpa [hqt, selectionEvents, hc'] using this
        · exact (ke.keptTrans hk (fun _ h => h.elim) (fun y hy => hy)).keptTrans i5
            (fun y hy => by simp [hqt, hy]) (fun y hy => by simp [hqt]; exact Or.inr hy)
      · have se : Step list (list.emit (Event.select x)) [Event.select x] := ⟨rfl, rfl, rfl, rfl⟩
        refine ⟨list.emit (Event.select x), ?_, ?_, ?_, ?_, ?_⟩
        · simp only [removeLeading, h0, ne_eq, not_false_eq_true, if_true]
          rw [hx]
          have : ¬ (sel ((list.emit (Event.select x)).heap.payload x) key = true) := by
            intro h; apply hqt; rw [← hqx']; exact h
          rw [if_neg this]
        · simpa [hqt] using hr
        · simp [hqt]; rfl
        · simpa [hqt, selectionEvents] using se
        · exact ⟨fun _ _ => rfl, fun _ h _ => h, le_refl _⟩

theorem removeRest_spec {P K S : Type} (sel : P → S → Bool) (key : S) (q : Ptr → Bool)
    (c : FTC_MruListClassRec P K) (first : Ptr) :
    ∀ (C Sv : List Ptr) (node : Ptr) (fuel : Nat) (list : FTC_MruListRec P K),
      Ring list.heap list.nodes (Sv ++ C) → Sv.head? = some first →
      (C ++ [first]).head? = some node → C.length ≤ fuel → list.clazz = c →
      (∀ x ∈ C, sel (list.heap.payload x) key = q x) →
      ∃ list', removeRest sel key first fuel node list = some list' ∧
        Ring list'.heap list'.nodes (Sv ++ C.filter (fun x => !q x)) ∧
        list'.num_nodes = decU^[(C.filter q).length] list.num_nodes ∧
        Step list list' (selectionEvents c true q C) ∧
        Kept list list' (fun x => x ∈ C.filter q)
  | [], Sv, node, fuel, list, hr, _, hn, _, _, _ => by
    have hn' : node = first := by simpa using hn.symm
    have h : ¬ (node ≠ first) := by simp [hn']
    refine ⟨list, ?_, by simpa using hr, by simp, ?_, Kept.keptRefl _ _⟩
    · cases fuel <;> simp only [removeRest, h, if_false]
    · simpa [selectionEvents] using Step.stepRefl list
  | c0 :: C', Sv, node, fuel, list, hr, hs, hn, hf, hc, hq => by
    obtain ⟨f, rfl⟩ : ∃ f, fuel = f + 1 := ⟨fuel - 1, by simp at hf; omega⟩
    have hn' : node = c0 := by simpa using hn.symm
    subst hn'
    have hfirstSv : first ∈ Sv := List.mem_of_mem_head? hs
    have hne : node ≠ first := by
      rintro rfl
      exact (List.nodup_append.mp hr.1).2.2 hfirstSv (by simp)
    have hnodes : list.nodes = first := by
      rw [ring_head hr]
      cases Sv with
      | nil => simp at hs
      | cons s Sv' => simpa using hs
    have hnC : node ∉ C' := by
      have := (List.nodup_append.mp hr.1).2.1
      exact (List.nodup_cons.mp this).1
    obtain ⟨nx, hnx⟩ : ∃ nx, (C' ++ [first]).head? = some nx := by cases C' <;> simp
    have hnext : list.heap.next node = nx := by
      cases C' with
      | nil =>
        have h1 := (ring_next_last hr).1
        simp at hnx
        rw [h1, hnodes, hnx]
      | cons c1 C'' =>
        simp at hnx
        rw [(ring_next hr).1, hnx]
    have se : Step list (list.emit (Event.select node)) [Event.select node] :=
      ⟨rfl, rfl, rfl, rfl⟩
    have ke : Kept list (list.emit (Event.select node)) (fun _ => False) :=
      ⟨fun _ _ => rfl, fun _ h _ => h, le_refl _⟩
    have hqn : sel (list.heap.payload node) key = q node := hq node (by simp)
    by_cases hqt : q node = true
    · have hre : Ring (list.emit (Event.select node)).heap (list.emit (Event.select node)).nodes
          (Sv ++ node :: C') := hr
      obtain ⟨r1, r2, r3, r4, r5⟩ := list_remove_spec (list.emit (Event.select node)) Sv C' node hre
      have hk := kept_remove (list.emit (Event.select node)) Sv C' node hre
      have r5' : (FTC_MruList_Remove (list.emit (Event.select node)) node).heap.payload =
          upd list.heap.payload node (donePayload list.clazz (list.heap.payload node)) := r5
      obtain ⟨list', i1, i2, i3, i4, i5⟩ := removeRest_spec sel key q c first C' Sv nx f
        (FTC_MruList_Remove (list.emit (Event.select node)) node) r1 hs hnx
        (by simpa using hf) (by rw [r2.clazz]; exact hc) (fun y hy => by
          rw [← hq y (List.mem_cons_of_mem _ hy)]
          have hyx : y ≠ node := by rintro rfl; exact hnC hy
          rw [r5', upd_other _ _ _ _ hyx])
      refine ⟨list', ?_, ?_, ?_, ?_, ?_⟩
      · simp only [removeRest, hne, ne_eq, not_false_eq_true, if_true]
        have : sel ((list.emit (Event.select node)).heap.payload node) key = true := by
          rw [← hqt, ← hqn]; rfl
        rw [if_pos this]
        have hnext' : (list.emit (Event.select node)).heap.next node = nx := hnext
        rw [hnext] at *
        exact i1
      · simpa [hqt] using i2
      · rw [i3, r3]
        simp [hqt, Function.iterate_succ_apply]
        rfl
      · have := (se.stepTrans r2).stepTrans i4
        have hc' : (list.emit (Event.select node)).clazz = c := hc
        simpa [hqt, selectionEvents, hc'] using this
      · exact (ke.keptTrans hk (fun _ h => h.elim) (fun y hy => hy)).keptTrans i5
          (fun y hy => by simp [hqt, hy]) (fun y hy => by
            simp [hqt]; exact Or.inr (by simpa using hy))
    · obtain ⟨list', i1, i2, i3, i4, i5⟩ := removeRest_spec sel key q c first C' (Sv ++ [node])
        nx f (list.emit (Event.select node)) (by simpa using hr)
        (by cases Sv <;> simp at hs ⊢; exact hs) hnx (by simpa using hf) hc
        (fun y hy => hq y (List.mem_cons_of_mem _ hy))
      refine ⟨list', ?_, ?_, ?_, ?_, ?_⟩
      · simp only [removeRest, hne, ne_eq, not_false_eq_true, if_true]
        have : ¬ (sel ((list.emit (Event.select node)).heap.payload node) key = true) := by
          intro h; apply hqt; rw [← hqn]; exact h
        rw [if_neg this, hnext]
        exact i1
      · simpa [hqt] using i2
      · rw [i3]
        simp [hqt]
        rfl
      · have := se.stepTrans i4
        simpa [hqt, selectionEvents] using this
      · exact ke.keptTrans i5 (fun _ h => h.elim) (fun y hy => by simpa [hqt] using hy)

theorem selectionEvents_append {P K : Type} (c : FTC_MruListClassRec P K) (asked : Bool)
    (q : Ptr → Bool) (L1 L2 : List Ptr) :
    selectionEvents c asked q (L1 ++ L2) =
      selectionEvents c asked q L1 ++ selectionEvents c asked q L2 := by
  simp [selectionEvents]

/-- What `FTC_MruList_RemoveSelection` does on a ring. -/
theorem removeSelection_spec {P K S : Type} (list : FTC_MruListRec P K) (L : List Ptr)
    (selection : Option (P → S → Bool)) (key : S) (fuel : Nat)
    (hr : Ring list.heap list.nodes L) (hf : L.length ≤ fuel) :
    ∃ list', FTC_MruList_RemoveSelection fuel list selection key = some list' ∧
      Ring list'.heap list'.nodes (L.filter (fun x => !picks selection key list x)) ∧
      list'.num_nodes = decU^[(L.filter (picks selection key list)).length] list.num_nodes ∧
      Step list list'
        (selectionEvents list.clazz selection.isSome (picks selection key list) L) ∧
      Kept list list' (fun x => x ∈ L.filter (picks selection key list)) := by
  obtain ⟨q, hq⟩ : ∃ q, q = picks selection key list := ⟨_, rfl⟩
  rw [← hq]
  obtain ⟨T, hT⟩ : ∃ T, T = L.takeWhile q := ⟨_, rfl⟩
  obtain ⟨D, hD⟩ : ∃ D, D = L.dropWhile q := ⟨_, rfl⟩
  have hL : L = T ++ D := by rw [hT, hD]; exact (List.takeWhile_append_dropWhile q L).symm
  have hTq : ∀ x ∈ T, q x = true := fun x hx => List.mem_takeWhile_imp (hT ▸ hx)
  have hTf : T.filter q = T := List.filter_eq_self.mpr hTq
  have hTn : T.filter (fun x => !q x) = [] := by
    rw [List.filter_eq_nil_iff]; intro a ha; simp [hTq a ha]
  obtain ⟨l1, i1, i2, i3, i4, i5⟩ := removeLeading_spec selection key q list.clazz L fuel list
    hr hf rfl (fun x _ => by rw [hq])
  rw [← hT] at i3 i4 i5
  rw [← hD] at i2 i4
  cases hDc : D with
  | nil =>
    rw [hDc] at i2 i4 hL
    have hn : l1.nodes = 0 := by simpa using ring_head i2
    have h : ¬ (l1.nodes ≠ 0) := by simp [hn]
    simp only [List.append_nil] at hL
    refine ⟨l1, ?_, ?_, ?_, ?_, ?_⟩
    · simp only [FTC_MruList_RemoveSelection, i1, h, if_false]
    · rw [hL, hTn]; exact i2
    · rw [hL, hTf]; exact i3
    · rw [hL]; simpa using i4
    · rw [hL, hTf]; exact i5
  | cons s D' =>
    rw [hDc] at i2 i4 hL
    have hqs : q s = false := by
      have := List.head?_dropWhile_not q L
      rw [← hD, hDc] at this
      simpa using this
    obtain ⟨hs1, hs0⟩ := ring_nodes_ne_zero i2
    cases hsel : selection with
    | none =>
      rw [hq, hsel] at hqs
      simp [picks] at hqs
    | some sel =>
      have hnd : L.Nodup := hr.1
      rw [hL] at hnd
      obtain ⟨nx, hnx⟩ : ∃ nx, (D' ++ [s]).head? = some nx := by cases D' <;> simp
      have hnext : l1.heap.next s = nx := by
        cases D' with
        | nil =>
          have h1 := (ring_next_last (A := []) (by simpa using i2)).1
          simp at hnx
          rw [h1, hs1, hnx]
        | cons d1 D'' =>
          simp at hnx
          rw [(ring_next (A := []) (by simpa using i2)).1, hnx]
      obtain ⟨l2, j1, j2, j3, j4, j5⟩ := removeRest_spec sel key q list.clazz s D' [s] nx fuel l1
        (by simpa using i2) (by simp) hnx (by
          rw [hL] at hf; simp at hf; omega) i4.clazz (fun y hy => by
          have hyT : ¬ y ∈ T := by
            intro hyT
            exact (List.nodup_append.mp hnd).2.2 hyT (List.mem_cons_of_mem _ hy)
          rw [i5.payload y hyT, hq, hsel]
          rfl)
      refine ⟨l2, ?_, ?_, ?_, ?_, ?_⟩
      · rw [hsel] at i1
        simp only [FTC_MruList_RemoveSelection, i1, hs0, ne_eq, not_false_eq_true, if_true]
        rw [hs1, hnext]
        exact j1
      · rw [hL]
        simpa [hTn, hqs] using j2
      · rw [j3, i3, hL, ← Function.iterate_add_apply]
        congr 1
        simp [hTf, hqs]
        omega
      · have := i4.stepTrans j4
        rw [hL, selectionEvents_append]
        simpa [hsel, selectionEvents, hqs] using this
      · refine i5.keptTrans j5 (fun y hy => ?_) (fun y hy => ?_)
        · rw [hL]; simp [hTf]; exact Or.inl hy
        · rw [hL]; simp [hqs]; exact Or.inr (by simpa using hy)

theorem decU_iterate (k : Nat) : ∀ n : Nat, k ≤ n → decU^[k] n = n - k := by
  induction k with
  | zero => intro n _; simp
  | succ k ih =>
    intro n hn
    rw [Function.iterate_succ_apply]
    have h1 : decU n = n - 1 := by
      unfold decU
      rw [if_neg (by omega)]
    rw [h1, ih (n - 1) (by omega)]
    omega

theorem selectionEvents_done {P K : Type} (c : FTC_MruListClassRec P K) (asked : Bool)
    (q : Ptr → Bool) (L : List Ptr) :
    (selectionEvents c asked q L).filter Event.isDone =
      if c.node_done.isSome then (L.filter q).map Event.done else [] := by
  induction L with
  | nil => simp [selectionEvents]
  | cons x xs ih =>
    have e : selectionEvents c asked q (x :: xs) =
        ((if asked then [Event.select x] else []) ++
          (if q x then doneEvents c x ++ [Event.free x] else [])) ++
          selectionEvents c asked q xs := by
      simp [selectionEvents]
    rw [e, List.filter_append, ih]
    cases hd : c.node_done <;> cases asked <;> cases hq : q x <;>
      simp [doneEvents, hd, hq, Event.isDone]

theorem filter_split_length (q : Ptr → Bool) (L : List Ptr) :
    (L.filter (fun x => !q x)).length + (L.filter q).length = L.length := by
  induction L with
  | nil => simp
  | cons x xs ih =>
    cases hq : q x <;> simp [hq] <;> omega

/-- C7: `FTC_MruList_RemoveSelection` on a well-formed list with node
sequence `L` returns (with fuel for one pass), and afterwards the list is
well-formed with exactly the nodes of `L` the predicate rejects, in their
original order; `num_nodes` has gone down by the number of removed nodes;
`node_done`, when the class has it, was invoked exactly once on each removed
node, in order, and on no other; with a null `selection` every node is removed
and the list is empty (`list->nodes` is `NULL`). -/
theorem C7_remove_selection_filters {P K S : Type} (list : FTC_MruListRec P K) (L : List Ptr)
    (selection : Option (P → S → Bool)) (key : S) (fuel : Nat)
    (hwf : WF list L) (hf : L.length ≤ fuel) :
    ∃ list', FTC_MruList_RemoveSelection fuel list selection key = some list' ∧
      WF list' (L.filter (fun x => !picks selection key list x)) ∧
      list'.num_nodes + (L.filter (picks selection key list)).length = list.num_nodes ∧
      (∃ evs, list'.trace = list.trace ++ evs ∧
        evs.filter Event.isDone =
          if list.clazz.node_done.isSome then
            (L.filter (picks selection key list)).map Event.done
          else []) ∧
      (selection = none → list'.nodes = 0 ∧ WF list' []) := by
  obtain ⟨hr, hnum, hmax⟩ := hwf
  obtain ⟨list', h1, h2, h3, h4, _⟩ := removeSelection_spec list L selection key fuel hr hf
  have hle : (L.filter (picks selection key list)).length ≤ list.num_nodes := by
    rw [hnum]; exact List.length_filter_le _ _
  have hsplit := filter_split_length (picks selection key list) L
  rw [decU_iterate _ _ hle] at h3
  have hwf' : WF list' (L.filter (fun x => !picks selection key list x)) :=
    ⟨h2, by rw [h3, hnum]; omega, by rw [h3]; omega⟩
  refine ⟨list', h1, hwf', by rw [h3]; omega, ⟨_, h4.trace, selectionEvents_done _ _ _ _⟩, ?_⟩
  intro hsel
  subst hsel
  have hnil : L.filter (fun x => !picks (none : Option (P → S → Bool)) key list x) = [] := by
    rw [List.filter_eq_nil_iff]; intro a _; simp [picks]
  rw [hnil] at hwf'
  exact ⟨by simpa using ring_head hwf'.1, hwf'⟩

theorem incU_decU (n : Nat) (h1 : 0 < n) (h2 : n ≤ UINT_MAX) : incU (decU n) = n := by
  unfold incU decU UINT_MAX at *
  split_ifs <;> omega

theorem decU_pos (n : Nat) (h1 : 0 < n) : decU n = n - 1 := by
  unfold decU
  rw [if_neg (by omega)]

/-- C1: `FTC_MruList_New` on a well-formed list at capacity
(`num_nodes >= max_nodes > 0`) with node sequence `L`, for a key for which
`node_reset` (when present) or else `node_init` succeeds on the tail node:
the tail `n` is the last node of `L` (`head->prev`), New returns error `0`
and `n`, the list is then well-formed with sequence `n` followed by `L`
without its last node, `num_nodes` is unchanged, no other node's payload
changes, and `n` holds what the succeeding callback built for the key. -/
theorem C1_new_at_capacity_recycles_tail {P K : Type} (list : FTC_MruListRec P K)
    (L : List Ptr) (key : K) (hwf : WF list L)
    (hcap : list.num_nodes ≥ list.max_nodes ∧ list.max_nodes > 0)
    (hsucc :
      (∃ rs, list.clazz.node_reset = some rs ∧
        (rs (list.heap.payload (list.heap.prev list.nodes)) key).1 = 0) ∨
      (list.clazz.node_init (recyclePayload list.clazz
        (list.heap.payload (list.heap.prev list.nodes)) key) key).1 = 0) :
    ∃ n, L.getLast? = some n ∧ list.heap.prev list.nodes = n ∧
      (FTC_MruList_New list key).1 = 0 ∧ (FTC_MruList_New list key).2.1 = n ∧
      WF (FTC_MruList_New list key).2.2 (n :: L.dropLast) ∧
      (FTC_MruList_New list key).2.2.num_nodes = list.num_nodes ∧
      (∀ x, x ≠ n → (FTC_MruList_New list key).2.2.heap.payload x = list.heap.payload x) ∧
      ((∃ rs, list.clazz.node_reset = some rs ∧ (rs (list.heap.payload n) key).1 = 0 ∧
          (FTC_MruList_New list key).2.2.heap.payload n = (rs (list.heap.payload n) key).2) ∨
       ((list.clazz.node_init (recyclePayload list.clazz (list.heap.payload n) key) key).1 = 0 ∧
          (FTC_MruList_New list key).2.2.heap.payload n =
            (list.clazz.node_init (recyclePayload list.clazz (list.heap.payload n) key) key).2)) := by
  obtain ⟨hr, hnum, hmax⟩ := hwf
  rcases List.eq_nil_or_concat L with rfl | ⟨D, t, rfl⟩
  · simp at hnum; omega
  rw [List.concat_eq_append] at hr hnum ⊢
  have ht : list.heap.prev list.nodes = t := (ring_next_last hr).2
  rw [ht] at hsucc
  have hlen : (t :: D).length = list.num_nodes := by rw [hnum]; simp
  have hpos : 0 < list.num_nodes := by rw [hnum]; simp
  refine ⟨t, by simp, ht, ?_⟩
  rw [List.dropLast_concat]
  by_cases hrs : ∃ rs, list.clazz.node_reset = some rs ∧ (rs (list.heap.payload t) key).1 = 0
  · obtain ⟨rs, h1, h2⟩ := hrs
    obtain ⟨n1, n2, n3, n4, n5, n6, n7⟩ := new_full_reset list key D t rs hcap hr h1 h2
    refine ⟨n1, n2, ⟨n3, by rw [n5, hlen], by rw [n5]; exact hmax⟩, n5, ?_, Or.inl ⟨rs, h1, h2, ?_⟩⟩
    · intro x hx; rw [n7, upd_other _ _ _ _ hx]
    · rw [n7, upd_same]
  · have hfail : ∀ rs, list.clazz.node_reset = some rs → (rs (list.heap.payload t) key).1 ≠ 0 :=
      fun rs h1 h2 => hrs ⟨rs, h1, h2⟩
    have hinit : (list.clazz.node_init (recyclePayload list.clazz (list.heap.payload t) key)
        key).1 = 0 := by
      rcases hsucc with h | h
      · exact absurd h hrs
      · exact h
    obtain ⟨n1, n2, _⟩ := new_full_recycle list key D t hcap hr hfail
    obtain ⟨m1, m2, m3, m4, m5, m6⟩ := n2 hinit
    have hid := incU_decU list.num_nodes hpos hmax
    refine ⟨by rw [n1, hinit], m1, ⟨m2, by rw [m4, hid, hlen], by rw [m4, hid]; exact hmax⟩,
      by rw [m4, hid], ?_, Or.inr ⟨hinit, ?_⟩⟩
    · intro x hx; rw [m6, upd_other _ _ _ _ hx]
    · rw [m6, upd_same]

/-- C5 (as amended): when `FTC_MruList_New` on a well-formed list with node
sequence `L` returns a non-zero error, the error is the one of the failing
step (`Out_Of_Memory` from the allocation, or the error of `node_init`); a
list that was under capacity is left with the same node sequence and the same
`num_nodes`; a list that was at capacity has lost its tail node: its sequence
is `L` without its last node and `num_nodes` is one less. -/
theorem C5_failed_new_under_capacity_unchanged {P K : Type} (list : FTC_MruListRec P K)
    (L : List Ptr) (key : K) (hwf : WF list L)
    (hfresh : ∀ p, list.memory.alloc list.heap.live = some p → p ≠ 0 ∧ p ∉ L)
    (herr : (FTC_MruList_New list key).1 ≠ 0) :
    (¬ atCapacity list →
      WF (FTC_MruList_New list key).2.2 L ∧
      (FTC_MruList_New list key).2.2.num_nodes = list.num_nodes ∧
      ((list.memory.alloc list.heap.live = none ∧
          (FTC_MruList_New list key).1 = FT_TS_Err_Out_Of_Memory) ∨
        (list.memory.alloc list.heap.live ≠ none ∧
          (FTC_MruList_New list key).1 = (list.clazz.node_init list.memory.zero key).1))) ∧
    (atCapacity list →
      WF (FTC_MruList_New list key).2.2 L.dropLast ∧
      (FTC_MruList_New list key).2.2.num_nodes + 1 = list.num_nodes ∧
      (FTC_MruList_New list key).1 =
        (list.clazz.node_init (recyclePayload list.clazz
          (list.heap.payload (list.heap.prev list.nodes)) key) key).1) := by
  obtain ⟨hr, hnum, hmax⟩ := hwf
  constructor
  · intro hcap
    cases ha : list.memory.alloc list.heap.live with
    | none =>
      have e := new_room_oom list key hcap ha
      rw [e]
      exact ⟨⟨hr, hnum, hmax⟩, rfl, Or.inl ⟨rfl, rfl⟩⟩
    | some p =>
      obtain ⟨hp0, hpL⟩ := hfresh p ha
      obtain ⟨n1, _, n3⟩ := new_room list key L p hcap hr ha hp0 hpL
      have hne : (list.clazz.node_init list.memory.zero key).1 ≠ 0 := by rw [← n1]; exact herr
      obtain ⟨m1, m2, m3, m4, m5, m6⟩ := n3 hne
      exact ⟨⟨m2, by rw [m4, hnum], by rw [m4]; exact hmax⟩, m4, Or.inr ⟨by simp, n1⟩⟩
  · intro hcap
    have hcap' : list.num_nodes ≥ list.max_nodes ∧ list.max_nodes > 0 := hcap
    rcases List.eq_nil_or_concat L with rfl | ⟨D, t, rfl⟩
    · simp at hnum; omega
    rw [List.concat_eq_append] at hr hnum ⊢
    have ht : list.heap.prev list.nodes = t := (ring_next_last hr).2
    rw [ht, List.dropLast_concat]
    have hlen : list.num_nodes = D.length + 1 := by rw [hnum]; simp
    have hfail : ∀ rs, list.clazz.node_reset = some rs →
        (rs (list.heap.payload t) key).1 ≠ 0 := by
      intro rs h1 h2
      exact herr (new_full_reset list key D t rs hcap hr h1 h2).1
    obtain ⟨n1, _, n3⟩ := new_full_recycle list key D t hcap hr hfail
    have hne : (list.clazz.node_init (recyclePayload list.clazz (list.heap.payload t) key)
        key).1 ≠ 0 := by rw [← n1]; exact herr
    obtain ⟨m1, m2, m3, m4, m5, m6⟩ := n3 hne
    have hd := decU_pos list.num_nodes (by omega)
    exact ⟨⟨m2, by rw [m4, hd]; omega, by rw [m4, hd]; omega⟩, by rw [m4, hd]; omega, n1⟩

theorem atCapacity_iff {P K : Type} {list : FTC_MruListRec P K} {L : List Ptr}
    (hi : Inv list L) : atCapacity list ↔ 0 < list.max_nodes ∧ list.max_nodes ≤ L.length := by
  unfold atCapacity
  constructor
  · rintro ⟨h1, h2⟩
    obtain ⟨e1, _⟩ := hi.small h2
    exact ⟨h2, by omega⟩
  · rintro ⟨h1, h2⟩
    obtain ⟨e1, _⟩ := hi.small h1
    exact ⟨by omega, h1⟩

theorem hits_of_holds {P K : Type} {list : FTC_MruListRec P K} {x : Ptr} {k k' : K}
    (h : Holds list.clazz (list.heap.payload x) k) : hits list k' x = true ↔ k' = k :=
  h k'

/-- A lookup of a key that is in the list: the node holding it moves to the
head. -/
theorem lookup_hit {P K : Type} (list : FTC_MruListRec P K) (A B : List (Ptr × K)) (n : Ptr)
    (k : K) (fuel : Nat) (hk : KInv list (A ++ (n, k) :: B)) (hf : A.length < fuel) :
    ∃ list' evs, FTC_MruList_Lookup fuel list k = some (0, n, list') ∧
      KInv list' ((n, k) :: (A ++ B)) ∧ Step list list' evs ∧
      (∀ e ∈ evs, e.isCompare = true) ∧ list'.num_nodes = list.num_nodes ∧
      list'.heap.live = list.heap.live := by
  obtain ⟨hi, hh, hn⟩ := hk
  have hr := hi.ring
  simp only [List.map_append, List.map_cons] at hr hn
  have hm : ∀ x ∈ A.map Prod.fst, hits list k x = false := by
    intro x hx
    obtain ⟨a, ha, rfl⟩ := List.mem_map.mp hx
    have := @hits_of_holds _ _ _ _ _ k (hh a (by simp [ha]))
    have hne : k ≠ a.2 := by
      rintro rfl
      exact (List.nodup_append.mp hn).2.2 (List.mem_map.mpr ⟨a, ha, rfl⟩) (by simp)
    cases hv : hits list a.2 a.1 with
    | false => cases hv' : hits list k a.1 with
      | false => rfl
      | true => exact absurd (this.mp hv') hne
    | true => cases hv' : hits list k a.1 with
      | false => rfl
      | true => exact absurd (this.mp hv') hne
  have hnk : hits list k n = true := (hits_of_holds (hh (n, k) (by simp))).mpr rfl
  have hfind := find_hit list (A.map Prod.fst) (B.map Prod.fst) n k fuel hr (by simpa using hf)
    hm hnk
  have hn0 : n ≠ 0 := by
    intro e0; apply hr.2.1; simp [e0]
  refine ⟨{ list with
      heap := (FTC_MruNode_Up list.heap list.nodes n).1
      nodes := (FTC_MruNode_Up list.heap list.nodes n).2
      trace := list.trace ++ (A.map Prod.fst ++ [n]).map (fun x => Event.compare x k) },
    (A.map Prod.fst ++ [n]).map (fun x => Event.compare x k),
    ?_, ?_, ⟨rfl, rfl, rfl, rfl⟩, ?_, rfl, (up_payload _ _ _).2⟩
  · simp only [FTC_MruList_Lookup, hfind, hn0, if_false]
  · refine ⟨⟨?_, ?_, hi.max_ok, ?_⟩, ?_, ?_⟩
    · simpa using ring_up list.heap list.nodes n _ _ hr
    · intro h
      have := hi.small h
      simpa using this
    · intro x hx
      show x ∈ (FTC_MruNode_Up list.heap list.nodes n).1.live
      rw [(up_payload _ _ _).2]
      apply hi.owned
      simp at hx ⊢
      rcases hx with h | h | h
      · exact Or.inr (Or.inl h)
      · exact Or.inl h
      · exact Or.inr (Or.inr h)
    · intro z hz
      show Holds list.clazz ((FTC_MruNode_Up list.heap list.nodes n).1.payload z.1) z.2
      rw [(up_payload _ _ _).1]
      apply hh
      simp at hz ⊢
      rcases hz with h | h | h
      · exact Or.inr (Or.inl h)
      · exact Or.inl h
      · exact Or.inr (Or.inr h)
    · have hp : List.Perm (((n, k) :: (A ++ B)).map Prod.snd)
          (A.map Prod.snd ++ k :: B.map Prod.snd) := by
        simp only [List.map_cons, List.map_append]
        exact List.perm_middle.symm
      exact hp.nodup_iff.mpr hn
  · intro e he
    obtain ⟨x, _, rfl⟩ := List.mem_map.mp he
    rfl

/-- A lookup of a key that is not in the list: the scan fails and
`FTC_MruList_New` runs on the list as it was. -/
theorem lookup_miss {P K : Type} (list : FTC_MruListRec P K) (Z : List (Ptr × K)) (k : K)
    (fuel : Nat) (hk : KInv list Z) (hf : Z.length ≤ fuel) (hnk : k ∉ Z.map Prod.snd) :
    ∃ list1 evs, FTC_MruList_Lookup fuel list k = some (FTC_MruList_New list1 k) ∧
      KInv list1 Z ∧ Step list list1 evs ∧ (∀ e ∈ evs, e.isCompare = true) ∧
      list1.num_nodes = list.num_nodes ∧ list1.heap = list.heap ∧ list1.nodes = list.nodes := by
  obtain ⟨hi, hh, hn⟩ := hk
  have hm : ∀ x ∈ Z.map Prod.fst, hits list k x = false := by
    intro x hx
    obtain ⟨a, ha, rfl⟩ := List.mem_map.mp hx
    have := @hits_of_holds _ _ _ _ _ k (hh a ha)
    have hne : k ≠ a.2 := by
      rintro rfl
      exact hnk (List.mem_map.mpr ⟨a, ha, rfl⟩)
    cases hv' : hits list k a.1 with
    | false => rfl
    | true => exact absurd (this.mp hv') hne
  have hfind := find_miss list (Z.map Prod.fst) k fuel hi.ring (by simpa using hf) hm
  refine ⟨{ list with trace := list.trace ++ (Z.map Prod.fst).map (fun x => Event.compare x k) },
    (Z.map Prod.fst).map (fun x => Event.compare x k), ?_, ?_, ⟨rfl, rfl, rfl, rfl⟩, ?_,
    rfl, rfl, rfl⟩
  · simp only [FTC_MruList_Lookup, hfind, if_true]
  · exact ⟨⟨hi.ring, hi.small, hi.max_ok, hi.owned⟩, hh, hn⟩
  · intro e he
    obtain ⟨x, _, rfl⟩ := List.mem_map.mp he
    rfl

theorem incU_lt (n : Nat) (h : n < UINT_MAX) : incU n = n + 1 := by
  unfold incU
  rw [if_neg (by omega)]

/-- The function `FTC_MruList_New` under capacity, with a keyed class and a successful
allocation: a new node for the key is put at the head. -/
theorem new_keyed_room {P K : Type} (list : FTC_MruListRec P K) (Z : List (Ptr × K)) (k : K)
    (p : Ptr) (hk : KInv list Z) (hc : KeyedClass list.clazz) (hm : FreshMemory list.memory)
    (hcap : ¬ atCapacity list) (ha : list.memory.alloc list.heap.live = some p)
    (hnk : k ∉ Z.map Prod.snd) :
    (FTC_MruList_New list k).1 = 0 ∧ (FTC_MruList_New list k).2.1 = p ∧
    KInv (FTC_MruList_New list k).2.2 ((p, k) :: Z) ∧
    Step list (FTC_MruList_New list k).2.2 ([Event.alloc p] ++ [Event.init p k]) ∧
    p ∉ Z.map Prod.fst ∧ p ≠ 0 := by
  obtain ⟨hi, hh, hn⟩ := hk
  obtain ⟨hp0, hpl⟩ := hm _ _ ha
  have hpL : p ∉ Z.map Prod.fst := fun h => hpl (hi.owned p h)
  obtain ⟨n1, n2, _⟩ := new_room list k (Z.map Prod.fst) p hcap hi.ring ha hp0 hpL
  have hok := hc.init_ok list.memory.zero k
  obtain ⟨m1, m2, m3, m4, m5, m6⟩ := n2 hok
  refine ⟨by rw [n1, hok], m1, ⟨⟨by simpa using m2, ?_, ?_, ?_⟩, ?_, ?_⟩, m3, hpL, hp0⟩
  · intro hmax
    rw [m3.max_nodes] at hmax ⊢
    obtain ⟨e1, e2⟩ := hi.small hmax
    rw [List.length_map] at e1 e2
    have hlt : list.num_nodes < list.max_nodes := by
      by_contra hge
      exact hcap ⟨by omega, hmax⟩
    have := hi.max_ok
    rw [m4, incU_lt _ (by omega)]
    simp
    omega
  · rw [m3.max_nodes]; exact hi.max_ok
  · intro x hx
    rw [m5]
    simp at hx ⊢
    rcases hx with h | h
    · exact Or.inl h
    · exact Or.inr (hi.owned x (by simpa using h))
  · intro z hz
    rw [m3.clazz, m6]
    rcases List.mem_cons.mp hz with h | h
    · subst h
      simp only [upd_same]
      exact hc.init_holds _ _
    · have hzp : z.1 ≠ p := by
        rintro e
        exact hpL (e ▸ List.mem_map.mpr ⟨z, h, rfl⟩)
      rw [upd_other _ _ _ _ hzp]
      exact hh z h
  · simp only [List.map_cons]
    exact List.nodup_cons.mpr ⟨hnk, hn⟩

/-- The function `FTC_MruList_New` at capacity, with a keyed class: the tail node is
recycled for the key and put at the head. -/
theorem new_keyed_full {P K : Type} (list : FTC_MruListRec P K) (D : List (Ptr × K)) (t : Ptr)
    (k0 k : K) (hk : KInv list (D ++ [(t, k0)])) (hc : KeyedClass list.clazz)
    (hcap : atCapacity list) (hnk : k ∉ (D ++ [(t, k0)]).map Prod.snd) :
    (FTC_MruList_New list k).1 = 0 ∧ (FTC_MruList_New list k).2.1 = t ∧
    KInv (FTC_MruList_New list k).2.2 ((t, k) :: D) ∧
    (∃ evs, Step list (FTC_MruList_New list k).2.2 evs) := by
  obtain ⟨hi, hh, hn⟩ := hk
  have hr := hi.ring
  simp only [List.map_append, List.map_cons, List.map_nil] at hr hn hnk
  have hmax : 0 < list.max_nodes := hcap.2
  obtain ⟨e1, e2⟩ := hi.small hmax
  simp only [List.map_append, List.map_cons, List.map_nil, List.length_append,
    List.length_map, List.length_singleton] at e1 e2
  have hub := hi.max_ok
  have htD : t ∉ D.map Prod.fst := by
    intro h
    exact (List.nodup_append.mp hr.1).2.2 h (by simp)
  have hkD : k ∉ D.map Prod.snd := fun h => hnk (List.mem_append_left _ h)
  have hown : ∀ x, x ∈ ((t, k) :: D).map Prod.fst → x ∈ list.heap.live := by
    intro x hx
    apply hi.owned
    simp at hx ⊢
    rcases hx with h | h
    · exact Or.inr h
    · exact Or.inl h
  have hnd : (((t, k) :: D).map Prod.snd).Nodup := by
    simp only [List.map_cons]
    exact List.nodup_cons.mpr ⟨hkD, (List.nodup_append.mp hn).1⟩
  have hold : ∀ z ∈ D, z.1 ≠ t := by
    intro z hz e
    exact htD (e ▸ List.mem_map.mpr ⟨z, hz, rfl⟩)
  by_cases hrs : ∃ rs, list.clazz.node_reset = some rs ∧ (rs (list.heap.payload t) k).1 = 0
  · obtain ⟨rs, h1, h2⟩ := hrs
    obtain ⟨n1, n2, n3, n4, n5, n6, n7⟩ := new_full_reset list k (D.map Prod.fst) t rs hcap hr h1 h2
    refine ⟨n1, n2, ⟨⟨by simpa using n3, ?_, ?_, ?_⟩, ?_, hnd⟩, ⟨_, n4⟩⟩
    · intro _
      rw [n4.max_nodes, n5]
      simp
      omega
    · rw [n4.max_nodes]; exact hub
    · intro x hx; rw [n6]; exact hown x hx
    · intro z hz
      rw [n4.clazz, n7]
      rcases List.mem_cons.mp hz with h | h
      · subst h
        simp only [upd_same]
        exact hc.reset_holds rs h1 _ _ h2
      · rw [upd_other _ _ _ _ (hold z h)]
        exact hh z (List.mem_append_left _ h)
  · have hfail : ∀ rs, list.clazz.node_reset = some rs → (rs (list.heap.payload t) k).1 ≠ 0 :=
      fun rs h1 h2 => hrs ⟨rs, h1, h2⟩
    obtain ⟨n1, n2, _⟩ := new_full_recycle list k (D.map Prod.fst) t hcap hr hfail
    have hok := hc.init_ok (recyclePayload list.clazz (list.heap.payload t) k) k
    obtain ⟨m1, m2, m3, m4, m5, m6⟩ := n2 hok
    have hid := incU_decU list.num_nodes (by omega) (by omega)
    refine ⟨by rw [n1, hok], m1, ⟨⟨by simpa using m2, ?_, ?_, ?_⟩, ?_, hnd⟩, ⟨_, m3⟩⟩
    · intro _
      rw [m3.max_nodes, m4, hid]
      simp
      omega
    · rw [m3.max_nodes]; exact hub
    · intro x hx; rw [m5]; exact hown x hx
    · intro z hz
      rw [m3.clazz, m6]
      rcases List.mem_cons.mp hz with h | h
      · subst h
        simp only [upd_same]
        exact hc.init_holds _ _
      · rw [upd_other _ _ _ _ (hold z h)]
        exact hh z (List.mem_append_left _ h)

theorem erase_mid_key {K : Type} [DecidableEq K] {A B : List K} {k : K}
    (hnd : (A ++ k :: B).Nodup) : (A ++ k :: B).erase k = A ++ B := by
  have : k ∉ A := by
    intro hm
    exact (List.nodup_append.mp hnd).2.2 hm (by simp)
  rw [List.erase_append_right _ this]
  simp

/-- One `FTC_MruList_Lookup` on a keyed list: it returns, and either succeeds
and the keys change by `lruStep`, the node returned being the new head, or
fails on an allocation and the list keeps its keys. -/
theorem lookup_step_keys {P K : Type} [DecidableEq K] (list : FTC_MruListRec P K)
    (Z : List (Ptr × K)) (k : K) (fuel : Nat) (hk : KInv list Z)
    (hc : KeyedClass list.clazz) (hm : FreshMemory list.memory) (hf : Z.length ≤ fuel) :
    ∃ e n list', FTC_MruList_Lookup fuel list k = some (e, n, list') ∧
      (∃ evs, Step list list' evs) ∧
      ((e = 0 ∧ ∃ Z', KInv list' Z' ∧
          Z'.map Prod.snd = lruStep list.max_nodes (Z.map Prod.snd) k ∧
          Z'.head? = some (n, k)) ∨
       (e = FT_TS_Err_Out_Of_Memory ∧ n = 0 ∧ KInv list' Z ∧ k ∉ Z.map Prod.snd ∧
          ¬ atCapacity list' ∧ list'.memory.alloc list'.heap.live = none)) := by
  by_cases hmem : k ∈ Z.map Prod.snd
  · obtain ⟨z, hz, hzk⟩ := List.mem_map.mp hmem
    obtain ⟨A, B, hAB⟩ := List.append_of_mem hz
    obtain ⟨n, k'⟩ := z
    simp only at hzk
    subst hzk
    subst hAB
    obtain ⟨list', evs, h1, h2, h3, _⟩ := lookup_hit list A B n k' fuel hk (by
      simp at hf; omega)
    refine ⟨0, n, list', h1, ⟨evs, h3⟩, Or.inl ⟨rfl, _, h2, ?_, rfl⟩⟩
    have hn := hk.keys_nodup
    simp only [List.map_append, List.map_cons] at hn hmem ⊢
    rw [lruStep, if_pos hmem, erase_mid_key hn]
  · obtain ⟨list1, evs, h1, h2, h3, _, h5, h6, h7⟩ := lookup_miss list Z k fuel hk hf hmem
    have hc1 : KeyedClass list1.clazz := by rw [h3.clazz]; exact hc
    have hm1 : FreshMemory list1.memory := by rw [h3.memory]; exact hm
    by_cases hcap : atCapacity list1
    · have hcz := (atCapacity_iff h2.inv).mp hcap
      rw [List.length_map] at hcz
      rcases List.eq_nil_or_concat Z with rfl | ⟨D, z, rfl⟩
      · simp at hcz; omega
      obtain ⟨t, k0⟩ := z
      rw [List.concat_eq_append] at h2 hmem hcz ⊢
      obtain ⟨n1, n2, n3, ⟨evs2, n4⟩⟩ := new_keyed_full list1 D t k0 k h2 hc1 hcap hmem
      refine ⟨0, t, (FTC_MruList_New list1 k).2.2, ?_, ⟨_, h3.stepTrans n4⟩,
        Or.inl ⟨rfl, _, n3, ?_, rfl⟩⟩
      · rw [h1, ← n1, ← n2]
      · rw [lruStep, if_neg hmem, if_pos (by
          rw [← h3.max_nodes]; simpa using hcz)]
        simp
    · cases ha : list1.memory.alloc list1.heap.live with
      | none =>
        have e := new_room_oom list1 k hcap ha
        refine ⟨FT_TS_Err_Out_Of_Memory, 0, list1, by rw [h1, e], ⟨_, h3⟩,
          Or.inr ⟨rfl, rfl, h2, hmem, hcap, ha⟩⟩
      | some p =>
        obtain ⟨n1, n2, n3, n4, _⟩ := new_keyed_room list1 Z k p h2 hc1 hm1 hcap ha hmem
        refine ⟨0, p, (FTC_MruList_New list1 k).2.2, ?_, ⟨_, h3.stepTrans n4⟩,
          Or.inl ⟨rfl, _, n3, ?_, rfl⟩⟩
        · rw [h1, ← n1, ← n2]
        · have hncz : ¬ (0 < list.max_nodes ∧ list.max_nodes ≤ (Z.map Prod.snd).length) := by
            intro h
            apply hcap
            rw [atCapacity_iff h2.inv, h3.max_nodes]
            simpa using h
          rw [lruStep, if_neg hmem, if_neg hncz]
          simp

theorem distinctKeys_nodup {K : Type} [DecidableEq K] : ∀ ks : List K, (distinctKeys ks).Nodup
  | [] => List.nodup_nil
  | k :: ks => by
    rw [distinctKeys, List.nodup_cons]
    exact ⟨by simp, (distinctKeys_nodup ks).filter _⟩

theorem distinctKeys_cons_erase {K : Type} [DecidableEq K] (k : K) (ks : List K) :
    distinctKeys (k :: ks) = k :: (distinctKeys ks).erase k := by
  rw [distinctKeys, (distinctKeys_nodup ks).erase_eq_filter]
  congr 1
  apply List.filter_congr
  intro x _
  by_cases h : x = k <;> simp [h]

theorem take_erase_of_mem {K : Type} [DecidableEq K] (k : K) :
    ∀ (R : List K) (m : Nat), k ∈ R.take (m + 1) →
      (R.erase k).take m = (R.take (m + 1)).erase k
  | [], m, h => by simp at h
  | a :: R, m, h => by
    by_cases hak : a = k
    · subst hak; simp
    · have hne : ¬ (a == k) = true := by simpa using hak
      rw [List.erase_cons_tail hne, List.take_succ_cons, List.erase_cons_tail hne]
      simp only [List.take_succ_cons, List.mem_cons] at h
      rcases h with h | h
      · exact absurd h.symm hak
      · cases m with
        | zero => simp at h
        | succ m' =>
          rw [List.take_succ_cons, take_erase_of_mem k R m' h]

theorem take_erase_of_not_mem {K : Type} [DecidableEq K] (k : K) :
    ∀ (R : List K) (m : Nat), k ∉ R.take m → (R.erase k).take m = R.take m
  | [], m, _ => by simp
  | a :: R, 0, _ => by simp
  | a :: R, m + 1, h => by
    simp only [List.take_succ_cons, List.mem_cons, not_or] at h
    have hne : ¬ (a == k) = true := by
      simp; exact fun e => h.1 e.symm
    rw [List.erase_cons_tail hne, List.take_succ_cons, List.take_succ_cons,
      take_erase_of_not_mem k R m h.2]

theorem recency_step {K : Type} [DecidableEq K] (max_nodes : Nat) (ks : List K) (k : K) :
    recencyOrder max_nodes (ks ++ [k]) = lruStep max_nodes (recencyOrder max_nodes ks) k := by
  unfold recencyOrder
  rw [List.reverse_append, List.reverse_singleton, List.singleton_append,
    distinctKeys_cons_erase]
  obtain ⟨R, hR⟩ : ∃ R, R = distinctKeys ks.reverse := ⟨_, rfl⟩
  rw [← hR]
  cases max_nodes with
  | zero =>
    simp only [Nat.lt_irrefl, if_false, lruStep, false_and]
    by_cases hk : k ∈ R
    · rw [if_pos hk]
    · rw [if_neg hk, List.erase_of_not_mem hk]
  | succ m =>
    simp only [Nat.zero_lt_succ, if_true, true_and, lruStep, List.take_succ_cons]
    by_cases hk : k ∈ R.take (m + 1)
    · rw [if_pos hk, take_erase_of_mem k R m hk]
    · rw [if_neg hk]
      by_cases hfull : m + 1 ≤ (R.take (m + 1)).length
      · rw [if_pos hfull]
        have htt : (R.take (m + 1)).take m = R.take m := by
          rw [List.take_take, Nat.min_eq_left (Nat.le_succ m)]
        have hk' : k ∉ R.take m := by
          intro h
          apply hk
          rw [← htt] at h
          exact List.mem_of_mem_take h
        rw [take_erase_of_not_mem k R m hk']
        congr 1
        have hlen : (R.take (m + 1)).length = m + 1 := by
          have := List.length_take_le (m + 1) R
          omega
        rw [List.dropLast_eq_take, hlen, Nat.add_sub_cancel, htt]
      · rw [if_neg hfull]
        have hlen : R.length ≤ m := by
          simp at hfull; omega
        have hT : R.take (m + 1) = R := List.take_of_length_le (by omega)
        rw [hT] at hk ⊢
        rw [List.erase_of_not_mem hk, List.take_of_length_le hlen]

theorem recency_eq_foldl {K : Type} [DecidableEq K] (max_nodes : Nat) (ks : List K) :
    ks.foldl (lruStep max_nodes) [] = recencyOrder max_nodes ks := by
  induction ks using List.reverseRecOn with
  | nil => simp [recencyOrder, distinctKeys]
  | append_singleton ks k ih =>
    rw [List.foldl_append, ih, recency_step]
    rfl

theorem lruStep_length {K : Type} [DecidableEq K] (m : Nat) (ks : List K) (k : K) :
    (lruStep m ks k).length ≤ ks.length + 1 := by
  unfold lruStep
  split_ifs
  · have := List.length_erase_le k ks
    simp; omega
  · simp
  · simp

/-- A run of lookups on a keyed list returns; if every call succeeded the keys
are the fold of `lruStep`; if allocation never fails every call succeeds. -/
theorem lookups_keys {P K : Type} [DecidableEq K] (fuel : Nat) :
    ∀ (ks : List K) (list : FTC_MruListRec P K) (Z : List (Ptr × K)),
      KInv list Z → KeyedClass list.clazz → FreshMemory list.memory →
      Z.length + ks.length ≤ fuel →
      ∃ rs list' Z', lookups fuel ks list = some (rs, list') ∧ KInv list' Z' ∧
        list'.max_nodes = list.max_nodes ∧ list'.clazz = list.clazz ∧
        list'.memory = list.memory ∧
        ((∀ r ∈ rs, r.1 = 0) →
          Z'.map Prod.snd = ks.foldl (lruStep list.max_nodes) (Z.map Prod.snd)) ∧
        ((∀ live, list.memory.alloc live ≠ none) → ∀ r ∈ rs, r.1 = 0)
  | [], list, Z, hk, _, _, _ => ⟨[], list, Z, rfl, hk, rfl, rfl, rfl, fun _ => rfl, fun _ r hr => by
      simp at hr⟩
  | k :: ks, list, Z, hk, hc, hm, hf => by
    obtain ⟨e, n, list1, h1, ⟨evs, h2⟩, h3⟩ := lookup_step_keys list Z k fuel hk hc hm (by
      simp at hf; omega)
    have hc1 : KeyedClass list1.clazz := by rw [h2.clazz]; exact hc
    have hm1 : FreshMemory list1.memory := by rw [h2.memory]; exact hm
    rcases h3 with ⟨he, Z1, hk1, hkeys, _⟩ | ⟨he, hn, hk1, _, _, hoom⟩
    · have hlen : Z1.length ≤ Z.length + 1 := by
        have := lruStep_length list.max_nodes (Z.map Prod.snd) k
        rw [← hkeys] at this
        simpa using this
      obtain ⟨rs, list', Z', i1, i2, i3, i4, i5, i6, i7⟩ := lookups_keys fuel ks list1 Z1 hk1 hc1
        hm1 (by simp at hf; omega)
      refine ⟨(e, n) :: rs, list', Z', ?_, i2, by rw [i3, h2.max_nodes], by rw [i4, h2.clazz],
        by rw [i5, h2.memory], ?_, ?_⟩
      · simp only [lookups, h1, i1]
      · intro hall
        rw [i6 (fun r hr => hall r (List.mem_cons_of_mem _ hr)), hkeys, h2.max_nodes]
        rfl
      · intro hal r hr
        rcases List.mem_cons.mp hr with h | h
        · rw [h]; exact he
        · exact i7 (by rw [h2.memory]; exact hal) r h
    · obtain ⟨rs, list', Z', i1, i2, i3, i4, i5, i6, i7⟩ := lookups_keys fuel ks list1 Z hk1 hc1
        hm1 (by simp at hf; omega)
      refine ⟨(e, n) :: rs, list', Z', ?_, i2, by rw [i3, h2.max_nodes], by rw [i4, h2.clazz],
        by rw [i5, h2.memory], ?_, ?_⟩
      · simp only [lookups, h1, i1]
      · intro hall
        have := hall (e, n) (by simp)
        simp only at this
        rw [he] at this
        exact absurd this (by decide)
      · intro hal
        have := hal list1.heap.live
        rw [← h2.memory] at this
        exact absurd hoom this

theorem kinv_init {P K : Type} (clazz : FTC_MruListClassRec P K) (max_nodes : Nat)
    (memory : FT_TS_MemoryRec P) (heap : Heap P) (hmax : max_nodes ≤ UINT_MAX) :
    KInv (FTC_MruList_Init clazz max_nodes memory heap) [] := by
  refine ⟨⟨?_, ?_, hmax, ?_⟩, ?_, ?_⟩
  · simp [FTC_MruList_Init, Ring]
  · intro _; simp [FTC_MruList_Init]
  · intro x hx; simp at hx
  · intro z hz; simp at hz
  · simp

theorem lookups_init {P K : Type} [DecidableEq K] (clazz : FTC_MruListClassRec P K)
    (max_nodes : Nat) (memory : FT_TS_MemoryRec P) (heap : Heap P) (keys : List K) (fuel : Nat)
    (hc : KeyedClass clazz) (hm : FreshMemory memory) (hmax : max_nodes ≤ UINT_MAX)
    (hf : keys.length ≤ fuel) :
    ∃ rs list' Z, lookups fuel keys (FTC_MruList_Init clazz max_nodes memory heap) =
        some (rs, list') ∧ KInv list' Z ∧ list'.clazz = clazz ∧
      ((∀ r ∈ rs, r.1 = 0) → Z.map Prod.snd = recencyOrder max_nodes keys) ∧
      ((∀ live, memory.alloc live ≠ none) → ∀ r ∈ rs, r.1 = 0) := by
  obtain ⟨rs, list', Z, h1, h2, _, h4, _, h6, h7⟩ := lookups_keys fuel keys
    (FTC_MruList_Init clazz max_nodes memory heap) [] (kinv_init clazz max_nodes memory heap hmax)
    hc hm (by simpa using hf)
  refine ⟨rs, list', Z, h1, h2, h4, fun hall => ?_, h7⟩
  rw [h6 hall]
  exact recency_eq_foldl max_nodes keys

theorem forall2_of_pairs {α β : Type} (R : α → β → Prop) :
    ∀ Z : List (α × β), (∀ z ∈ Z, R z.1 z.2) →
      List.Forall₂ R (Z.map Prod.fst) (Z.map Prod.snd)
  | [], _ => List.Forall₂.nil
  | z :: Z, h => List.Forall₂.cons (h z (by simp))
      (forall2_of_pairs R Z (fun y hy => h y (List.mem_cons_of_mem _ hy)))

theorem present_iff {P K : Type} {list : FTC_MruListRec P K} {Z : List (Ptr × K)}
    (hk : KInv list Z) (k : K) :
    (∃ x ∈ Z.map Prod.fst, hits list k x = true) ↔ k ∈ Z.map Prod.snd := by
  constructor
  · rintro ⟨x, hx, hh⟩
    obtain ⟨z, hz, rfl⟩ := List.mem_map.mp hx
    have := (hits_of_holds (hk.holds z hz)).mp hh
    exact List.mem_map.mpr ⟨z, hz, this.symm⟩
  · intro h
    obtain ⟨z, hz, rfl⟩ := List.mem_map.mp h
    exact ⟨z.1, List.mem_map.mpr ⟨z, hz, rfl⟩, (hits_of_holds (hk.holds z hz)).mpr rfl⟩

theorem distinctKeys_of_nodup {K : Type} [DecidableEq K] :
    ∀ ks : List K, ks.Nodup → distinctKeys ks = ks
  | [], _ => rfl
  | k :: ks, h => by
    obtain ⟨h1, h2⟩ := List.nodup_cons.mp h
    rw [distinctKeys, distinctKeys_of_nodup ks h2]
    congr 1
    rw [List.filter_eq_self]
    intro a ha
    have : a ≠ k := by rintro rfl; exact h1 ha
    simpa using this

/-- C3: from an empty list (`FTC_MruList_Init`), with a class whose
`compare` is key equality and whose `init` never fails, any run of
`FTC_MruList_Lookup` calls returns, and if every call was successful the
list's nodes hold, head to tail, exactly the distinct keys of the run ordered
by most recent access, most recent first, truncated to `max_nodes` when
`max_nodes > 0`. -/
theorem C3_recency_ordering {P K : Type} [DecidableEq K] (clazz : FTC_MruListClassRec P K)
    (max_nodes : Nat) (memory : FT_TS_MemoryRec P) (heap : Heap P) (keys : List K) (fuel : Nat)
    (hc : KeyedClass clazz) (hm : FreshMemory memory) (hmax : max_nodes ≤ UINT_MAX)
    (hf : keys.length ≤ fuel) :
    ∃ rs list', lookups fuel keys (FTC_MruList_Init clazz max_nodes memory heap) =
        some (rs, list') ∧
      ((∀ r ∈ rs, r.1 = 0) →
        ∃ L, Ring list'.heap list'.nodes L ∧
          List.Forall₂ (fun x k => Holds clazz (list'.heap.payload x) k) L
            (recencyOrder max_nodes keys)) := by
  obtain ⟨rs, list', Z, h1, h2, h3, h4, _⟩ :=
    lookups_init clazz max_nodes memory heap keys fuel hc hm hmax hf
  refine ⟨rs, list', h1, fun hall => ⟨Z.map Prod.fst, h2.inv.ring, ?_⟩⟩
  rw [← h4 hall]
  apply forall2_of_pairs
  intro z hz
  rw [← h3]
  exact h2.holds z hz

/-- C2 (as amended): strict LRU for distinct keys.  With `max_nodes = N >= 1`,
`N + 1` pairwise distinct keys, a class whose `compare` is key equality and
whose `init` never fails, and allocation never failing: from an empty list,
the lookups of the first `N` keys leave all of them present, and the lookups
of all `N + 1` keys leave the first key absent and the other `N` present. -/
theorem C2_strict_lru_distinct_keys {P K : Type} [DecidableEq K]
    (clazz : FTC_MruListClassRec P K) (memory : FT_TS_MemoryRec P) (heap : Heap P) (N : Nat)
    (ks : List K) (fuel : Nat) (hN : 1 ≤ N) (hmax : N ≤ UINT_MAX) (hlen : ks.length = N + 1)
    (hnd : ks.Nodup) (hc : KeyedClass clazz) (hm : FreshMemory memory)
    (halloc : ∀ live, memory.alloc live ≠ none) (hf : N + 1 ≤ fuel) :
    (∃ rs l L, lookups fuel (ks.take N) (FTC_MruList_Init clazz N memory heap) = some (rs, l) ∧
      Ring l.heap l.nodes L ∧ ∀ k ∈ ks.take N, ∃ x ∈ L, hits l k x = true) ∧
    (∃ rs l L, lookups fuel ks (FTC_MruList_Init clazz N memory heap) = some (rs, l) ∧
      Ring l.heap l.nodes L ∧ (∀ k ∈ ks.tail, ∃ x ∈ L, hits l k x = true) ∧
      (∀ k ∈ ks.head?, ¬ ∃ x ∈ L, hits l k x = true)) := by
  constructor
  · obtain ⟨rs, l, Z, h1, h2, _, h4, h5⟩ := lookups_init clazz N memory heap (ks.take N) fuel
      hc hm hmax (by simp; omega)
    have hkeys := h4 (h5 halloc)
    refine ⟨rs, l, Z.map Prod.fst, h1, h2.inv.ring, fun k hk => ?_⟩
    rw [present_iff h2, hkeys, recencyOrder, if_pos (by omega),
      distinctKeys_of_nodup _ (List.nodup_reverse.mpr (hnd.sublist (List.take_sublist _ _))),
      List.take_of_length_le (by simp)]
    simpa using hk
  · obtain ⟨rs, l, Z, h1, h2, _, h4, h5⟩ := lookups_init clazz N memory heap ks fuel
      hc hm hmax (by omega)
    have hkeys := h4 (h5 halloc)
    cases ks with
    | nil => simp at hlen
    | cons k1 rest =>
      have hrl : rest.length = N := by simpa using hlen
      have hrec : recencyOrder N (k1 :: rest) = rest.reverse := by
        rw [recencyOrder, if_pos (by omega),
          distinctKeys_of_nodup _ (List.nodup_reverse.mpr hnd), List.reverse_cons,
          List.take_append_of_le_length (by simp [hrl]), List.take_of_length_le (by simp [hrl])]
      rw [hrec] at hkeys
      refine ⟨rs, l, Z.map Prod.fst, h1, h2.inv.ring, fun k hk => ?_, fun k hk => ?_⟩
      · rw [present_iff h2, hkeys]
        simpa using hk
      · rw [present_iff h2, hkeys]
        simp at hk
        subst hk
        simpa using (List.nodup_cons.mp hnd).1

theorem compare_not_other {K : Type} [DecidableEq K] (e : Event K) (h : e.isCompare = true)
    (k : K) : e.isReset = false ∧ e.isDone = false ∧ e.isInitFor k = false ∧ e.isInit = false := by
  cases e <;> simp [Event.isCompare] at h
  simp [Event.isReset, Event.isDone, Event.isInitFor, Event.isInit]

/-- One lookup that does not have to recycle a node (the key is in the list,
or the list is under capacity), allocation never failing. -/
theorem lookup_step_room {P K : Type} [DecidableEq K] (list : FTC_MruListRec P K)
    (Z : List (Ptr × K)) (k : K) (fuel : Nat) (hk : KInv list Z)
    (hc : KeyedClass list.clazz) (hm : FreshMemory list.memory)
    (halloc : ∀ live, list.memory.alloc live ≠ none)
    (hroom : k ∈ Z.map Prod.snd ∨ ¬ atCapacity list) (hf : Z.length ≤ fuel) :
    ∃ n list' Z' evs, FTC_MruList_Lookup fuel list k = some (0, n, list') ∧
      KInv list' Z' ∧ Step list list' evs ∧ (n, k) ∈ Z' ∧ n ≠ 0 ∧
      (∀ z ∈ Z, z ∈ Z') ∧ (∀ z ∈ Z', z ∈ Z ∨ z = (n, k)) ∧ Z'.length ≤ Z.length + 1 ∧
      (∀ e ∈ evs, e.isReset = false ∧ e.isDone = false) ∧
      (∀ k', (evs.filter (Event.isInitFor k')).length =
        if k' = k ∧ k ∉ Z.map Prod.snd then 1 else 0) := by
  by_cases hmem : k ∈ Z.map Prod.snd
  · obtain ⟨z, hz, hzk⟩ := List.mem_map.mp hmem
    obtain ⟨A, B, hAB⟩ := List.append_of_mem hz
    obtain ⟨n, k'⟩ := z
    simp only at hzk
    subst hzk
    subst hAB
    obtain ⟨list', evs, h1, h2, h3, h4, _⟩ := lookup_hit list A B n k' fuel hk (by
      simp at hf; omega)
    have hn0 : n ≠ 0 := by
      intro e0
      apply hk.inv.ring.2.1
      simp [e0]
    refine ⟨n, list', _, evs, h1, h2, h3, by simp, hn0, ?_, ?_, by simp, ?_, ?_⟩
    · intro z hz
      simp at hz ⊢
      rcases hz with h | h | h
      · exact Or.inr (Or.inl h)
      · exact Or.inl h
      · exact Or.inr (Or.inr h)
    · intro z hz
      simp at hz ⊢
      rcases hz with h | h | h
      · exact Or.inr h
      · exact Or.inl (Or.inl h)
      · exact Or.inl (Or.inr (Or.inr h))
    · intro e he
      have := compare_not_other e (h4 e he) k'
      exact ⟨this.1, this.2.1⟩
    · intro k''
      have h0 : evs.filter (Event.isInitFor k'') = [] := by
        rw [List.filter_eq_nil_iff]
        intro e he
        have := compare_not_other e (h4 e he) k''
        simp [this.2.2.1]
      rw [h0, if_neg (by simp [hmem])]
      rfl
  · obtain ⟨list1, evs, h1, h2, h3, h4, h5, h6, h7⟩ := lookup_miss list Z k fuel hk hf hmem
    have hc1 : KeyedClass list1.clazz := by rw [h3.clazz]; exact hc
    have hm1 : FreshMemory list1.memory := by rw [h3.memory]; exact hm
    have hcap : ¬ atCapacity list1 := by
      rcases hroom with h | h
      · exact absurd h hmem
      · unfold atCapacity at h ⊢
        rw [h5, h3.max_nodes]
        exact h
    obtain ⟨p, ha⟩ : ∃ p, list1.memory.alloc list1.heap.live = some p := by
      have := halloc list1.heap.live
      rw [← h3.memory] at this
      exact Option.ne_none_iff_exists'.mp this
    obtain ⟨n1, n2, n3, n4, n5, n6⟩ := new_keyed_room list1 Z k p h2 hc1 hm1 hcap ha hmem
    refine ⟨p, (FTC_MruList_New list1 k).2.2, (p, k) :: Z, _, ?_, n3, h3.stepTrans n4, by simp, n6,
      fun z hz => List.mem_cons_of_mem _ hz, ?_, by simp, ?_, ?_⟩
    · rw [h1, ← n1, ← n2]
    · intro z hz
      rcases List.mem_cons.mp hz with h | h
      · exact Or.inr h
      · exact Or.inl h
    · intro e he
      rcases List.mem_append.mp he with h | h
      · have := compare_not_other e (h4 e h) k
        exact ⟨this.1, this.2.1⟩
      · simp at h
        rcases h with h | h <;> subst h <;> simp [Event.isReset, Event.isDone]
    · intro k''
      have h0 : evs.filter (Event.isInitFor k'') = [] := by
        rw [List.filter_eq_nil_iff]
        intro e he
        have := compare_not_other e (h4 e he) k''
        simp [this.2.2.1]
      rw [List.filter_append, h0]
      by_cases hkk : k'' = k
      · subst hkk
        simp [Event.isInitFor, hmem]
      · have : ¬ (k = k'') := fun e => hkk e.symm
        simp [Event.isInitFor, hkk, this]

theorem nodup_length_le_of_subset {K : Type} {l U : List K} (hl : l.Nodup)
    (hs : ∀ x ∈ l, x ∈ U) : l.length ≤ U.length :=
  (List.subperm_of_subset hl hs).length_le

/-- A run of lookups over keys taken from a set `U` of at most `max_nodes`
keys (or any keys when `max_nodes = 0`): no node is ever recycled. -/
theorem lookups_room {P K : Type} [DecidableEq K] (fuel : Nat) (U : List K) :
    ∀ (ks : List K) (list : FTC_MruListRec P K) (Z : List (Ptr × K)),
      KInv list Z → KeyedClass list.clazz → FreshMemory list.memory →
      (∀ live, list.memory.alloc live ≠ none) →
      (list.max_nodes = 0 ∨ U.length ≤ list.max_nodes) →
      (∀ z ∈ Z, z.2 ∈ U) → (∀ k ∈ ks, k ∈ U) → Z.length + ks.length ≤ fuel →
      ∃ rs list' Z' evs, lookups fuel ks list = some (rs, list') ∧ KInv list' Z' ∧
        Step list list' evs ∧ (∀ z ∈ Z, z ∈ Z') ∧
        (∀ p ∈ ks.zip rs, p.2.1 = 0 ∧ p.2.2 ≠ 0 ∧ (p.2.2, p.1) ∈ Z') ∧
        rs.length = ks.length ∧
        (∀ e ∈ evs, e.isReset = false ∧ e.isDone = false) ∧
        (∀ k', (evs.filter (Event.isInitFor k')).length =
          if k' ∈ ks ∧ k' ∉ Z.map Prod.snd then 1 else 0)
  | [], list, Z, hk, _, _, _, _, _, _, _ =>
    ⟨[], list, Z, [], rfl, hk, Step.stepRefl list, fun _ h => h, fun p hp => by simp at hp, rfl,
      fun e he => by simp at he, fun k' => by simp⟩
  | k :: ks, list, Z, hk, hc, hm, halloc, hU, hZU, hksU, hf => by
    have hroom : k ∈ Z.map Prod.snd ∨ ¬ atCapacity list := by
      by_cases hmem : k ∈ Z.map Prod.snd
      · exact Or.inl hmem
      · right
        intro hcap
        have hcz := (atCapacity_iff hk.inv).mp hcap
        rw [List.length_map] at hcz
        rcases hU with h0 | hle
        · omega
        · have hnd : (k :: Z.map Prod.snd).Nodup := List.nodup_cons.mpr ⟨hmem, hk.keys_nodup⟩
          have := nodup_length_le_of_subset hnd (U := U) (by
            intro x hx
            rcases List.mem_cons.mp hx with h | h
            · rw [h]; exact hksU k (by simp)
            · obtain ⟨z, hz, rfl⟩ := List.mem_map.mp h
              exact hZU z hz)
          simp at this
          omega
    obtain ⟨n, list1, Z1, evs1, s1, s2, s3, s4, s5, s6, s7, s8, s9, s10⟩ :=
      lookup_step_room list Z k fuel hk hc hm halloc hroom (by simp at hf; omega)
    obtain ⟨rs, list', Z', evs2, i1, i2, i3, i4, i5, i6, i7, i8⟩ := lookups_room fuel U ks list1 Z1
      s2 (by rw [s3.clazz]; exact hc) (by rw [s3.memory]; exact hm)
      (by rw [s3.memory]; exact halloc) (by rw [s3.max_nodes]; exact hU)
      (fun z hz => by
        rcases s7 z hz with h | h
        · exact hZU z h
        · rw [h]; exact hksU k (by simp))
      (fun k' hk' => hksU k' (List.mem_cons_of_mem _ hk')) (by simp at hf; omega)
    refine ⟨(0, n) :: rs, list', Z', evs1 ++ evs2, ?_, i2, s3.stepTrans i3,
      fun z hz => i4 z (s6 z hz), ?_, by simp [i6], ?_, ?_⟩
    · simp only [lookups, s1, i1]
    · intro p hp
      simp only [List.zip_cons_cons, List.mem_cons] at hp
      rcases hp with h | h
      · subst h
        exact ⟨rfl, s5, i4 _ s4⟩
      · exact i5 p h
    · intro e he
      rcases List.mem_append.mp he with h | h
      · exact s9 e h
      · exact i7 e h
    · intro k'
      rw [List.filter_append, List.length_append, s10 k', i8 k']
      have hkZ1 : k ∈ Z1.map Prod.snd := List.mem_map.mpr ⟨(n, k), s4, rfl⟩
      have hiff : k' ≠ k → (k' ∈ Z1.map Prod.snd ↔ k' ∈ Z.map Prod.snd) := by
        intro hne
        constructor
        · intro h
          obtain ⟨z, hz, rfl⟩ := List.mem_map.mp h
          rcases s7 z hz with h' | h'
          · exact List.mem_map.mpr ⟨z, h', rfl⟩
          · rw [h'] at hne; exact absurd rfl hne
        · intro h
          obtain ⟨z, hz, rfl⟩ := List.mem_map.mp h
          exact List.mem_map.mpr ⟨z, s6 z hz, rfl⟩
      by_cases hkk : k' = k
      · subst hkk
        by_cases hz : k' ∈ Z.map Prod.snd
        · simp [hz, hkZ1]
        · simp [hz, hkZ1]
      · have h1 := hiff hkk
        by_cases hz : k' ∈ Z.map Prod.snd
        · have hz1 := h1.mpr hz
          simp [hkk, hz, hz1]
        · have hz1 : k' ∉ Z1.map Prod.snd := fun h => hz (h1.mp h)
          simp [hkk, hz, hz1]

/-- C4 (as amended): from an empty list, with a class whose `compare` is key
equality and whose `init` never fails, and allocation never failing, a run of
`FTC_MruList_Lookup` calls that uses at most `max_nodes` distinct keys (any
number when `max_nodes = 0`) returns; every call returns error `0` and a
node; two lookups of the same key return the same node (so every repeat
returns the node of the first lookup of its key); `node_init` is invoked
exactly once for each key looked up; `node_reset` and `node_done` are never
invoked. -/
theorem C4_repeat_lookup_is_hit {P K : Type} [DecidableEq K] (clazz : FTC_MruListClassRec P K)
    (max_nodes : Nat) (memory : FT_TS_MemoryRec P) (heap : Heap P) (keys : List K) (fuel : Nat)
    (hc : KeyedClass clazz) (hm : FreshMemory memory) (halloc : ∀ live, memory.alloc live ≠ none)
    (hmax : max_nodes ≤ UINT_MAX) (hfew : max_nodes = 0 ∨ keys.dedup.length ≤ max_nodes)
    (hf : keys.length ≤ fuel) :
    ∃ rs list', lookups fuel keys (FTC_MruList_Init clazz max_nodes memory heap) =
        some (rs, list') ∧
      (∀ r ∈ rs, r.1 = 0 ∧ r.2 ≠ 0) ∧
      List.Pairwise (fun a b => a.1 = b.1 → b.2.2 = a.2.2) (keys.zip rs) ∧
      (∀ k ∈ keys, (list'.trace.filter (Event.isInitFor k)).length = 1) ∧
      (∀ e ∈ list'.trace, e.isReset = false ∧ e.isDone = false) := by
  obtain ⟨rs, list', Z', evs, h1, h2, h3, _, h5, h6, h7, h8⟩ := lookups_room fuel keys.dedup keys
    (FTC_MruList_Init clazz max_nodes memory heap) [] (kinv_init clazz max_nodes memory heap hmax)
    hc hm halloc hfew (fun z hz => by simp at hz) (fun k hk => List.mem_dedup.mpr hk)
    (by simpa using hf)
  have htr : list'.trace = evs := by
    rw [h3.trace]; simp [FTC_MruList_Init]
  refine ⟨rs, list', h1, ?_, ?_, ?_, ?_⟩
  · intro r hr
    obtain ⟨i, hi, rfl⟩ := List.getElem_of_mem hr
    have hi' : i < keys.length := by omega
    have hmem : (keys[i], rs[i]) ∈ keys.zip rs := by
      rw [List.mem_iff_getElem]
      exact ⟨i, by simp [hi, hi'], by simp⟩
    have := h5 _ hmem
    exact ⟨this.1, this.2.1⟩
  · apply List.pairwise_of_forall_mem_list
    intro a ha b hb hab
    have ha' := (h5 a ha).2.2
    have hb' := (h5 b hb).2.2
    rw [hab] at ha'
    have hnd := h2.keys_nodup
    have hinj := List.inj_on_of_nodup_map hnd hb' ha' rfl
    exact congrArg Prod.fst hinj
  · intro k hk
    rw [htr, h8 k]
    simp [hk]
  · intro e he
    rw [htr] at he
    exact h7 e he

theorem findScan_mono {P K : Type} (first : Ptr) (key : K) :
    ∀ (fuel fuel' : Nat) (node : Ptr) (list : FTC_MruListRec P K) (r : Ptr × FTC_MruListRec P K),
      findScan first key fuel node list = some r → fuel ≤ fuel' →
      findScan first key fuel' node list = some r
  | 0, _, _, _, _, h, _ => by simp [findScan] at h
  | fuel + 1, fuel', node, list, r, h, hle => by
    obtain ⟨f', rfl⟩ : ∃ f', fuel' = f' + 1 := ⟨fuel' - 1, by omega⟩
    simp only [findScan] at h ⊢
    split_ifs at h ⊢ with h1 h2 h3
    · exact h
    · exact h
    · exact findScan_mono first key fuel f' _ _ r h (by omega)
    · exact h

theorem find_mono {P K : Type} (fuel fuel' : Nat) (list : FTC_MruListRec P K) (key : K)
    (r : Ptr × FTC_MruListRec P K) (h : FTC_MruList_Find fuel list key = some r)
    (hle : fuel ≤ fuel') : FTC_MruList_Find fuel' list key = some r := by
  simp only [FTC_MruList_Find] at h ⊢
  split_ifs at h ⊢
  · exact findScan_mono _ _ _ _ _ _ _ h hle
  · exact h

theorem reset_mono {P K : Type} :
    ∀ (fuel fuel' : Nat) (list r : FTC_MruListRec P K),
      FTC_MruList_Reset fuel list = some r → fuel ≤ fuel' →
      FTC_MruList_Reset fuel' list = some r
  | 0, fuel', list, r, h, _ => by
    simp only [FTC_MruList_Reset] at h
    split_ifs at h with h1
    cases fuel' <;> simp only [FTC_MruList_Reset, h1, if_false] <;> exact h
  | fuel + 1, fuel', list, r, h, hle => by
    obtain ⟨f', rfl⟩ : ∃ f', fuel' = f' + 1 := ⟨fuel' - 1, by omega⟩
    simp only [FTC_MruList_Reset] at h ⊢
    split_ifs at h ⊢
    · exact reset_mono fuel f' _ r h (by omega)
    · exact h

theorem removeLeading_mono {P K S : Type} (selection : Option (P → S → Bool)) (key : S) :
    ∀ (fuel fuel' : Nat) (list r : FTC_MruListRec P K),
      removeLeading selection key fuel list = some r → fuel ≤ fuel' →
      removeLeading selection key fuel' list = some r
  | 0, fuel', list, r, h, _ => by
    cases fuel' with
    | zero => exact h
    | succ f' =>
      simp only [removeLeading] at h ⊢
      split_ifs at h ⊢ with h1
      · cases selection with
        | none => simp at h
        | some sel =>
          simp only at h ⊢
          split_ifs at h with h2
          have h2' : ¬ (sel ((list.emit (Event.select list.nodes)).heap.payload list.nodes) key
              = true) := h2
          rw [if_neg h2']
          exact h
      · exact h
  | fuel + 1, fuel', list, r, h, hle => by
    obtain ⟨f', rfl⟩ : ∃ f', fuel' = f' + 1 := ⟨fuel' - 1, by omega⟩
    simp only [removeLeading] at h ⊢
    split_ifs at h ⊢ with h1
    · cases selection with
      | none => exact removeLeading_mono none key fuel f' _ r h (by omega)
      | some sel =>
        simp only at h ⊢
        split_ifs at h ⊢ with h2
        · exact removeLeading_mono (some sel) key fuel f' _ r h (by omega)
        · exact h
    · exact h

theorem removeRest_mono {P K S : Type} (sel : P → S → Bool) (key : S) (first : Ptr) :
    ∀ (fuel fuel' : Nat) (node : Ptr) (list r : FTC_MruListRec P K),
      removeRest sel key first fuel node list = some r → fuel ≤ fuel' →
      removeRest sel key first fuel' node list = some r
  | 0, fuel', node, list, r, h, _ => by
    simp only [removeRest] at h
    split_ifs at h with h1
    cases fuel' <;> simp only [removeRest, h1, if_false] <;> exact h
  | fuel + 1, fuel', node, list, r, h, hle => by
    obtain ⟨f', rfl⟩ : ∃ f', fuel' = f' + 1 := ⟨fuel' - 1, by omega⟩
    simp only [removeRest] at h ⊢
    by_cases h1 : node ≠ first
    · rw [if_pos h1] at h ⊢
      exact removeRest_mono sel key first fuel f' _ _ r h (by omega)
    · rw [if_neg h1] at h ⊢
      exact h

theorem removeSelection_mono {P K S : Type} (fuel fuel' : Nat) (list r : FTC_MruListRec P K)
    (selection : Option (P → S → Bool)) (key : S)
    (h : FTC_MruList_RemoveSelection fuel list selection key = some r) (hle : fuel ≤ fuel') :
    FTC_MruList_RemoveSelection fuel' list selection key = some r := by
  unfold FTC_MruList_RemoveSelection at h ⊢
  cases h1 : removeLeading selection key fuel list with
  | none => rw [h1] at h; simp at h
  | some l1 =>
    rw [h1] at h
    rw [removeLeading_mono selection key fuel fuel' list l1 h1 hle]
    simp only at h ⊢
    split_ifs at h ⊢
    · cases selection with
      | none => simp at h
      | some sel =>
        simp only at h ⊢
        exact removeRest_mono sel key _ fuel fuel' _ _ r h hle
    · exact h

theorem lookup_mono {P K : Type} (fuel fuel' : Nat) (list : FTC_MruListRec P K) (key : K)
    (r : Nat × Ptr × FTC_MruListRec P K) (h : FTC_MruList_Lookup fuel list key = some r)
    (hle : fuel ≤ fuel') : FTC_MruList_Lookup fuel' list key = some r := by
  unfold FTC_MruList_Lookup at h ⊢
  cases h1 : FTC_MruList_Find fuel list key with
  | none => rw [h1] at h; simp at h
  | some x =>
    rw [h1] at h
    rw [find_mono fuel fuel' list key x h1 hle]
    exact h

theorem ring_unique {P : Type} {h : Heap P} {plist : Ptr} {L L' : List Ptr}
    (h1 : Ring h plist L) (h2 : Ring h plist L') : L = L' := by
  have key : ∀ (B A B' : List Ptr), A ++ B = L → A ++ B' = L' → B = B' := by
    intro B
    induction B with
    | nil =>
      intro A B' hA hA'
      cases B' with
      | nil => rfl
      | cons b' B1' =>
        exfalso
        rcases List.eq_nil_or_concat A with rfl | ⟨A0, a, rfl⟩
        · have e1 := ring_head h1
          have e2 := ring_nodes_ne_zero (hA' ▸ h2 : Ring h plist ([] ++ b' :: B1'))
          rw [← hA] at e1
          simp at e1
          exact e2.2 e1
        · rw [List.concat_eq_append] at hA hA'
          have hr1 : Ring h plist (A0 ++ [a]) := by
            rw [← hA] at h1; simpa using h1
          have hr2 : Ring h plist (A0 ++ a :: b' :: B1') := by
            rw [← hA'] at h2; simpa using h2
          have := ring_ne_head hr2
          rw [← (ring_next hr2).1, (ring_next_last hr1).1] at this
          exact this rfl
    | cons b B1 ih =>
      intro A B' hA hA'
      cases B' with
      | nil =>
        exfalso
        rcases List.eq_nil_or_concat A with rfl | ⟨A0, a, rfl⟩
        · have e1 := ring_head h2
          have e2 := ring_nodes_ne_zero (hA ▸ h1 : Ring h plist ([] ++ b :: B1))
          rw [← hA'] at e1
          simp at e1
          exact e2.2 e1
        · rw [List.concat_eq_append] at hA hA'
          have hr1 : Ring h plist (A0 ++ [a]) := by
            rw [← hA'] at h2; simpa using h2
          have hr2 : Ring h plist (A0 ++ a :: b :: B1) := by
            rw [← hA] at h1; simpa using h1
          have := ring_ne_head hr2
          rw [← (ring_next hr2).1, (ring_next_last hr1).1] at this
          exact this rfl
      | cons b' B1' =>
        have hb : b = b' := by
          rcases List.eq_nil_or_concat A with rfl | ⟨A0, a, rfl⟩
          · have e1 := ring_head h1
            have e2 := ring_head h2
            rw [← hA] at e1
            rw [← hA'] at e2
            simp at e1 e2
            rw [← e1, ← e2]
          · rw [List.concat_eq_append] at hA hA'
            have hr1 : Ring h plist (A0 ++ a :: b :: B1) := by
              rw [← hA] at h1; simpa using h1
            have hr2 : Ring h plist (A0 ++ a :: b' :: B1') := by
              rw [← hA'] at h2; simpa using h2
            rw [← (ring_next hr1).1, ← (ring_next hr2).1]
        subst hb
        have := ih (A ++ [b]) B1' (by simpa using hA) (by simpa using hA')
        rw [this]
  exact key L [] L' rfl rfl

/-- The function `FTC_MruList_Reset` on a ring: it returns and the list is empty. -/
theorem reset_spec {P K : Type} :
    ∀ (L : List Ptr) (fuel : Nat) (list : FTC_MruListRec P K),
      Ring list.heap list.nodes L → L.length ≤ fuel →
      ∃ list' evs, FTC_MruList_Reset fuel list = some list' ∧ list'.nodes = 0 ∧
        Ring list'.heap list'.nodes [] ∧ list'.num_nodes = decU^[L.length] list.num_nodes ∧
        Step list list' evs
  | [], fuel, list, hr, _ => by
    have hn : list.nodes = 0 := by simpa using ring_head hr
    have h : ¬ (list.nodes ≠ 0) := by simp [hn]
    refine ⟨list, [], ?_, hn, hr, by simp, Step.stepRefl list⟩
    cases fuel <;> simp only [FTC_MruList_Reset, h, if_false]
  | x :: xs, fuel, list, hr, hf => by
    obtain ⟨f, rfl⟩ : ∃ f, fuel = f + 1 := ⟨fuel - 1, by simp at hf; omega⟩
    obtain ⟨hx, h0⟩ := ring_nodes_ne_zero hr
    obtain ⟨r1, r2, r3, _, _⟩ := list_remove_spec list [] xs x (by simpa using hr)
    obtain ⟨list', evs, i1, i2, i3, i4, i5⟩ := reset_spec xs f (FTC_MruList_Remove list x)
      (by simpa using r1) (by simpa using hf)
    refine ⟨list', _, ?_, i2, i3, ?_, r2.stepTrans i5⟩
    · simp only [FTC_MruList_Reset, h0, ne_eq, not_false_eq_true, if_true]
      rw [hx]; exact i1
    · rw [i4, r3]
      simp [Function.iterate_succ_apply]

theorem counted_new {P K : Type} (list : FTC_MruListRec P K) (L : List Ptr) (key : K)
    (hc : Counted list L) (hm : FreshMemory list.memory) (hb : BoundedMemory list.memory) :
    ∃ L' evs, Counted (FTC_MruList_New list key).2.2 L' ∧
      Step list (FTC_MruList_New list key).2.2 evs := by
  obtain ⟨hr, hcount, hbound, hfits, hown⟩ := hc
  by_cases hcap : atCapacity list
  · have hcap' : list.num_nodes ≥ list.max_nodes ∧ list.max_nodes > 0 := hcap
    rcases List.eq_nil_or_concat L with rfl | ⟨D, t, rfl⟩
    · simp at hcount; omega
    rw [List.concat_eq_append] at hr hcount hbound hfits hown
    simp only [List.length_append, List.length_singleton] at hcount hbound hfits
    have htD : t ∉ D := by
      intro h
      exact (List.nodup_append.mp hr.1).2.2 h (by simp)
    have hsub : ∀ x ∈ t :: D, x ∈ list.heap.live := by
      intro x hx
      apply hown
      simp at hx ⊢
      rcases hx with h | h
      · exact Or.inr h
      · exact Or.inl h
    by_cases hrs : ∃ rs, list.clazz.node_reset = some rs ∧ (rs (list.heap.payload t) key).1 = 0
    · obtain ⟨rs, h1, h2⟩ := hrs
      obtain ⟨n1, n2, n3, n4, n5, n6, n7⟩ := new_full_reset list key D t rs hcap hr h1 h2
      refine ⟨t :: D, _, ⟨n3, by rw [n5, hcount]; simp, ?_, by simp; omega, ?_⟩, n4⟩
      · intro h; rw [n4.max_nodes] at h ⊢; have := hbound h; simp; omega
      · intro x hx; rw [n6]; exact hsub x hx
    · have hfail : ∀ rs, list.clazz.node_reset = some rs →
          (rs (list.heap.payload t) key).1 ≠ 0 := fun rs h1 h2 => hrs ⟨rs, h1, h2⟩
      obtain ⟨n1, n2, n3⟩ := new_full_recycle list key D t hcap hr hfail
      by_cases hok : (list.clazz.node_init (recyclePayload list.clazz (list.heap.payload t) key)
          key).1 = 0
      · obtain ⟨m1, m2, m3, m4, m5, m6⟩ := n2 hok
        have hid := incU_decU list.num_nodes (by omega) (by omega)
        refine ⟨t :: D, _, ⟨m2, by rw [m4, hid, hcount]; simp, ?_, by simp; omega, ?_⟩, m3⟩
        · intro h; rw [m3.max_nodes] at h ⊢; have := hbound h; simp; omega
        · intro x hx; rw [m5]; exact hsub x hx
      · obtain ⟨m1, m2, m3, m4, m5, m6⟩ := n3 hok
        have hd := decU_pos list.num_nodes (by omega)
        refine ⟨D, _, ⟨m2, by rw [m4, hd, hcount]; simp, ?_, by omega, ?_⟩, m3⟩
        · intro h; rw [m3.max_nodes] at h ⊢; have := hbound h; omega
        · intro x hx
          rw [m5]
          have hxt : x ≠ t := by rintro rfl; exact htD hx
          exact (List.mem_erase_of_ne hxt).mpr (hown x (List.mem_append_left _ hx))
  · cases ha : list.memory.alloc list.heap.live with
    | none =>
      rw [new_room_oom list key hcap ha]
      exact ⟨L, [], ⟨hr, hcount, hbound, hfits, hown⟩, Step.stepRefl list⟩
    | some p =>
      obtain ⟨hp0, hpl⟩ := hm _ _ ha
      have hpL : p ∉ L := fun h => hpl (hown p h)
      have hlive := hb _ _ ha
      have hlen : L.length ≤ list.heap.live.length :=
        (List.subperm_of_subset hr.1 hown).length_le
      obtain ⟨n1, n2, n3⟩ := new_room list key L p hcap hr ha hp0 hpL
      by_cases hok : (list.clazz.node_init list.memory.zero key).1 = 0
      · obtain ⟨m1, m2, m3, m4, m5, m6⟩ := n2 hok
        refine ⟨p :: L, _, ⟨m2, ?_, ?_, by simp; omega, ?_⟩, m3⟩
        · rw [m4, incU_lt _ (by omega), hcount]; simp
        · intro h
          rw [m3.max_nodes] at h ⊢
          have := hbound h
          have hlt : list.num_nodes < list.max_nodes := by
            by_contra hge
            exact hcap ⟨by omega, h⟩
          simp; omega
        · intro x hx
          rw [m5]
          rcases List.mem_cons.mp hx with h | h
          · rw [h]; simp
          · exact List.mem_cons_of_mem _ (hown x h)
      · obtain ⟨m1, m2, m3, m4, m5, m6⟩ := n3 hok
        refine ⟨L, _, ⟨m2, by rw [m4, hcount], ?_, hfits, ?_⟩, m3⟩
        · intro h; rw [m3.max_nodes] at h ⊢; exact hbound h
        · intro x hx; rw [m5]; exact hown x hx

theorem counted_find {P K : Type} (list : FTC_MruListRec P K) (L : List Ptr) (key : K)
    (fuel : Nat) (r : Ptr × FTC_MruListRec P K) (hc : Counted list L)
    (h : FTC_MruList_Find fuel list key = some r) :
    ∃ L' evs, Counted r.2 L' ∧ Step list r.2 evs ∧
      (r.1 = 0 → r.2.heap = list.heap ∧ r.2.nodes = list.nodes ∧ L' = L) := by
  obtain ⟨hr, hcount, hbound, hfits, hown⟩ := hc
  obtain ⟨list', h1, h2, h3, h4, ⟨evs, h5, _⟩, h6, h7⟩ :=
    find_spec list L key (max fuel L.length) hr (le_max_right _ _)
  have hmono := find_mono fuel (max fuel L.length) list key r h (le_max_left _ _)
  rw [hmono] at h1
  have hr2 : r.2 = list' := by
    have := Option.some.inj h1
    rw [this]
  have hr1 : r.1 = (L.find? (hits list key)).getD 0 := by
    have := Option.some.inj h1
    rw [this]
  rw [hr2]
  cases hfind : L.find? (hits list key) with
  | none =>
    obtain ⟨e1, e2⟩ := h3 hfind
    refine ⟨L, evs, ⟨by rw [e1, e2]; exact hr, by rw [h4]; exact hcount, ?_, hfits, ?_⟩, h5,
      fun _ => ⟨e1, e2, rfl⟩⟩
    · intro hm; rw [h5.max_nodes] at hm ⊢; exact hbound hm
    · intro x hx; rw [h7]; exact hown x hx
  | some n =>
    have hmem : n ∈ L := List.mem_of_find?_eq_some hfind
    have hlen : (n :: L.erase n).length = L.length := by
      simp [List.length_erase_of_mem hmem]
      have : 0 < L.length := List.length_pos_of_mem hmem
      omega
    refine ⟨n :: L.erase n, evs, ⟨h2 n hfind, by rw [h4, hlen]; exact hcount, ?_,
      by rw [hlen]; exact hfits, ?_⟩, h5, ?_⟩
    · intro hm; rw [h5.max_nodes] at hm ⊢; rw [hlen]; exact hbound hm
    · intro x hx
      rw [h7]
      rcases List.mem_cons.mp hx with hx | hx
      · rw [hx]; exact hown n hmem
      · exact hown x (List.mem_of_mem_erase hx)
    · intro h0
      rw [hr1, hfind] at h0
      simp at h0
      exfalso
      apply hr.2.1
      rw [← h0]; exact hmem

theorem counted_remove {P K : Type} (list : FTC_MruListRec P K) (L : List Ptr) (node : Ptr)
    (hc : Counted list L) (hmem : node ∈ L) :
    ∃ L' evs, Counted (FTC_MruList_Remove list node) L' ∧
      Step list (FTC_MruList_Remove list node) evs := by
  obtain ⟨hr, hcount, hbound, hfits, hown⟩ := hc
  obtain ⟨A, B, rfl⟩ := List.append_of_mem hmem
  obtain ⟨r1, r2, r3, r4, r5⟩ := list_remove_spec list A B node hr
  simp only [List.length_append, List.length_cons] at hcount hbound hfits
  have hd := decU_pos list.num_nodes (by omega)
  have hnm := mem_split_not_mem hr.1
  refine ⟨A ++ B, _, ⟨r1, by rw [r3, hd, hcount]; simp, ?_, by simp; omega, ?_⟩, r2⟩
  · intro h; rw [r2.max_nodes] at h ⊢; have := hbound h; simp; omega
  · intro x hx
    rw [r4]
    have hxn : x ≠ node := by rintro rfl; exact hnm hx
    apply (List.mem_erase_of_ne hxn).mpr
    apply hown
    rcases List.mem_append.mp hx with h | h
    · exact List.mem_append_left _ h
    · exact List.mem_append_right _ (List.mem_cons_of_mem _ h)

theorem counted_removeSelection {P K S : Type} (list r : FTC_MruListRec P K) (L : List Ptr)
    (selection : Option (P → S → Bool)) (key : S) (fuel : Nat) (hc : Counted list L)
    (h : FTC_MruList_RemoveSelection fuel list selection key = some r) :
    ∃ L' evs, Counted r L' ∧ Step list r evs := by
  obtain ⟨hr, hcount, hbound, hfits, hown⟩ := hc
  obtain ⟨list', h1, h2, h3, h4, h5⟩ :=
    removeSelection_spec list L selection key (max fuel L.length) hr (le_max_right _ _)
  have hmono := removeSelection_mono fuel (max fuel L.length) list r selection key h
    (le_max_left _ _)
  rw [hmono] at h1
  have hrl : r = list' := Option.some.inj h1
  rw [hrl]
  have hle : (L.filter (picks selection key list)).length ≤ list.num_nodes := by
    rw [hcount]; exact List.length_filter_le _ _
  have hsplit := filter_split_length (picks selection key list) L
  rw [decU_iterate _ _ hle] at h3
  refine ⟨_, _, ⟨h2, by rw [h3, hcount]; omega, ?_, by omega, ?_⟩, h4⟩
  · intro hm; rw [h4.max_nodes] at hm ⊢; have := hbound hm; omega
  · intro x hx
    obtain ⟨hxL, hxp⟩ := List.mem_filter.mp hx
    apply h5.live x (hown x hxL)
    intro hg
    have := (List.mem_filter.mp hg).2
    simp [this] at hxp

theorem counted_reset {P K : Type} (list r : FTC_MruListRec P K) (L : List Ptr) (fuel : Nat)
    (hc : Counted list L) (h : FTC_MruList_Reset fuel list = some r) :
    ∃ L' evs, Counted r L' ∧ Step list r evs := by
  obtain ⟨hr, hcount, hbound, hfits, hown⟩ := hc
  obtain ⟨list', evs, h1, h2, h3, h4, h5⟩ :=
    reset_spec L (max fuel L.length) list hr (le_max_right _ _)
  have hmono := reset_mono fuel (max fuel L.length) list r h (le_max_left _ _)
  rw [hmono] at h1
  have hrl : r = list' := Option.some.inj h1
  rw [hrl]
  rw [decU_iterate _ _ (by omega)] at h4
  exact ⟨[], evs, ⟨h3, by rw [h4, hcount]; simp, fun _ => by simp, by simp,
    fun x hx => by simp at hx⟩, h5⟩

theorem walk_length (f : Ptr → Ptr) : ∀ (n : Nat) (p : Ptr), (walk f n p).length = n
  | 0, _ => rfl
  | n + 1, p => by simp [walk, walk_length f n]

theorem walk_getLast (f : Ptr → Ptr) :
    ∀ (n : Nat) (p : Ptr), (walk f (n + 1) p).getLast? = some (f^[n] p)
  | 0, p => by simp [walk]
  | n + 1, p => by
    have ih := walk_getLast f n (f p)
    rw [walk]
    rw [show walk f (n + 1) (f p) = f p :: walk f n (f (f p)) from rfl] at ih ⊢
    rw [List.getLast?_cons_cons, ih]
    rfl

/-- A walk along a chain of `f`-links reads the chain. -/
theorem walk_of_chain (f : Ptr → Ptr) :
    ∀ (xs : List Ptr) (x : Ptr), List.Chain' (fun a b => f a = b) (x :: xs) →
      walk f (xs.length + 1) x = x :: xs
  | [], x, _ => rfl
  | y :: ys, x, hc => by
    rw [List.chain'_cons] at hc
    have ih := walk_of_chain f ys y hc.2
    rw [List.length_cons, walk, hc.1, ih]

/-- A walk whose nodes satisfy `prev(next(x)) = x` is a chain of linked nodes. -/
theorem chain_of_walk {P : Type} (h : Heap P) :
    ∀ (n : Nat) (p : Ptr), (∀ x ∈ walk h.next n p, h.prev (h.next x) = x) →
      List.Chain' (Linked h) (walk h.next n p)
  | 0, _, _ => List.chain'_nil
  | 1, _, _ => List.chain'_singleton _
  | n + 2, p, hx => by
    rw [show walk h.next (n + 2) p = p :: h.next p :: walk h.next n (h.next (h.next p)) from rfl,
      List.chain'_cons]
    refine ⟨⟨rfl, hx p (by simp [walk])⟩, ?_⟩
    have := chain_of_walk h (n + 1) (h.next p) (fun x hx' => hx x (by
      rw [walk]; exact List.mem_cons_of_mem _ hx'))
    exact this

theorem ring_of_circular {P : Type} {h : Heap P} {plist : Ptr} {k : Nat}
    (hc : Circular h plist k) : Ring h plist (walk h.next k plist) := by
  rcases hc with ⟨h0, hk⟩ | ⟨h0, hk, hnd, hz, hit, _, _, hinv⟩
  · subst hk; subst h0
    simp [walk, Ring]
  · obtain ⟨n, rfl⟩ : ∃ n, k = n + 1 := ⟨k - 1, by omega⟩
    refine ⟨hnd, hz, by simp [walk], chain_of_walk h _ _ (fun x hx => (hinv x hx).2), ?_⟩
    intro a ha b hb
    rw [walk_getLast] at ha
    have ha' : h.next^[n] plist = a := by simpa using ha
    have hb' : plist = b := by simpa [walk] using hb
    subst hb'
    have hmem : a ∈ walk h.next (n + 1) plist :=
      List.mem_of_mem_getLast? (by rw [walk_getLast, ha']; rfl)
    have hna : h.next a = plist := by
      rw [← ha', ← Function.iterate_succ_apply' h.next n plist]
      exact hit
    refine ⟨hna, ?_⟩
    rw [← hna]
    exact (hinv a hmem).2

theorem iterate_of_chain (f : Ptr → Ptr) :
    ∀ (xs : List Ptr) (x : Ptr), List.Chain' (fun a b => f a = b) (x :: xs) →
      (x :: xs).getLast? = some (f^[xs.length] x) := by
  intro xs x hc
  have := walk_getLast f xs.length x
  rw [walk_of_chain f xs x hc] at this
  exact this

theorem circular_of_ring {P : Type} {h : Heap P} {plist : Ptr} {L : List Ptr}
    (hr : Ring h plist L) : Circular h plist L.length ∧ walk h.next L.length plist = L := by
  cases L with
  | nil =>
    have : plist = 0 := by simpa using ring_head hr
    exact ⟨Or.inl ⟨this, rfl⟩, rfl⟩
  | cons x xs =>
    obtain ⟨hx, h0⟩ := ring_nodes_ne_zero hr
    subst hx
    obtain ⟨hnd, hz, _, hch, hcl⟩ := hr
    have hfw : List.Chain' (fun a b => h.next a = b) (plist :: xs) :=
      hch.imp (fun a b hab => hab.1)
    have hwalk := walk_of_chain h.next xs plist hfw
    have hlast := iterate_of_chain h.next xs plist hfw
    have hclose := hcl _ hlast plist (by simp)
    have hbw : List.Chain' (fun a b => h.prev a = b) (plist :: xs.reverse) := by
      have h1 : List.Chain' (fun a b => h.prev a = b) (plist :: xs).reverse := by
        rw [List.chain'_reverse]
        exact hch.imp (fun a b hab => hab.2)
      cases hxs : xs.reverse with
      | nil => exact List.chain'_singleton _
      | cons y ys =>
        rw [List.chain'_cons]
        rw [List.reverse_cons, hxs] at h1
        refine ⟨?_, ?_⟩
        · have hl : (plist :: xs).getLast? = some y := by
            have : xs = (y :: ys).reverse := by rw [← hxs, List.reverse_reverse]
            rw [this, List.reverse_cons, ← List.cons_append, List.getLast?_concat]
          exact (hcl y hl plist (by simp)).2
        · have := (List.chain'_append.mp h1).1
          exact this
    have hbwalk := walk_of_chain h.prev xs.reverse plist hbw
    have hblast := iterate_of_chain h.prev xs.reverse plist hbw
    simp only [List.length_reverse] at hbwalk hblast
    have hbnd : (plist :: xs.reverse).Nodup := by
      rw [List.nodup_cons] at hnd ⊢
      exact ⟨by simpa using hnd.1, List.nodup_reverse.mpr hnd.2⟩
    have hprevlast : ∀ z, (plist :: xs.reverse).getLast? = some z → h.prev z = plist := by
      intro z hzl
      cases xs with
      | nil =>
        simp at hzl; subst hzl
        have := hcl plist (by simp) plist (by simp)
        exact this.2
      | cons y ys =>
        have hzy : z = y := by
          rw [List.reverse_cons, ← List.cons_append, List.getLast?_concat] at hzl
          exact (Option.some.inj hzl).symm
        subst hzy
        rw [List.chain'_cons] at hch
        exact hch.1.2
    refine ⟨Or.inr ⟨h0, by simp, ?_, ?_, ?_, ?_, ?_, ?_⟩, hwalk⟩
    · rw [List.length_cons, hwalk]; exact hnd
    · rw [List.length_cons, hwalk]; exact hz
    · rw [List.length_cons, Function.iterate_succ_apply']
      have : h.next^[xs.length] plist = (h.next^[xs.length] plist) := rfl
      exact hclose.1
    · rw [List.length_cons, hbwalk]; exact hbnd
    · rw [List.length_cons, Function.iterate_succ_apply']
      exact hprevlast _ hblast
    · rw [List.length_cons, hwalk]
      intro y hy
      obtain ⟨A, B, hAB⟩ := List.append_of_mem hy
      have hr' : Ring h plist (A ++ y :: B) := by
        rw [← hAB]; exact ⟨hnd, hz, by simp, hch, hcl⟩
      constructor
      · rcases List.eq_nil_or_concat A with rfl | ⟨A0, a, rfl⟩
        · have e : plist = y := by simpa using ring_head hr'
          subst e
          rw [hclose.2]
          exact hclose.1
        · rw [List.concat_eq_append] at hr'
          have hr'' : Ring h plist (A0 ++ a :: y :: B) := by simpa using hr'
          rw [(ring_next hr'').2, (ring_next hr'').1]
      · cases B with
        | nil =>
          have := ring_next_last hr'
          rw [this.1, this.2]
        | cons b B' =>
          rw [(ring_next hr').1, (ring_next hr').2]

/-- C10: every primitive preserves the consistency of the circular list.  If
the list under `plist` is consistent with `k` nodes (empty, or `k` distinct
nodes on which `next` and `prev` are inverse and along which `next`, and
likewise `prev`, returns to the head after exactly `k` steps), then it is
consistent with `k + 1` nodes after `FTC_MruNode_Prepend` of a non-null node
not in the list, with `k` nodes after `FTC_MruNode_Up` of a member, and with
`k - 1` nodes after `FTC_MruNode_Remove` of a member, the head being `NULL`
afterwards exactly when `k = 1`. -/
theorem C10_primitives_preserve_circular {P : Type} (h : Heap P) (plist node : Ptr) (k : Nat)
    (hc : Circular h plist k) :
    (node ≠ 0 → node ∉ walk h.next k plist →
      Circular (FTC_MruNode_Prepend h plist node).1 (FTC_MruNode_Prepend h plist node).2
        (k + 1)) ∧
    (node ∈ walk h.next k plist →
      Circular (FTC_MruNode_Up h plist node).1 (FTC_MruNode_Up h plist node).2 k) ∧
    (node ∈ walk h.next k plist →
      Circular (FTC_MruNode_Remove h plist node).1 (FTC_MruNode_Remove h plist node).2 (k - 1) ∧
      ((FTC_MruNode_Remove h plist node).2 = 0 ↔ k = 1)) := by
  have hr := ring_of_circular hc
  have hlen := walk_length h.next k plist
  refine ⟨fun hn0 hnm => ?_, fun hm => ?_, fun hm => ?_⟩
  · have := (circular_of_ring (ring_prepend h plist node _ hr hn0 hnm)).1
    rw [List.length_cons, hlen] at this
    exact this
  · obtain ⟨A, B, hAB⟩ := List.append_of_mem hm
    rw [hAB] at hr
    have := (circular_of_ring (ring_up h plist node A B hr)).1
    have hl : (node :: (A ++ B)).length = k := by
      rw [← hlen, hAB]; simp; omega
    rw [hl] at this
    exact this
  · obtain ⟨A, B, hAB⟩ := List.append_of_mem hm
    rw [hAB] at hr
    have hrem := ring_remove h plist node A B hr
    have := (circular_of_ring hrem).1
    have hl : (A ++ B).length = k - 1 := by
      rw [← hlen, hAB]; simp
    rw [hl] at this
    refine ⟨this, ?_⟩
    have hhead := ring_head hrem
    constructor
    · intro h0
      rw [h0] at hhead
      cases hAB' : A ++ B with
      | nil =>
        rw [hAB'] at hl
        simp at hl
        have : 0 < k := by rw [← hlen, hAB]; simp
        omega
      | cons x xs =>
        rw [hAB'] at hhead hrem
        simp at hhead
        exfalso
        apply hrem.2.1
        rw [hhead]; simp
    · intro hk
      rw [hk] at hl
      have : A ++ B = [] := List.length_eq_zero.mp hl
      rw [this] at hhead
      simpa using hhead

theorem keyClass_keyed : KeyedClass keyClass := by
  refine ⟨fun _ _ => rfl, fun p k k' => ?_, fun rs h => ?_⟩
  · simp [keyClass]
    exact eq_comm
  · simp [keyClass] at h

theorem foldr_max_ge (live : List Ptr) : ∀ x ∈ live, x ≤ live.foldr max 0 := by
  induction live with
  | nil => intro x hx; simp at hx
  | cons a l ih =>
    intro x hx
    simp only [List.foldr_cons]
    rcases List.mem_cons.mp hx with h | h
    · rw [h]; exact le_max_left _ _
    · exact le_trans (ih x h) (le_max_right _ _)

theorem bumpMemory_fresh {P : Type} (zero : P) : FreshMemory (bumpMemory zero) := by
  intro live p hp
  simp only [bumpMemory, Option.some.injEq] at hp
  rw [← hp]
  refine ⟨Nat.succ_ne_zero _, fun h => ?_⟩
  have := foldr_max_ge live _ h
  exact Nat.not_succ_le_self _ this

theorem poolMemory_fresh {P : Type} (cap : Nat) (zero : P) : FreshMemory (poolMemory cap zero) := by
  intro live p hp
  simp only [poolMemory] at hp
  split_ifs at hp
  simp only [Option.some.injEq] at hp
  rw [← hp]
  refine ⟨Nat.succ_ne_zero _, fun h => ?_⟩
  have := foldr_max_ge live _ h
  exact Nat.not_succ_le_self _ this

theorem poolMemory_bounded {P : Type} (cap : Nat) (zero : P) (hcap : cap ≤ UINT_MAX) :
    BoundedMemory (poolMemory cap zero) := by
  intro live p hp
  simp only [poolMemory] at hp
  split_ifs at hp with h
  exact lt_of_lt_of_le h hcap


/-- An instance of C1: the list holding nodes 2 and 1 with `max_nodes = 2` is at
capacity; New for the key 30 returns error 0 and node 1, the former tail, and
the sequence becomes node 1 then node 2. -/
theorem C1_witness :
    WF sampleList [2, 1] ∧ (FTC_MruList_New sampleList 30).1 = 0 ∧
      (FTC_MruList_New sampleList 30).2.1 = 1 ∧
      WF (FTC_MruList_New sampleList 30).2.2 [1, 2] ∧
      (FTC_MruList_New sampleList 30).2.2.num_nodes = sampleList.num_nodes := by
  obtain ⟨n, h1, _, h3, h4, h5, h6, _⟩ :=
    C1_new_at_capacity_recycles_tail sampleList [2, 1] 30 (by decide) (by decide)
      (Or.inr (by decide))
  have hn : n = 1 := by simpa using h1.symm
  subst hn
  exact ⟨by decide, h3, h4, h5, h6⟩

/-- The claim C2 as written fails when the allocation fails: with `max_nodes = 1`,
the distinct keys 10 and 20, compare being key equality and init never
failing, over a memory manager with no room, the lookup of the first key
returns `Out_Of_Memory` and no node, and the list is still empty, so the first
key is not present after the first call. -/
theorem C2_counterexample :
    KeyedClass keyClass ∧ [10, 20].Nodup ∧
      (lookups 2 ([10, 20].take 1)
        (FTC_MruList_Init keyClass 1 (poolMemory 0 none) (emptyHeap none))).map
          (fun r => (r.1, r.2.nodes)) = some ([(FT_TS_Err_Out_Of_Memory, 0)], 0) :=
  ⟨keyClass_keyed, by decide, by decide⟩

/-- An instance of C2 as amended: `max_nodes = 2` and the keys 10, 20, 30. -/
theorem C2_witness :
    [10, 20, 30].Nodup ∧
    ((∃ rs l L, lookups 3 ([10, 20, 30].take 2)
        (FTC_MruList_Init keyClass 2 (bumpMemory none) (emptyHeap none)) = some (rs, l) ∧
      Ring l.heap l.nodes L ∧ ∀ k ∈ [10, 20, 30].take 2, ∃ x ∈ L, hits l k x = true) ∧
    (∃ rs l L, lookups 3 [10, 20, 30]
        (FTC_MruList_Init keyClass 2 (bumpMemory none) (emptyHeap none)) = some (rs, l) ∧
      Ring l.heap l.nodes L ∧ (∀ k ∈ [10, 20, 30].tail, ∃ x ∈ L, hits l k x = true) ∧
      (∀ k ∈ [10, 20, 30].head?, ¬ ∃ x ∈ L, hits l k x = true))) :=
  ⟨by decide, C2_strict_lru_distinct_keys keyClass (bumpMemory none) (emptyHeap none) 2
    [10, 20, 30] 3 (by decide) (by decide) rfl (by decide) keyClass_keyed (bumpMemory_fresh none)
    (fun live => by simp [bumpMemory]) (by decide)⟩

/-- The scenario of C3: with `max_nodes = 2` the lookups of 1, 2, 1, 3 all succeed,
returning the nodes 1, 2, 1, 2, and the list then holds the keys 3 and 1 head
to tail: the node of key 2 was recycled for key 3. -/
theorem C3_witness :
    recencyOrder 2 [1, 2, 1, 3] = [3, 1] ∧
    (lookups 4 [1, 2, 1, 3]
      (FTC_MruList_Init keyClass 2 (bumpMemory none) (emptyHeap none))).map
        (fun r => (r.1, (walk r.2.heap.next r.2.num_nodes r.2.nodes).map r.2.heap.payload)) =
      some ([(0, 1), (0, 2), (0, 1), (0, 2)], [some 3, some 1]) ∧
    ∃ rs list', lookups 4 [1, 2, 1, 3]
        (FTC_MruList_Init keyClass 2 (bumpMemory none) (emptyHeap none)) = some (rs, list') ∧
      ((∀ r ∈ rs, r.1 = 0) →
        ∃ L, Ring list'.heap list'.nodes L ∧
          List.Forall₂ (fun x k => Holds keyClass (list'.heap.payload x) k) L
            (recencyOrder 2 [1, 2, 1, 3])) :=
  ⟨by decide, by decide,
    C3_recency_ordering keyClass 2 (bumpMemory none) (emptyHeap none) [1, 2, 1, 3] 4
      keyClass_keyed (bumpMemory_fresh none) (by decide) (by decide)⟩

/-- The claim C4 as written fails when the allocation fails: with `max_nodes = 1`
and the key 10 looked up twice (one distinct key), over a memory manager with
no room, the repeated lookup returns `Out_Of_Memory` and no node, like the
first, and init is never invoked. -/
theorem C4_counterexample :
    KeyedClass keyClass ∧ [10, 10].dedup.length ≤ 1 ∧
      (lookups 2 [10, 10]
        (FTC_MruList_Init keyClass 1 (poolMemory 0 none) (emptyHeap none))).map
          (fun r => (r.1, r.2.trace.filter Event.isInit)) =
        some ([(FT_TS_Err_Out_Of_Memory, 0), (FT_TS_Err_Out_Of_Memory, 0)], []) :=
  ⟨keyClass_keyed, by decide, by decide⟩

/-- An instance of C4 as amended: `max_nodes = 2` and the lookups of 10, 20, 10. -/
theorem C4_witness :
    [10, 20, 10].dedup.length ≤ 2 ∧
    ∃ rs list', lookups 3 [10, 20, 10]
        (FTC_MruList_Init keyClass 2 (bumpMemory none) (emptyHeap none)) = some (rs, list') ∧
      (∀ r ∈ rs, r.1 = 0 ∧ r.2 ≠ 0) ∧
      List.Pairwise (fun a b => a.1 = b.1 → b.2.2 = a.2.2) ([10, 20, 10].zip rs) ∧
      (∀ k ∈ [10, 20, 10], (list'.trace.filter (Event.isInitFor k)).length = 1) ∧
      (∀ e ∈ list'.trace, e.isReset = false ∧ e.isDone = false) :=
  ⟨by decide, C4_repeat_lookup_is_hit keyClass 2 (bumpMemory none) (emptyHeap none) [10, 20, 10] 3
    keyClass_keyed (bumpMemory_fresh none) (fun live => by simp [bumpMemory]) (by decide)
    (Or.inr (by decide)) (by decide)⟩

/-- The claim C5 as written fails at capacity: the list holds node 1 with
`max_nodes = 1`; New for the key 0, on which init fails with error 7, returns
error 7 and leaves the list empty with `num_nodes = 0`: the tail was unlinked
before init ran on its storage and is not put back. -/
theorem C5_counterexample :
    WF pickyList [1] ∧ atCapacity pickyList ∧ (FTC_MruList_New pickyList 0).1 = 7 ∧
      WF (FTC_MruList_New pickyList 0).2.2 [] ∧ ¬ WF (FTC_MruList_New pickyList 0).2.2 [1] ∧
      pickyList.num_nodes = 1 ∧ (FTC_MruList_New pickyList 0).2.2.num_nodes = 0 := by
  decide

/-- An instance of C5 as amended, under capacity: on the empty list with
`max_nodes = 2`, New for the key 0 fails with error 7 and the list is still
empty. -/
theorem C5_witness :
    WF (FTC_MruList_Init pickyClass 2 (bumpMemory none) (emptyHeap none)) [] ∧
    (FTC_MruList_New (FTC_MruList_Init pickyClass 2 (bumpMemory none) (emptyHeap none)) 0).1 = 7 ∧
    WF (FTC_MruList_New
      (FTC_MruList_Init pickyClass 2 (bumpMemory none) (emptyHeap none)) 0).2.2 [] := by
  have h := (C5_failed_new_under_capacity_unchanged
    (FTC_MruList_Init pickyClass 2 (bumpMemory none) (emptyHeap none)) [] 0 (by decide)
    (fun p hp => ⟨(bumpMemory_fresh none _ p hp).1, by simp⟩) (by decide)).1 (by decide)
  exact ⟨by decide, by decide, h.1⟩

/-- An instance of C6: in the list of nodes 2 and 1, Find of the key 10 returns
node 1 and promotes it. -/
theorem C6_witness :
    WF sampleList [2, 1] ∧
    ∃ list', FTC_MruList_Find 2 sampleList 10 = some (1, list') ∧ WF list' [1, 2] ∧
      list'.num_nodes = sampleList.num_nodes := by
  obtain ⟨list', h1, h2, _, h4, _⟩ :=
    C6_find_first_match_promoted sampleList [2, 1] 10 2 (by decide) (by decide)
  have hf : [2, 1].find? (hits sampleList 10) = some 1 := by decide
  rw [hf] at h1
  exact ⟨by decide, list', h1, h2 1 hf, h4⟩

/-- An instance of C7: in the list of nodes 2 (key 20) and 1 (key 10), removing
the nodes that store the key 20 leaves node 1. -/
theorem C7_witness :
    WF sampleList [2, 1] ∧
    ∃ list', FTC_MruList_RemoveSelection 2 sampleList (some storesKey) 20 = some list' ∧
      WF list' [1] ∧ list'.num_nodes + 1 = sampleList.num_nodes := by
  obtain ⟨list', h1, h2, h3, _⟩ :=
    C7_remove_selection_filters sampleList [2, 1] (some storesKey) 20 2 (by decide) (by decide)
  have hf : [2, 1].filter (fun x => !picks (some storesKey) 20 sampleList x) = [1] := by decide
  have hg : ([2, 1].filter (picks (some storesKey) 20 sampleList)).length = 1 := by decide
  rw [hf] at h2
  rw [hg] at h3
  exact ⟨by decide, list', h1, h2, h3⟩

/-- An instance of C10: the ring of nodes 2 and 1, with Up and Remove of node 1. -/
theorem C10_witness :
    Circular sampleList.heap 2 2 ∧
    (1 ∈ walk sampleList.heap.next 2 2 →
      Circular (FTC_MruNode_Up sampleList.heap 2 1).1 (FTC_MruNode_Up sampleList.heap 2 1).2 2) ∧
    (1 ∈ walk sampleList.heap.next 2 2 →
      Circular (FTC_MruNode_Remove sampleList.heap 2 1).1
        (FTC_MruNode_Remove sampleList.heap 2 1).2 (2 - 1) ∧
      ((FTC_MruNode_Remove sampleList.heap 2 1).2 = 0 ↔ 2 = 1)) :=
  ⟨by decide, (C10_primitives_preserve_circular sampleList.heap 2 1 2 (by decide)).2⟩

/-- A member of a ring splits the ring around its first (and only) occurrence. -/
theorem ring_split {P : Type} {h : Heap P} {plist n : Ptr} {L : List Ptr}
    (hr : Ring h plist L) (hn : n ∈ L) :
    ∃ A B, L = A ++ n :: B ∧ L.erase n = A ++ B ∧ n ∉ A ∧ n ∉ B := by
  obtain ⟨A, B, rfl⟩ := List.append_of_mem hn
  have hnd : (A ++ n :: B).Nodup := hr.1
  have hnot := mem_split_not_mem hnd
  refine ⟨A, B, rfl, erase_mid hnd, fun h1 => hnot (by simp [h1]), fun h2 => hnot (by simp [h2])⟩

/-- C11: `FTC_MruNode_Up` on a well-formed list with node sequence `L` and a
member `n` of it: afterwards the head is `n` and the sequence is `n` followed
by `L` with `n` erased, so the other nodes keep their relative order; when
`n` is already the head, the list pointer and every link are unchanged. -/
theorem C11_up_moves_member_to_head {P : Type} (h : Heap P) (plist n : Ptr) (L : List Ptr)
    (hr : Ring h plist L) (hn : n ∈ L) :
    (FTC_MruNode_Up h plist n).2 = n ∧
    Ring (FTC_MruNode_Up h plist n).1 (FTC_MruNode_Up h plist n).2 (n :: L.erase n) ∧
    (n = plist → FTC_MruNode_Up h plist n = (h, plist)) := by
  obtain ⟨A, B, rfl, he, _, _⟩ := ring_split hr hn
  have hu := ring_up h plist n A B hr
  rw [he]
  refine ⟨by simpa using ring_head hu, hu, fun hnp => ?_⟩
  simp [FTC_MruNode_Up, hnp]

/-- C12: `FTC_MruNode_Remove` on a well-formed list with node sequence `L`
and a member `n` of it: afterwards the sequence is `L` with `n` erased; the
list pointer is `NULL` when `n` was the only node, the former second node
when `n` was the head of a longer list, and unchanged otherwise. -/
theorem C12_remove_erases_member {P : Type} (h : Heap P) (plist n : Ptr) (L : List Ptr)
    (hr : Ring h plist L) (hn : n ∈ L) :
    Ring (FTC_MruNode_Remove h plist n).1 (FTC_MruNode_Remove h plist n).2 (L.erase n) ∧
    (L = [n] → (FTC_MruNode_Remove h plist n).2 = 0) ∧
    (∀ m t, L = n :: m :: t → (FTC_MruNode_Remove h plist n).2 = m) ∧
    (n ≠ plist → (FTC_MruNode_Remove h plist n).2 = plist) := by
  obtain ⟨A, B, rfl, he, _, _⟩ := ring_split hr hn
  have hrm := ring_remove h plist n A B hr
  have hd := ring_head hrm
  have hp := ring_head hr
  rw [he]
  refine ⟨hrm, fun hL => ?_, fun m t hL => ?_, fun hne => ?_⟩
  · rw [hL] at he
    rw [hd, ← he]; simp
  · rw [hL] at he
    rw [hd, ← he]; simp
  · cases A with
    | nil => simp at hp; exact absurd hp.symm hne
    | cons a A' =>
      rw [hd, hp]; simp

/-- C13: `FTC_MruNode_Prepend` on a well-formed list with node sequence `L`,
possibly empty, and a (non-null) node `n` that is not in `L`: afterwards the
head is `n` and the sequence is `n` followed by `L`; on the empty list `n` is
a circle of one node, `n->next == n->prev == n`. -/
theorem C13_prepend_inserts_at_head {P : Type} (h : Heap P) (plist n : Ptr) (L : List Ptr)
    (hr : Ring h plist L) (hn0 : n ≠ 0) (hn : n ∉ L) :
    (FTC_MruNode_Prepend h plist n).2 = n ∧
    Ring (FTC_MruNode_Prepend h plist n).1 (FTC_MruNode_Prepend h plist n).2 (n :: L) ∧
    (L = [] → (FTC_MruNode_Prepend h plist n).1.next n = n ∧
      (FTC_MruNode_Prepend h plist n).1.prev n = n) := by
  have hq := ring_prepend h plist n L hr hn0 hn
  have hd : (FTC_MruNode_Prepend h plist n).2 = n := by simpa using ring_head hq
  refine ⟨hd, hq, fun hL => ?_⟩
  subst hL
  exact hq.2.2.2.2 n (by simp) n (by simp)

/-- The nodes of a ring are back at the head after as many `next` steps as
the ring has nodes. -/
theorem ring_iterate {P : Type} {h : Heap P} {plist : Ptr} {L : List Ptr}
    (hr : Ring h plist L) : h.next^[L.length] plist = plist := by
  rcases (circular_of_ring hr).1 with ⟨h0, hk⟩ | ⟨_, _, _, _, hit, _⟩
  · rw [hk]; rfl
  · exact hit

/-- C14: on a well-formed list with `num_nodes >= 1` and node sequence `L`,
`FTC_MruNode_Up` of a member `n` followed by `FTC_MruList_Remove` of `n`
leaves a well-formed list whose sequence is `L` with `n` erased, as
`FTC_MruList_Remove` of `n` alone does; `num_nodes` is one less, and a scan
from the head along `next` is back at the head after exactly `num_nodes`
steps (the list is a consistent circle of `num_nodes` nodes); from a list of
one node the result is the empty list with `num_nodes = 0`. -/
theorem C14_up_then_remove {P K : Type} (list : FTC_MruListRec P K) (L : List Ptr) (n : Ptr)
    (hwf : WF list L) (hpos : 1 ≤ list.num_nodes) (hn : n ∈ L) :
    WF (FTC_MruList_Remove (list.up n) n) (L.erase n) ∧
    WF (FTC_MruList_Remove list n) (L.erase n) ∧
    (FTC_MruList_Remove (list.up n) n).num_nodes + 1 = list.num_nodes ∧
    Circular (FTC_MruList_Remove (list.up n) n).heap (FTC_MruList_Remove (list.up n) n).nodes
      (FTC_MruList_Remove (list.up n) n).num_nodes ∧
    (FTC_MruList_Remove (list.up n) n).heap.next^[(FTC_MruList_Remove (list.up n) n).num_nodes]
      (FTC_MruList_Remove (list.up n) n).nodes = (FTC_MruList_Remove (list.up n) n).nodes ∧
    (L = [n] → (FTC_MruList_Remove (list.up n) n).nodes = 0 ∧
      (FTC_MruList_Remove (list.up n) n).num_nodes = 0) := by
  obtain ⟨hr, hnum, hmax⟩ := hwf
  obtain ⟨A, B, rfl, he, _, _⟩ := ring_split hr hn
  have hu : Ring (list.up n).heap (list.up n).nodes ([] ++ n :: (A ++ B)) :=
    ring_up list.heap list.nodes n A B hr
  obtain ⟨r1, _, r3, _⟩ := list_remove_spec (list.up n) [] (A ++ B) n hu
  obtain ⟨s1, _, s3, _⟩ := list_remove_spec list A B n hr
  have hup : (list.up n).num_nodes = list.num_nodes := rfl
  have hlen : (A ++ n :: B).length = (A ++ B).length + 1 := by simp; omega
  rw [hup, decU_pos _ hpos] at r3
  rw [decU_pos _ hpos] at s3
  rw [List.nil_append] at r1
  have hk : (FTC_MruList_Remove (list.up n) n).num_nodes = (A ++ B).length := by
    rw [r3, hnum, hlen]; rfl
  rw [he]
  refine ⟨⟨r1, hk, by rw [r3]; omega⟩, ⟨s1, by rw [s3, hnum, hlen]; rfl, by rw [s3]; omega⟩,
    by rw [r3]; omega, ?_, ?_, fun hL => ?_⟩
  · rw [hk]; exact (circular_of_ring r1).1
  · rw [hk]; exact ring_iterate r1
  · have hAB : A ++ B = [] := by rw [← he, hL]; simp
    rw [hAB] at r1 hk
    exact ⟨by simpa using ring_head r1, by simpa using hk⟩

/-- The function `FTC_MruList_Reset` on a ring of nodes `L`, given fuel for one pass:
it returns the empty list, having called `FTC_MruList_Remove` on every node
of `L` in order. -/
theorem reset_events {P K : Type} :
    ∀ (L : List Ptr) (fuel : Nat) (list : FTC_MruListRec P K),
      Ring list.heap list.nodes L → L.length ≤ fuel →
      ∃ list', FTC_MruList_Reset fuel list = some list' ∧ list'.nodes = 0 ∧
        list'.num_nodes = decU^[L.length] list.num_nodes ∧
        Step list list' (selectionEvents list.clazz false (fun _ => true) L)
  | [], fuel, list, hr, _ => by
    have hn : list.nodes = 0 := by simpa using ring_head hr
    have h : ¬ (list.nodes ≠ 0) := by simp [hn]
    refine ⟨list, ?_, hn, by simp, by simpa [selectionEvents] using Step.stepRefl list⟩
    cases fuel <;> simp only [FTC_MruList_Reset, h, if_false]
  | x :: xs, fuel, list, hr, hf => by
    obtain ⟨f, rfl⟩ : ∃ f, fuel = f + 1 := ⟨fuel - 1, by simp at hf; omega⟩
    obtain ⟨hx, h0⟩ := ring_nodes_ne_zero hr
    obtain ⟨r1, r2, r3, _, _⟩ := list_remove_spec list [] xs x (by simpa using hr)
    obtain ⟨list', i1, i2, i4, i5⟩ := reset_events xs f (FTC_MruList_Remove list x)
      (by simpa using r1) (by simpa using hf)
    rw [r2.clazz] at i5
    have e : selectionEvents list.clazz false (fun _ => true) (x :: xs) =
        (doneEvents list.clazz x ++ [Event.free x]) ++
          selectionEvents list.clazz false (fun _ => true) xs := by
      simp [selectionEvents]
    refine ⟨list', ?_, i2, ?_, by rw [e]; exact r2.stepTrans i5⟩
    · simp only [FTC_MruList_Reset, h0, ne_eq, not_false_eq_true, if_true]
      rw [hx]; exact i1
    · rw [i4, r3]
      simp [Function.iterate_succ_apply]

/-- C16: `FTC_MruList_Reset` and `FTC_MruList_Done` on a well-formed list
with node sequence `L` return (with fuel for one pass) and leave the list
empty: `list->nodes` is `NULL` and `num_nodes` is `0`; `node_done`, when the
class has it, was invoked exactly once on every node of `L`, head to tail,
and on no other node. -/
theorem C16_reset_and_done_empty_the_list {P K : Type} (list : FTC_MruListRec P K)
    (L : List Ptr) (fuel : Nat) (hwf : WF list L) (hf : L.length ≤ fuel) :
    ∃ list', FTC_MruList_Reset fuel list = some list' ∧
      FTC_MruList_Done fuel list = some list' ∧
      list'.nodes = 0 ∧ list'.num_nodes = 0 ∧ WF list' [] ∧
      ∃ evs, list'.trace = list.trace ++ evs ∧
        evs.filter Event.isDone =
          if list.clazz.node_done.isSome then L.map Event.done else [] := by
  obtain ⟨hr, hnum, hmax⟩ := hwf
  obtain ⟨list', h1, h2, h3, h4⟩ := reset_events L fuel list hr hf
  obtain ⟨_, _, h1', _, h5, _⟩ := reset_spec L fuel list hr hf
  rw [h1] at h1'
  simp only [Option.some.injEq] at h1'
  subst h1'
  rw [decU_iterate _ _ (by omega)] at h3
  have hz : list'.num_nodes = 0 := by omega
  refine ⟨list', h1, h1, h2, hz, ⟨h5, by simpa using hz, by omega⟩, _, h4.trace, ?_⟩
  rw [selectionEvents_done]
  simp

/-- C17: the small bitmap lookups `FTC_SBitCache_Lookup` and
`FTC_SBitCache_LookupScaler` hand `FTC_GCACHE_LOOKUP_CMP` the hash
`FTC_BASIC_ATTR_HASH( attrs ) + gindex / FTC_SBIT_ITEMS_PER_NODE` (an
`FT_TS_Offset`), so two lookups of the same configuration with glyph indices
`g1`, `g2` of the same batch (`g1 / ITEMS_PER_NODE = g2 / ITEMS_PER_NODE`) use
the same hash, whatever the cache states; the image lookups
`FTC_ImageCache_Lookup` and `FTC_ImageCache_LookupScaler` hand it the hash
`FTC_BASIC_ATTR_HASH( attrs ) + gindex`. -/
theorem C17_sbit_hash_shared_by_batch {R : Type} (env : FTC_BasicEnv R)
    (c1 c2 : FTC_GCacheRec R) (type : FTC_ImageTypeRec) (scaler : FTC_ScalerRec)
    (load_flags g1 g2 : Nat) (s1 s2 : FTC_SBit) (y1 : Ptr) (n1 n2 : Option Ptr)
    (hb : g1 / env.FTC_SBIT_ITEMS_PER_NODE = g2 / env.FTC_SBIT_ITEMS_PER_NODE) :
    (∃ r1 r2, FTC_SBitCache_Lookup env c1 (some type) g1 (some s1) n1 = some r1 ∧
      FTC_SBitCache_Lookup env c2 (some type) g2 (some s2) n2 = some r2 ∧
      r1.calls.map (fun c => c.hash) =
        [(FTC_BASIC_ATTR_HASH env (typeAttrs type) + g1 / env.FTC_SBIT_ITEMS_PER_NODE) %
          env.offset_size] ∧
      r1.calls.map (fun c => c.hash) = r2.calls.map (fun c => c.hash)) ∧
    ((FTC_SBitCache_LookupScaler env c1 (some scaler) load_flags g1 (some s1) n1).calls.map
        (fun c => c.hash) =
      [(FTC_BASIC_ATTR_HASH env (scalerAttrs scaler load_flags) +
          g1 / env.FTC_SBIT_ITEMS_PER_NODE) % env.offset_size] ∧
     (FTC_SBitCache_LookupScaler env c1 (some scaler) load_flags g1 (some s1) n1).calls.map
        (fun c => c.hash) =
      (FTC_SBitCache_LookupScaler env c2 (some scaler) load_flags g2 (some s2) n2).calls.map
        (fun c => c.hash)) ∧
    (∃ r, FTC_ImageCache_Lookup env c1 (some type) g1 (some y1) n1 = some r ∧
      r.calls.map (fun c => c.hash) =
        [(FTC_BASIC_ATTR_HASH env (typeAttrs type) + g1) % env.offset_size]) ∧
    (FTC_ImageCache_LookupScaler env c1 (some scaler) load_flags g1 (some y1) n1).calls.map
        (fun c => c.hash) =
      [(FTC_BASIC_ATTR_HASH env (scalerAttrs scaler load_flags) + g1) % env.offset_size] := by
  have hs : ∀ (c : FTC_GCacheRec R) (a : FTC_BasicAttrRec) (g : Nat) (n : Option Ptr),
      (sbitLookup env c a g n).calls.map (fun c => c.hash) =
        [(FTC_BASIC_ATTR_HASH env a + g / env.FTC_SBIT_ITEMS_PER_NODE) % env.offset_size] := by
    intro c a g n
    unfold sbitLookup
    cases n <;> simp only [] <;> split_ifs <;> rfl
  have hi : ∀ (c : FTC_GCacheRec R) (a : FTC_BasicAttrRec) (g : Nat) (n : Option Ptr),
      (imageLookup env c a g n).calls.map (fun c => c.hash) =
        [(FTC_BASIC_ATTR_HASH env a + g) % env.offset_size] := by
    intro c a g n
    unfold imageLookup
    cases n <;> simp only [] <;> split_ifs <;> rfl
  refine ⟨⟨_, _, rfl, rfl, hs _ _ _ _, ?_⟩, ⟨hs _ _ _ _, ?_⟩, ⟨_, rfl, hi _ _ _ _⟩, hi _ _ _ _⟩
  · rw [hs, hs, hb]
  · unfold FTC_SBitCache_LookupScaler
    simp only []
    rw [hs, hs, hb]

/-- C19: `ftc_basic_family_compare( family, query )` is true exactly when
`FTC_SCALER_COMPARE` deems the scaler of the family and the scaler of the query
equal and the two `load_flags` are equal; it depends on nothing but the
attributes of the family and of the query. -/
theorem C19_family_compare_is_structural (scalerCompare : FTC_ScalerRec → FTC_ScalerRec → Bool)
    (family family' : FTC_BasicFamilyRec) (query query' : FTC_BasicQueryRec)
    (hf : family'.attrs = family.attrs) (hq : query'.attrs = query.attrs) :
    (ftc_basic_family_compare scalerCompare family query = true ↔
      scalerCompare family.attrs.scaler query.attrs.scaler = true ∧
        family.attrs.load_flags = query.attrs.load_flags) ∧
    ftc_basic_family_compare scalerCompare family' query' =
      ftc_basic_family_compare scalerCompare family query := by
  constructor
  · simp [ftc_basic_family_compare, FTC_BASIC_ATTR_COMPARE]
  · simp [ftc_basic_family_compare, hf, hq]

/-- C20: a `NULL` output pointer, or a `NULL` scaler, is rejected before any
cache access.  `FTC_ImageCache_Lookup` with a `NULL` `aglyph`,
`FTC_ImageCache_LookupScaler` with a `NULL` `aglyph` or a `NULL` `scaler`,
`FTC_SBitCache_Lookup` with a `NULL` `ansbit` and `FTC_SBitCache_LookupScaler`
with a `NULL` `ansbit` or a `NULL` `scaler` return `Invalid_Argument`, which is
not `0`, without using `FTC_GCACHE_LOOKUP_CMP` and leave the cache, the
reference counts of its nodes included, as it was. -/
theorem C20_null_arguments_rejected {R : Type} (env : FTC_BasicEnv R) (cache : FTC_GCacheRec R)
    (type : Option FTC_ImageTypeRec) (scaler : Option FTC_ScalerRec) (load_flags gindex : Nat)
    (aglyph : Option Ptr) (ansbit : Option FTC_SBit) (anode : Option Ptr) :
    FT_TS_Err_Invalid_Argument ≠ 0 ∧
    (∃ r, FTC_ImageCache_Lookup env cache type gindex none anode = some r ∧
      r.error = FT_TS_Err_Invalid_Argument ∧ r.cache = cache ∧ r.calls = []) ∧
    ((FTC_ImageCache_LookupScaler env cache scaler load_flags gindex none anode).error =
        FT_TS_Err_Invalid_Argument ∧
      (FTC_ImageCache_LookupScaler env cache scaler load_flags gindex none anode).cache = cache ∧
      (FTC_ImageCache_LookupScaler env cache scaler load_flags gindex none anode).calls = []) ∧
    ((FTC_ImageCache_LookupScaler env cache none load_flags gindex aglyph anode).error =
        FT_TS_Err_Invalid_Argument ∧
      (FTC_ImageCache_LookupScaler env cache none load_flags gindex aglyph anode).cache = cache ∧
      (FTC_ImageCache_LookupScaler env cache none load_flags gindex aglyph anode).calls = []) ∧
    (∃ r, FTC_SBitCache_Lookup env cache type gindex none anode = some r ∧
      r.error = FT_TS_Err_Invalid_Argument ∧ r.cache = cache ∧ r.calls = []) ∧
    ((FTC_SBitCache_LookupScaler env cache scaler load_flags gindex none anode).error =
        FT_TS_Err_Invalid_Argument ∧
      (FTC_SBitCache_LookupScaler env cache scaler load_flags gindex none anode).cache = cache ∧
      (FTC_SBitCache_LookupScaler env cache scaler load_flags gindex none anode).calls = []) ∧
    ((FTC_SBitCache_LookupScaler env cache none load_flags gindex ansbit anode).error =
        FT_TS_Err_Invalid_Argument ∧
      (FTC_SBitCache_LookupScaler env cache none load_flags gindex ansbit anode).cache = cache ∧
      (FTC_SBitCache_LookupScaler env cache none load_flags gindex ansbit anode).calls = []) := by
  refine ⟨by decide, ⟨_, rfl, rfl, rfl, rfl⟩, ?_, ?_, ⟨_, rfl, rfl, rfl, rfl⟩, ?_, ?_⟩
  · cases scaler <;> exact ⟨rfl, rfl, rfl⟩
  · cases aglyph <;> exact ⟨rfl, rfl, rfl⟩
  · cases scaler <;> exact ⟨rfl, rfl, rfl⟩
  · cases ansbit <;> exact ⟨rfl, rfl, rfl⟩

/-- An instance of C11: in the ring of nodes 2 and 1, Up of node 1 makes it
the head, before node 2. -/
theorem C11_witness :
    Ring sampleList.heap 2 [2, 1] ∧ 1 ∈ [2, 1] ∧
    (FTC_MruNode_Up sampleList.heap 2 1).2 = 1 ∧
    Ring (FTC_MruNode_Up sampleList.heap 2 1).1 (FTC_MruNode_Up sampleList.heap 2 1).2 [1, 2] := by
  have h := C11_up_moves_member_to_head sampleList.heap 2 1 [2, 1] (by decide) (by decide)
  have e : (1 :: [2, 1].erase 1) = [1, 2] := by decide
  rw [e] at h
  exact ⟨by decide, by decide, h.1, h.2.1⟩

/-- An instance of C12: in the ring of nodes 2 and 1, Remove of the head 2
leaves the ring of node 1, headed by the former second node. -/
theorem C12_witness :
    Ring sampleList.heap 2 [2, 1] ∧ 2 ∈ [2, 1] ∧
    Ring (FTC_MruNode_Remove sampleList.heap 2 2).1 (FTC_MruNode_Remove sampleList.heap 2 2).2 [1] ∧
    (FTC_MruNode_Remove sampleList.heap 2 2).2 = 1 := by
  have h := C12_remove_erases_member sampleList.heap 2 2 [2, 1] (by decide) (by decide)
  have e : [2, 1].erase 2 = [1] := by decide
  rw [e] at h
  exact ⟨by decide, by decide, h.1, h.2.2.1 1 [] rfl⟩

/-- An instance of C13: Prepend of node 3 to the ring of nodes 2 and 1. -/
theorem C13_witness :
    Ring sampleList.heap 2 [2, 1] ∧ 3 ∉ [2, 1] ∧
    (FTC_MruNode_Prepend sampleList.heap 2 3).2 = 3 ∧
    Ring (FTC_MruNode_Prepend sampleList.heap 2 3).1 (FTC_MruNode_Prepend sampleList.heap 2 3).2
      [3, 2, 1] := by
  have h := C13_prepend_inserts_at_head sampleList.heap 2 3 [2, 1] (by decide) (by decide)
    (by decide)
  exact ⟨by decide, by decide, h.1, h.2.1⟩

/-- An instance of C14: in the list of nodes 2 and 1, Up of node 1 then
Remove of node 1 leaves the list of node 2, with `num_nodes = 1`. -/
theorem C14_witness :
    WF sampleList [2, 1] ∧
    WF (FTC_MruList_Remove (sampleList.up 1) 1) [2] ∧
    WF (FTC_MruList_Remove sampleList 1) [2] ∧
    (FTC_MruList_Remove (sampleList.up 1) 1).num_nodes + 1 = sampleList.num_nodes := by
  have h := C14_up_then_remove sampleList [2, 1] 1 (by decide) (by decide) (by decide)
  have e : [2, 1].erase 1 = [2] := by decide
  rw [e] at h
  exact ⟨by decide, h.1, h.2.1, h.2.2.1⟩

/-- An instance of C16: Reset of the list of nodes 2 and 1 returns the empty
list. -/
theorem C16_witness :
    WF sampleList [2, 1] ∧
    ∃ list', FTC_MruList_Reset 2 sampleList = some list' ∧
      FTC_MruList_Done 2 sampleList = some list' ∧ list'.nodes = 0 ∧ list'.num_nodes = 0 := by
  obtain ⟨list', h1, h2, h3, h4, _⟩ :=
    C16_reset_and_done_empty_the_list sampleList [2, 1] 2 (by decide) (by decide)
  exact ⟨by decide, list', h1, h2, h3, h4⟩

/-- The scenario of C17: with four small bitmaps per node, the lookups of the
glyph indices 5, 6 and 7 of one configuration all use the hash 104, the hash
103 of the attributes plus the batch number 1; the image lookup of the glyph
index 5 uses the hash 108. -/
theorem C17_witness :
    (5 / sampleEnv.FTC_SBIT_ITEMS_PER_NODE = 6 / sampleEnv.FTC_SBIT_ITEMS_PER_NODE) ∧
    ([5, 6, 7].map (fun g =>
        (FTC_SBitCache_Lookup sampleEnv sampleCache (some sampleType) g (some FTC_SBit.null)
          none).map (fun r => r.calls.map (fun c => c.hash))) =
      [some [104], some [104], some [104]]) ∧
    ((FTC_ImageCache_Lookup sampleEnv sampleCache (some sampleType) 5 (some 0) none).map
        (fun r => r.calls.map (fun c => c.hash)) = some [108]) ∧
    (FTC_SBitCache_LookupScaler sampleEnv sampleCache (some sampleQuery.attrs.scaler) 0 5
        (some FTC_SBit.null) none).calls.map (fun c => c.hash) =
      (FTC_SBitCache_LookupScaler sampleEnv sampleCache (some sampleQuery.attrs.scaler) 0 6
        (some FTC_SBit.null) none).calls.map (fun c => c.hash) :=
  ⟨by decide, by decide, by decide,
    (C17_sbit_hash_shared_by_batch sampleEnv sampleCache sampleCache sampleType
      sampleQuery.attrs.scaler 0 5 6 FTC_SBit.null FTC_SBit.null 0 none none
      (by decide)).2.1.2⟩

/-- An instance of C19: the family built for `otherQuery` (face 8) against
the query `sampleQuery` (face 7) and against a copy of it with another glyph
index. -/
theorem C19_witness :
    ftc_basic_family_compare sameScaler (ftc_basic_family_init 0 zeroFamily otherQuery).2
      sampleQuery = false ∧
    ftc_basic_family_compare sameScaler (ftc_basic_family_init 0 zeroFamily otherQuery).2
        { sampleQuery with gindex := 5 } =
      ftc_basic_family_compare sameScaler (ftc_basic_family_init 0 zeroFamily otherQuery).2
        sampleQuery :=
  ⟨by decide,
    (C19_family_compare_is_structural sameScaler (ftc_basic_family_init 0 zeroFamily otherQuery).2
      (ftc_basic_family_init 0 zeroFamily otherQuery).2 sampleQuery
      { sampleQuery with gindex := 5 } rfl rfl).2⟩

/-- The pinned cache differs from the cache only in the `ref_count` of the
node, which is one more. -/
theorem pin_spec {R : Type} (cache : FTC_GCacheRec R) (node : Ptr) :
    ((cache.pin node).node node).ref_count = (cache.node node).ref_count + 1 ∧
    ((cache.pin node).node node).gindex = (cache.node node).gindex ∧
    ((cache.pin node).node node).glyph = (cache.node node).glyph ∧
    (∀ x, x ≠ node → (cache.pin node).node x = cache.node x) ∧
    (cache.pin node).rest = cache.rest := by
  refine ⟨by simp [FTC_GCacheRec.pin], by simp [FTC_GCacheRec.pin],
    by simp [FTC_GCacheRec.pin], fun x hx => ?_, rfl⟩
  simp [FTC_GCacheRec.pin, upd, hx]

/-- The end of the image lookups pins as `Pinning` says. -/
theorem imageLookup_pinning {R : Type} (env : FTC_BasicEnv R) (cache : FTC_GCacheRec R)
    (attrs : FTC_BasicAttrRec) (gindex : Nat) (anode : Option Ptr) :
    Pinning env cache anode.isSome (imageLookup env cache attrs gindex anode) := by
  right
  obtain ⟨c, hc⟩ : ∃ c : FTC_GCacheCall, c =
      { nodecmp := FTC_NodeCompare.FTC_GNode_Compare
        hash := (FTC_BASIC_ATTR_HASH env attrs + gindex) % env.offset_size
        gindex := gindex, attrs := attrs } := ⟨_, rfl⟩
  have hu : env.use cache c = env.FTC_GCACHE_LOOKUP_CMP cache
      (ftc_basic_family_compare env.FTC_SCALER_COMPARE) FTC_NodeCompare.FTC_GNode_Compare
      ((FTC_BASIC_ATTR_HASH env attrs + gindex) % env.offset_size) gindex attrs := by
    rw [hc]; rfl
  refine ⟨c, ?_⟩
  rw [hu, hc]
  unfold imageLookup
  by_cases he : (env.FTC_GCACHE_LOOKUP_CMP cache
      (ftc_basic_family_compare env.FTC_SCALER_COMPARE) FTC_NodeCompare.FTC_GNode_Compare
      ((FTC_BASIC_ATTR_HASH env attrs + gindex) % env.offset_size) gindex attrs).1 = 0
  · cases anode with
    | none => simp [he]
    | some a =>
      simp only [he, if_true, Option.isSome_some]
      refine ⟨trivial, trivial, fun _ _ => ⟨trivial, pin_spec _ _⟩, fun h => ?_⟩
      simp at h
  · cases anode <;> simp [he]

/-- The end of the small bitmap lookups pins as `Pinning` says. -/
theorem sbitLookup_pinning {R : Type} (env : FTC_BasicEnv R) (cache : FTC_GCacheRec R)
    (attrs : FTC_BasicAttrRec) (gindex : Nat) (anode : Option Ptr) :
    Pinning env cache anode.isSome (sbitLookup env cache attrs gindex anode) := by
  right
  obtain ⟨c, hc⟩ : ∃ c : FTC_GCacheCall, c =
      { nodecmp := FTC_NodeCompare.FTC_SNode_Compare
        hash := (FTC_BASIC_ATTR_HASH env attrs + gindex / env.FTC_SBIT_ITEMS_PER_NODE) %
          env.offset_size
        gindex := gindex, attrs := attrs } := ⟨_, rfl⟩
  have hu : env.use cache c = env.FTC_GCACHE_LOOKUP_CMP cache
      (ftc_basic_family_compare env.FTC_SCALER_COMPARE) FTC_NodeCompare.FTC_SNode_Compare
      ((FTC_BASIC_ATTR_HASH env attrs + gindex / env.FTC_SBIT_ITEMS_PER_NODE) %
        env.offset_size) gindex attrs := by
    rw [hc]; rfl
  refine ⟨c, ?_⟩
  rw [hu, hc]
  unfold sbitLookup
  by_cases he : (env.FTC_GCACHE_LOOKUP_CMP cache
      (ftc_basic_family_compare env.FTC_SCALER_COMPARE) FTC_NodeCompare.FTC_SNode_Compare
      ((FTC_BASIC_ATTR_HASH env attrs + gindex / env.FTC_SBIT_ITEMS_PER_NODE) %
        env.offset_size) gindex attrs).1 = 0
  · cases anode with
    | none => simp [he]
    | some a =>
      simp only [he, ne_eq, not_true_eq_false, if_false, Option.isSome_some]
      refine ⟨trivial, trivial, fun _ _ => ⟨trivial, pin_spec _ _⟩, fun h => ?_⟩
      simp at h
  · cases anode <;> simp [he]

/-- C21: pinning in the four lookups.  Each of `FTC_ImageCache_Lookup`,
`FTC_ImageCache_LookupScaler`, `FTC_SBitCache_Lookup` and
`FTC_SBitCache_LookupScaler` either rejects its arguments and leaves the cache
alone, or uses `FTC_GCACHE_LOOKUP_CMP` once and returns its error; when that
lookup succeeds and `anode` is not `NULL`, `*anode` is the node found and the
`ref_count` of that node is one more than the generic lookup left it, nothing
else in the cache being changed; when it fails, or `anode` is `NULL`, the cache
is as the generic lookup left it. -/
theorem C21_lookup_pins_found_node {R : Type} (env : FTC_BasicEnv R) (cache : FTC_GCacheRec R)
    (type : Option FTC_ImageTypeRec) (scaler : Option FTC_ScalerRec) (load_flags gindex : Nat)
    (aglyph : Option Ptr) (ansbit : Option FTC_SBit) (anode : Option Ptr) :
    (∀ r, FTC_ImageCache_Lookup env cache type gindex aglyph anode = some r →
      Pinning env cache anode.isSome r) ∧
    Pinning env cache anode.isSome
      (FTC_ImageCache_LookupScaler env cache scaler load_flags gindex aglyph anode) ∧
    (∀ r, FTC_SBitCache_Lookup env cache type gindex ansbit anode = some r →
      Pinning env cache anode.isSome r) ∧
    Pinning env cache anode.isSome
      (FTC_SBitCache_LookupScaler env cache scaler load_flags gindex ansbit anode) := by
  have hmap : (anode.map (fun _ => (0 : Ptr))).isSome = anode.isSome := by
    cases anode <;> rfl
  have hi : ∀ attrs, Pinning env cache anode.isSome
      (imageLookup env cache attrs gindex (anode.map (fun _ => 0))) := fun attrs => by
    rw [← hmap]; exact imageLookup_pinning env cache attrs gindex _
  have hs : ∀ attrs, Pinning env cache anode.isSome
      (sbitLookup env cache attrs gindex (anode.map (fun _ => 0))) := fun attrs => by
    rw [← hmap]; exact sbitLookup_pinning env cache attrs gindex _
  have hbad : FT_TS_Err_Invalid_Argument ≠ 0 := by decide
  refine ⟨fun r hr => ?_, ?_, fun r hr => ?_, ?_⟩
  · unfold FTC_ImageCache_Lookup at hr
    cases aglyph with
    | none =>
      simp only [Option.some.injEq] at hr
      subst hr
      exact Or.inl ⟨rfl, hbad, rfl⟩
    | some a =>
      cases type with
      | none => simp at hr
      | some t =>
        simp only [Option.some.injEq] at hr
        subst hr
        exact hi _
  · unfold FTC_ImageCache_LookupScaler
    cases aglyph with
    | none => cases scaler <;> exact Or.inl ⟨rfl, hbad, rfl⟩
    | some a =>
      cases scaler with
      | none => exact Or.inl ⟨rfl, hbad, rfl⟩
      | some s => exact hi _
  · unfold FTC_SBitCache_Lookup at hr
    cases ansbit with
    | none =>
      simp only [Option.some.injEq] at hr
      subst hr
      exact Or.inl ⟨rfl, hbad, rfl⟩
    | some a =>
      cases type with
      | none => simp at hr
      | some t =>
        simp only [Option.some.injEq] at hr
        subst hr
        exact hs _
  · unfold FTC_SBitCache_LookupScaler
    cases ansbit with
    | none => cases scaler <;> exact Or.inl ⟨rfl, hbad, rfl⟩
    | some a =>
      cases scaler with
      | none => exact Or.inl ⟨rfl, hbad, rfl⟩
      | some s => exact hs _

/-- The end of the image lookups, on failure, leaves `NULL` in `*aglyph` and
leaves `*anode` as it was. -/
theorem imageLookup_failure {R : Type} (env : FTC_BasicEnv R) (cache : FTC_GCacheRec R)
    (attrs : FTC_BasicAttrRec) (gindex : Nat) (anode : Option Ptr)
    (he : (imageLookup env cache attrs gindex anode).error ≠ 0) :
    (imageLookup env cache attrs gindex anode).out = some 0 ∧
    (imageLookup env cache attrs gindex anode).anode = anode := by
  unfold imageLookup at he ⊢
  by_cases h : (env.FTC_GCACHE_LOOKUP_CMP cache
      (ftc_basic_family_compare env.FTC_SCALER_COMPARE) FTC_NodeCompare.FTC_GNode_Compare
      ((FTC_BASIC_ATTR_HASH env attrs + gindex) % env.offset_size) gindex attrs).1 = 0
  · cases anode <;> simp [h] at he
  · simp [h]

/-- The end of the small bitmap lookups, on failure, leaves `NULL` in
`*ansbit` and leaves `*anode` as it was. -/
theorem sbitLookup_failure {R : Type} (env : FTC_BasicEnv R) (cache : FTC_GCacheRec R)
    (attrs : FTC_BasicAttrRec) (gindex : Nat) (anode : Option Ptr)
    (he : (sbitLookup env cache attrs gindex anode).error ≠ 0) :
    (sbitLookup env cache attrs gindex anode).out = some FTC_SBit.null ∧
    (sbitLookup env cache attrs gindex anode).anode = anode := by
  unfold sbitLookup at he ⊢
  by_cases h : (env.FTC_GCACHE_LOOKUP_CMP cache
      (ftc_basic_family_compare env.FTC_SCALER_COMPARE) FTC_NodeCompare.FTC_SNode_Compare
      ((FTC_BASIC_ATTR_HASH env attrs + gindex / env.FTC_SBIT_ITEMS_PER_NODE) %
        env.offset_size) gindex attrs).1 = 0
  · cases anode <;> simp [h] at he
  · simp [h]

/-- C23 (as amended): when one of the four lookups returns a non-zero error
after it has reached `FTC_GCACHE_LOOKUP_CMP` (its arguments were accepted),
every output pointer that is not `NULL` points to `NULL` on return:
`*aglyph` or `*ansbit`, and `*anode`.  `FTC_SBitCache_Lookup` does so on every
non-zero error, and `FTC_SBitCache_LookupScaler` leaves `NULL` in `*anode` on
every non-zero error. -/
theorem C23_failure_after_checks_nulls_outputs {R : Type} (env : FTC_BasicEnv R)
    (cache : FTC_GCacheRec R) (type : Option FTC_ImageTypeRec) (scaler : Option FTC_ScalerRec)
    (load_flags gindex : Nat) (aglyph : Option Ptr) (ansbit : Option FTC_SBit)
    (anode : Option Ptr) :
    (∀ r, FTC_ImageCache_Lookup env cache type gindex aglyph anode = some r →
      r.error ≠ 0 → r.calls ≠ [] →
      r.out = aglyph.map (fun _ => 0) ∧ r.anode = anode.map (fun _ => 0)) ∧
    ((FTC_ImageCache_LookupScaler env cache scaler load_flags gindex aglyph anode).error ≠ 0 →
      (FTC_ImageCache_LookupScaler env cache scaler load_flags gindex aglyph anode).calls ≠ [] →
      (FTC_ImageCache_LookupScaler env cache scaler load_flags gindex aglyph anode).out =
          aglyph.map (fun _ => 0) ∧
        (FTC_ImageCache_LookupScaler env cache scaler load_flags gindex aglyph anode).anode =
          anode.map (fun _ => 0)) ∧
    (∀ r, FTC_SBitCache_Lookup env cache type gindex ansbit anode = some r →
      r.error ≠ 0 →
      r.out = ansbit.map (fun _ => FTC_SBit.null) ∧ r.anode = anode.map (fun _ => 0)) ∧
    ((FTC_SBitCache_LookupScaler env cache scaler load_flags gindex ansbit anode).error ≠ 0 →
      (FTC_SBitCache_LookupScaler env cache scaler load_flags gindex ansbit anode).anode =
          anode.map (fun _ => 0) ∧
        ((FTC_SBitCache_LookupScaler env cache scaler load_flags gindex ansbit anode).calls ≠ [] →
          (FTC_SBitCache_LookupScaler env cache scaler load_flags gindex ansbit anode).out =
            ansbit.map (fun _ => FTC_SBit.null))) := by
  refine ⟨fun r hr he hc => ?_, fun he hc => ?_, fun r hr he => ?_, fun he => ?_⟩
  · unfold FTC_ImageCache_Lookup at hr
    cases aglyph with
    | none =>
      simp only [Option.some.injEq] at hr
      subst hr
      exact absurd rfl hc
    | some a =>
      cases type with
      | none => simp at hr
      | some t =>
        simp only [Option.some.injEq] at hr
        subst hr
        exact imageLookup_failure env cache _ gindex _ he
  · unfold FTC_ImageCache_LookupScaler at he hc ⊢
    cases aglyph with
    | none => cases scaler <;> exact absurd rfl hc
    | some a =>
      cases scaler with
      | none => exact absurd rfl hc
      | some s => exact imageLookup_failure env cache _ gindex _ he
  · unfold FTC_SBitCache_Lookup at hr
    cases ansbit with
    | none =>
      simp only [Option.some.injEq] at hr
      subst hr
      exact ⟨rfl, rfl⟩
    | some a =>
      cases type with
      | none => simp at hr
      | some t =>
        simp only [Option.some.injEq] at hr
        subst hr
        exact sbitLookup_failure env cache _ gindex _ he
  · unfold FTC_SBitCache_LookupScaler at he ⊢
    cases ansbit with
    | none => cases scaler <;> exact ⟨rfl, fun hc => absurd rfl hc⟩
    | some a =>
      cases scaler with
      | none => exact ⟨rfl, fun hc => absurd rfl hc⟩
      | some s =>
        have h := sbitLookup_failure env cache (scalerAttrs s load_flags) gindex
          (anode.map (fun _ => 0)) he
        exact ⟨h.2, fun _ => h.1⟩

/-- C22 (as amended): `ftc_basic_family_load_glyph`, the outcomes of the size
lookup, of the glyph load and of the glyph extraction being `( e1, size )`,
`e2` and `( e3, glyph )`.  If the size lookup fails its error is returned and
nothing else is called; else if the glyph load fails its error is returned
and the extraction is not called; else if the format of the slot is none of
bitmap, outline and SVG, `Invalid_Argument` is returned and the extraction is
not called; else if the extraction fails its error is returned; else `0` is
returned and `*aglyph` is the glyph.  So `0` is returned only when the format
is one of the three and the extraction succeeded, `*aglyph` is written only
then, and an error other than that of a failing step is returned only for an
unsupported format, where it is `Invalid_Argument`. -/
theorem C22_load_glyph_errors {W : Type} (env : FTC_LoadEnv W) (world : W)
    (family : FTC_BasicFamilyRec) (gindex : Nat) (aglyph : Ptr)
    (e1 e2 e3 : Nat) (size glyph : Ptr) (w1 w2 w3 : W)
    (h1 : env.FTC_Manager_LookupSize world family.attrs.scaler = (e1, size, w1))
    (h2 : env.FT_TS_Load_Glyph w1 (env.size_face w1 size) gindex
      (toInt family.attrs.load_flags) = (e2, w2))
    (h3 : env.FT_TS_Get_Glyph w2 (env.size_face w1 size) = (e3, glyph, w3)) :
    (e1 ≠ 0 →
      (ftc_basic_family_load_glyph env world family gindex aglyph).error = e1 ∧
      (ftc_basic_family_load_glyph env world family gindex aglyph).aglyph = aglyph ∧
      (ftc_basic_family_load_glyph env world family gindex aglyph).calls =
        [FTC_LoadCall.lookupSize family.attrs.scaler]) ∧
    (e1 = 0 → e2 ≠ 0 →
      (ftc_basic_family_load_glyph env world family gindex aglyph).error = e2 ∧
      (ftc_basic_family_load_glyph env world family gindex aglyph).aglyph = aglyph ∧
      (ftc_basic_family_load_glyph env world family gindex aglyph).calls =
        [FTC_LoadCall.lookupSize family.attrs.scaler,
          FTC_LoadCall.loadGlyph (env.size_face w1 size) gindex
            (toInt family.attrs.load_flags)]) ∧
    (e1 = 0 → e2 = 0 →
      ¬ (env.glyph_format w2 (env.size_face w1 size) = env.FT_TS_GLYPH_FORMAT_BITMAP ∨
        env.glyph_format w2 (env.size_face w1 size) = env.FT_TS_GLYPH_FORMAT_OUTLINE ∨
        env.glyph_format w2 (env.size_face w1 size) = env.FT_TS_GLYPH_FORMAT_SVG) →
      (ftc_basic_family_load_glyph env world family gindex aglyph).error =
        FT_TS_Err_Invalid_Argument ∧
      (ftc_basic_family_load_glyph env world family gindex aglyph).aglyph = aglyph ∧
      (ftc_basic_family_load_glyph env world family gindex aglyph).calls =
        [FTC_LoadCall.lookupSize family.attrs.scaler,
          FTC_LoadCall.loadGlyph (env.size_face w1 size) gindex
            (toInt family.attrs.load_flags)]) ∧
    (e1 = 0 → e2 = 0 →
      (env.glyph_format w2 (env.size_face w1 size) = env.FT_TS_GLYPH_FORMAT_BITMAP ∨
        env.glyph_format w2 (env.size_face w1 size) = env.FT_TS_GLYPH_FORMAT_OUTLINE ∨
        env.glyph_format w2 (env.size_face w1 size) = env.FT_TS_GLYPH_FORMAT_SVG) →
      (ftc_basic_family_load_glyph env world family gindex aglyph).error = e3 ∧
      (ftc_basic_family_load_glyph env world family gindex aglyph).aglyph =
        (if e3 = 0 then glyph else aglyph) ∧
      (ftc_basic_family_load_glyph env world family gindex aglyph).calls =
        [FTC_LoadCall.lookupSize family.attrs.scaler,
          FTC_LoadCall.loadGlyph (env.size_face w1 size) gindex
            (toInt family.attrs.load_flags),
          FTC_LoadCall.getGlyph (env.size_face w1 size)]) ∧
    ((ftc_basic_family_load_glyph env world family gindex aglyph).error = 0 →
      e1 = 0 ∧ e2 = 0 ∧ e3 = 0 ∧
      (env.glyph_format w2 (env.size_face w1 size) = env.FT_TS_GLYPH_FORMAT_BITMAP ∨
        env.glyph_format w2 (env.size_face w1 size) = env.FT_TS_GLYPH_FORMAT_OUTLINE ∨
        env.glyph_format w2 (env.size_face w1 size) = env.FT_TS_GLYPH_FORMAT_SVG)) ∧
    ((ftc_basic_family_load_glyph env world family gindex aglyph).error ≠ 0 →
      (ftc_basic_family_load_glyph env world family gindex aglyph).aglyph = aglyph) := by
  have hbad : FT_TS_Err_Invalid_Argument ≠ 0 := by decide
  unfold ftc_basic_family_load_glyph
  simp only [h1]
  by_cases c1 : e1 = 0
  · simp only [c1, if_true, h2]
    by_cases c2 : e2 = 0
    · simp only [c2, if_true]
      by_cases cf : env.glyph_format w2 (env.size_face w1 size) = env.FT_TS_GLYPH_FORMAT_BITMAP ∨
          env.glyph_format w2 (env.size_face w1 size) = env.FT_TS_GLYPH_FORMAT_OUTLINE ∨
          env.glyph_format w2 (env.size_face w1 size) = env.FT_TS_GLYPH_FORMAT_SVG
      · simp only [cf, if_true, h3]
        by_cases c3 : e3 = 0
        · simp [c3]
        · simp [c3]
      · simp [cf, hbad]
    · simp [c2]
  · simp [c1]

/-- A non-empty ring ends in the node before its head: `head->prev` is the
last node. -/
theorem ring_tail {P : Type} {h : Heap P} {plist : Ptr} {L : List Ptr}
    (hr : Ring h plist L) (hne : L ≠ []) :
    ∃ D, L = D ++ [h.prev plist] ∧ plist ≠ 0 ∧ h.prev plist ≠ 0 ∧ h.prev plist ∈ L := by
  rcases List.eq_nil_or_concat L with rfl | ⟨D, t, rfl⟩
  · exact absurd rfl hne
  · rw [List.concat_eq_append] at hr ⊢
    have h0 : (0 : Ptr) ∉ D ++ [t] := hr.2.1
    cases D with
    | nil =>
      obtain ⟨hx, hx0⟩ := ring_nodes_ne_zero (show Ring h plist (t :: []) from hr)
      obtain ⟨z, hz, _, hp⟩ := ring_last (show Ring h t (t :: []) from hx ▸ hr)
      simp at hz
      subst hx
      rw [hp, ← hz]
      exact ⟨[], rfl, hx0, hx0, by simp⟩
    | cons d D' =>
      obtain ⟨hx, hx0⟩ := ring_nodes_ne_zero (show Ring h plist (d :: (D' ++ [t])) from hr)
      obtain ⟨z, hz, _, hp⟩ := ring_last (show Ring h d (d :: (D' ++ [t])) from hx ▸ hr)
      have hzt : z = t := by
        have : (d :: (D' ++ [t])).getLast? = some t := by
          rw [← List.cons_append, List.getLast?_append]; simp
        rw [this] at hz
        exact (Option.some.inj hz).symm
      subst hx
      rw [hp, hzt]
      refine ⟨plist :: D', rfl, hx0, fun ht => h0 (by simp [ht]), by simp⟩

/-- C24 (as amended): `FTC_MruList_New` on a well-formed list at capacity
whose class has no `node_reset`, or whose `node_reset` fails, and whose
`node_init` then succeeds: the former tail node has `node_done` invoked on it
(when the class has it) and is unlinked, but its storage is not released: no
block is allocated or released, and the node returned and placed at the head
is the former tail node itself, initialised anew. -/
theorem C24_new_at_capacity_reuses_tail {P K : Type} (list : FTC_MruListRec P K)
    (L : List Ptr) (key : K) (hwf : WF list L) (hcap : atCapacity list)
    (hfail : ∀ rs, list.clazz.node_reset = some rs →
      (rs (list.heap.payload (list.heap.prev list.nodes)) key).1 ≠ 0)
    (hinit : (list.clazz.node_init (recyclePayload list.clazz
      (list.heap.payload (list.heap.prev list.nodes)) key) key).1 = 0) :
    L.getLast? = some (list.heap.prev list.nodes) ∧
    (FTC_MruList_New list key).1 = 0 ∧
    (FTC_MruList_New list key).2.1 = list.heap.prev list.nodes ∧
    (FTC_MruList_New list key).2.2.nodes = list.heap.prev list.nodes ∧
    WF (FTC_MruList_New list key).2.2 (list.heap.prev list.nodes :: L.dropLast) ∧
    (FTC_MruList_New list key).2.2.trace = list.trace ++
      (resetEvents list.clazz (list.heap.prev list.nodes) key ++
        (doneEvents list.clazz (list.heap.prev list.nodes) ++
          [Event.init (list.heap.prev list.nodes) key])) ∧
    (∀ e ∈ resetEvents list.clazz (list.heap.prev list.nodes) key ++
        (doneEvents list.clazz (list.heap.prev list.nodes) ++
          [Event.init (list.heap.prev list.nodes) key]), Event.isMemory e = false) ∧
    (FTC_MruList_New list key).2.2.heap.live = list.heap.live := by
  obtain ⟨hr, hnum, hmax⟩ := hwf
  have hne : L ≠ [] := by
    intro h
    rw [h] at hnum
    unfold atCapacity at hcap
    simp at hnum
    omega
  obtain ⟨D, hD, _, _, _⟩ := ring_tail hr hne
  obtain ⟨t, ht⟩ : ∃ t, t = list.heap.prev list.nodes := ⟨_, rfl⟩
  rw [← ht] at hD hfail hinit ⊢
  subst hD
  obtain ⟨h1, h2, _⟩ := new_full_recycle list key D t hcap hr hfail
  obtain ⟨i1, i2, i3, i4, i5, _⟩ := h2 hinit
  have hpos : 0 < list.num_nodes := by rw [hnum]; simp
  rw [incU_decU _ hpos hmax] at i4
  refine ⟨by simp, by rw [h1, hinit], i1, by simpa using ring_head i2,
    ⟨by simpa using i2, by rw [i4, hnum]; simp, by rw [i4]; exact hmax⟩, i3.trace, ?_, i5⟩
  intro e he
  simp only [List.mem_append, List.mem_singleton] at he
  rcases he with he | he | he
  · unfold resetEvents at he
    cases hrs : list.clazz.node_reset <;> rw [hrs] at he <;> simp at he
    subst he; rfl
  · unfold doneEvents at he
    cases hd : list.clazz.node_done <;> rw [hd] at he <;> simp at he
    subst he; rfl
  · subst he; rfl

/-- The `selection` calls among the events of a pass of
`FTC_MruList_RemoveSelection` with a `selection`: one per node, in order. -/
theorem selectionEvents_select {P K : Type} (c : FTC_MruListClassRec P K) (q : Ptr → Bool)
    (L : List Ptr) :
    (selectionEvents c true q L).filter Event.isSelect = L.map (Event.select : Ptr → Event K) := by
  induction L with
  | nil => simp [selectionEvents]
  | cons x xs ih =>
    have e : selectionEvents c true q (x :: xs) =
        ([Event.select x] ++ (if q x then doneEvents c x ++ [Event.free x] else [])) ++
          selectionEvents c true q xs := by
      simp [selectionEvents]
    rw [e, List.filter_append, ih]
    cases hd : c.node_done <;> cases hq : q x <;>
      simp [doneEvents, hd, Event.isSelect]

/-- C26: `FTC_MruList_RemoveSelection` with a non-null `selection` on a
well-formed list with node sequence `L` returns (with fuel for one pass), and
the evaluations of `selection` it made are exactly one on every node of `L`,
head to tail, and none on any other node. -/
theorem C26_selection_evaluated_once_per_node {P K S : Type} (list : FTC_MruListRec P K)
    (L : List Ptr) (sel : P → S → Bool) (key : S) (fuel : Nat)
    (hwf : WF list L) (hf : L.length ≤ fuel) :
    ∃ list' evs, FTC_MruList_RemoveSelection fuel list (some sel) key = some list' ∧
      list'.trace = list.trace ++ evs ∧
      evs.filter Event.isSelect = L.map (Event.select : Ptr → Event K) ∧
      (L.map (Event.select : Ptr → Event K)).Nodup := by
  obtain ⟨hr, _, _⟩ := hwf
  obtain ⟨list', h1, _, _, h4, _⟩ := removeSelection_spec list L (some sel) key fuel hr hf
  refine ⟨list', _, h1, h4.trace, ?_, ?_⟩
  · simp only [Option.isSome_some]
    exact selectionEvents_select _ _ _
  · refine List.Nodup.map (fun a b h => ?_) hr.1
    injection h

/-- Every list reachable from `FTC_MruList_Init` by the list operations,
over a memory manager that hands out unused blocks and never has `UINT_MAX`
of them outstanding, holds a counted ring. -/
theorem reachable_counted {P K : Type} (clazz : FTC_MruListClassRec P K)
    (max_nodes : Nat) (memory : FT_TS_MemoryRec P) (heap : Heap P)
    (list : FTC_MruListRec P K) (hm : FreshMemory memory) (hb : BoundedMemory memory)
    (hreach : Reachable clazz max_nodes memory heap list) :
    ∃ L, Counted list L ∧ list.max_nodes = max_nodes ∧ list.memory = memory := by
  induction hreach with
  | init =>
    exact ⟨[], ⟨by simp [FTC_MruList_Init, Ring], rfl, fun _ => by simp, by simp,
      fun x hx => by simp at hx⟩, rfl, rfl⟩
  | new list key _ ih =>
    obtain ⟨L, hc, h1, h2⟩ := ih
    obtain ⟨L', evs, hc', hs⟩ := counted_new list L key hc (h2 ▸ hm) (h2 ▸ hb)
    exact ⟨L', hc', by rw [hs.max_nodes, h1], by rw [hs.memory, h2]⟩
  | lookup list key fuel r _ hl ih =>
    obtain ⟨L, hc, h1, h2⟩ := ih
    unfold FTC_MruList_Lookup at hl
    cases hf : FTC_MruList_Find fuel list key with
    | none => rw [hf] at hl; simp at hl
    | some x =>
      rw [hf] at hl
      obtain ⟨L1, evs1, hc1, hs1, _⟩ := counted_find list L key fuel x hc hf
      simp only at hl
      split_ifs at hl with hx0
      · have hm1 : FreshMemory x.2.memory := by rw [hs1.memory, h2]; exact hm
        have hb1 : BoundedMemory x.2.memory := by rw [hs1.memory, h2]; exact hb
        obtain ⟨L', evs, hc', hs⟩ := counted_new x.2 L1 key hc1 hm1 hb1
        have hr : r = FTC_MruList_New x.2 key := (Option.some.inj hl).symm
        rw [hr]
        exact ⟨L', hc', by rw [hs.max_nodes, hs1.max_nodes, h1],
          by rw [hs.memory, hs1.memory, h2]⟩
      · have hr : r = (0, x.1, x.2) := (Option.some.inj hl).symm
        rw [hr]
        exact ⟨L1, hc1, by rw [hs1.max_nodes, h1], by rw [hs1.memory, h2]⟩
  | find list key fuel r _ hf ih =>
    obtain ⟨L, hc, h1, h2⟩ := ih
    obtain ⟨L1, evs1, hc1, hs1, _⟩ := counted_find list L key fuel r hc hf
    exact ⟨L1, hc1, by rw [hs1.max_nodes, h1], by rw [hs1.memory, h2]⟩
  | remove list L0 node _ hring hmem ih =>
    obtain ⟨L, hc, h1, h2⟩ := ih
    have hmemL : node ∈ L := by
      rw [ring_unique hc.ring hring]; exact hmem
    obtain ⟨L', evs, hc', hs⟩ := counted_remove list L node hc hmemL
    exact ⟨L', hc', by rw [hs.max_nodes, h1], by rw [hs.memory, h2]⟩
  | removeSelection list S selection key fuel r _ hrs ih =>
    obtain ⟨L, hc, h1, h2⟩ := ih
    obtain ⟨L', evs, hc', hs⟩ := counted_removeSelection list r L selection key fuel hc hrs
    exact ⟨L', hc', by rw [hs.max_nodes, h1], by rw [hs.memory, h2]⟩
  | reset list fuel r _ hrs ih =>
    obtain ⟨L, hc, h1, h2⟩ := ih
    obtain ⟨L', evs, hc', hs⟩ := counted_reset list r L fuel hc hrs
    exact ⟨L', hc', by rw [hs.max_nodes, h1], by rw [hs.memory, h2]⟩

/-- C27: in every list reachable from `FTC_MruList_Init` by the list
operations (over a memory manager that hands out unused blocks and never has
`UINT_MAX` of them outstanding), whenever the at-capacity test of
`FTC_MruList_New` holds (`num_nodes >= max_nodes > 0`), `list->nodes` is not
`NULL`, and the node selected, `list->nodes->prev`, is not `NULL` and is a
member of the list, its last node. -/
theorem C27_tail_selection_is_safe {P K : Type} (clazz : FTC_MruListClassRec P K)
    (max_nodes : Nat) (memory : FT_TS_MemoryRec P) (heap : Heap P)
    (list : FTC_MruListRec P K) (hm : FreshMemory memory) (hb : BoundedMemory memory)
    (hreach : Reachable clazz max_nodes memory heap list) (hcap : atCapacity list) :
    list.nodes ≠ 0 ∧ list.heap.prev list.nodes ≠ 0 ∧
    ∃ L, Ring list.heap list.nodes L ∧ list.heap.prev list.nodes ∈ L ∧
      L.getLast? = some (list.heap.prev list.nodes) := by
  obtain ⟨L, hc, _, _⟩ := reachable_counted clazz max_nodes memory heap list hm hb hreach
  have hne : L ≠ [] := by
    intro h
    have := hc.count
    rw [h] at this
    unfold atCapacity at hcap
    simp at this
    omega
  obtain ⟨D, hD, h1, h2, h3⟩ := ring_tail hc.ring hne
  refine ⟨h1, h2, L, hc.ring, h3, ?_⟩
  rw [hD]; simp

/-- C28: `FTC_MruList_New` on a well-formed list whose nodes are allocated
blocks, over a memory manager that hands out unused blocks: the node left in
`*anode` is `NULL` exactly when the error returned is not `0`, and on success
the node returned is the head of the list. -/
theorem C28_new_node_null_iff_error {P K : Type} (list : FTC_MruListRec P K) (L : List Ptr)
    (key : K) (hwf : WF list L) (hown : ∀ x ∈ L, x ∈ list.heap.live)
    (hm : FreshMemory list.memory) :
    ((FTC_MruList_New list key).2.1 = 0 ↔ (FTC_MruList_New list key).1 ≠ 0) ∧
    ((FTC_MruList_New list key).1 = 0 →
      (FTC_MruList_New list key).2.2.nodes = (FTC_MruList_New list key).2.1) := by
  obtain ⟨hr, hnum, hmax⟩ := hwf
  by_cases hcap : atCapacity list
  · have hne : L ≠ [] := by
      intro h
      rw [h] at hnum
      unfold atCapacity at hcap
      simp at hnum
      omega
    obtain ⟨D, hD, _, ht0, _⟩ := ring_tail hr hne
    obtain ⟨t, ht⟩ : ∃ t, t = list.heap.prev list.nodes := ⟨_, rfl⟩
    rw [← ht] at hD ht0
    subst hD
    by_cases hrs : ∃ rs, list.clazz.node_reset = some rs ∧ (rs (list.heap.payload t) key).1 = 0
    · obtain ⟨rs, e1, e2⟩ := hrs
      obtain ⟨h1, h2, h3, _⟩ := new_full_reset list key D t rs hcap hr e1 e2
      refine ⟨by rw [h1, h2]; simp [ht0], fun _ => ?_⟩
      rw [h2]; simpa using ring_head h3
    · have hfail : ∀ rs, list.clazz.node_reset = some rs →
          (rs (list.heap.payload t) key).1 ≠ 0 := fun rs e1 e2 => hrs ⟨rs, e1, e2⟩
      obtain ⟨h1, h2, h3⟩ := new_full_recycle list key D t hcap hr hfail
      by_cases hi : (list.clazz.node_init (recyclePayload list.clazz (list.heap.payload t) key)
          key).1 = 0
      · obtain ⟨i1, i2, _⟩ := h2 hi
        refine ⟨by rw [h1, i1]; simp [ht0, hi], fun _ => ?_⟩
        rw [i1]; simpa using ring_head i2
      · obtain ⟨i1, _⟩ := h3 hi
        refine ⟨by rw [h1, i1]; simp [hi], fun h => ?_⟩
        rw [h1] at h; exact absurd h hi
  · cases ha : list.memory.alloc list.heap.live with
    | none =>
      rw [new_room_oom list key hcap ha]
      refine ⟨by simp [FT_TS_Err_Out_Of_Memory], fun h => ?_⟩
      simp [FT_TS_Err_Out_Of_Memory] at h
    | some p =>
      obtain ⟨hp0, hpl⟩ := hm _ _ ha
      have hpL : p ∉ L := fun h => hpl (hown p h)
      obtain ⟨h1, h2, h3⟩ := new_room list key L p hcap hr ha hp0 hpL
      by_cases hi : (list.clazz.node_init list.memory.zero key).1 = 0
      · obtain ⟨i1, i2, _⟩ := h2 hi
        refine ⟨by rw [h1, i1]; simp [hp0, hi], fun _ => ?_⟩
        rw [i1]; simpa using ring_head i2
      · obtain ⟨i1, _⟩ := h3 hi
        refine ⟨by rw [h1, i1]; simp [hi], fun h => ?_⟩
        rw [h1] at h; exact absurd h hi

/-- C29: `ftc_basic_gnode_compare_faceid( node, face_id, cache, list_changed )`
returns true exactly when the `face_id` in the scaler of the family of the
node is `face_id`; when it returns true it calls `FTC_GNode_UnselectFamily` on
the node, once, and the cache is what that call leaves; when it returns false
it makes no such call and leaves the cache alone; a `list_changed` that is not
`NULL` points to `FALSE` on return, whatever it held. -/
theorem C29_compare_faceid_unselects_on_match {W : Type} (unselect : W → Ptr → W)
    (family : W → Ptr → FTC_BasicFamilyRec) (gnode : Ptr) (face_id : Nat) (cache : W)
    (list_changed : Option Bool) :
    ((ftc_basic_gnode_compare_faceid unselect family gnode face_id cache list_changed).result
        = true ↔ (family cache gnode).attrs.scaler.face_id = face_id) ∧
    ((ftc_basic_gnode_compare_faceid unselect family gnode face_id cache list_changed).result
        = true →
      (ftc_basic_gnode_compare_faceid unselect family gnode face_id cache
          list_changed).unselected = [gnode] ∧
      (ftc_basic_gnode_compare_faceid unselect family gnode face_id cache list_changed).cache =
        unselect cache gnode) ∧
    ((ftc_basic_gnode_compare_faceid unselect family gnode face_id cache list_changed).result
        = false →
      (ftc_basic_gnode_compare_faceid unselect family gnode face_id cache
          list_changed).unselected = [] ∧
      (ftc_basic_gnode_compare_faceid unselect family gnode face_id cache list_changed).cache =
        cache) ∧
    (ftc_basic_gnode_compare_faceid unselect family gnode face_id cache
        list_changed).list_changed = list_changed.map (fun _ => false) := by
  unfold ftc_basic_gnode_compare_faceid
  by_cases h : (family cache gnode).attrs.scaler.face_id = face_id
  · simp [h]
  · simp [h]

/-- A successful `FTC_MruList_New` leaves the node it returns at the head of
the ring, holding what `node_reset` or `node_init` built for the key. -/
theorem new_success_head {P K : Type} (list : FTC_MruListRec P K) (L : List Ptr) (key : K)
    (hwf : WF list L) (hown : ∀ x ∈ L, x ∈ list.heap.live) (hm : FreshMemory list.memory)
    (hok : (FTC_MruList_New list key).1 = 0) :
    (FTC_MruList_New list key).2.2.clazz = list.clazz ∧
    (∃ T, Ring (FTC_MruList_New list key).2.2.heap (FTC_MruList_New list key).2.2.nodes
      ((FTC_MruList_New list key).2.1 :: T)) ∧
    ((∃ rs p, list.clazz.node_reset = some rs ∧ (rs p key).1 = 0 ∧
        (FTC_MruList_New list key).2.2.heap.payload (FTC_MruList_New list key).2.1 =
          (rs p key).2) ∨
      ∃ p, (list.clazz.node_init p key).1 = 0 ∧
        (FTC_MruList_New list key).2.2.heap.payload (FTC_MruList_New list key).2.1 =
          (list.clazz.node_init p key).2) := by
  obtain ⟨hr, hnum, hmax⟩ := hwf
  by_cases hcap : atCapacity list
  · have hne : L ≠ [] := by
      intro h
      rw [h] at hnum
      unfold atCapacity at hcap
      simp at hnum
      omega
    obtain ⟨D, hD, _, ht0, _⟩ := ring_tail hr hne
    obtain ⟨t, ht⟩ : ∃ t, t = list.heap.prev list.nodes := ⟨_, rfl⟩
    rw [← ht] at hD ht0
    subst hD
    by_cases hrs : ∃ rs, list.clazz.node_reset = some rs ∧ (rs (list.heap.payload t) key).1 = 0
    · obtain ⟨rs, e1, e2⟩ := hrs
      obtain ⟨_, h2, h3, h4, _, _, h7⟩ := new_full_reset list key D t rs hcap hr e1 e2
      refine ⟨h4.clazz, ⟨D, by rw [h2]; exact h3⟩, Or.inl ⟨rs, _, e1, e2, ?_⟩⟩
      rw [h7, h2]; simp
    · have hfail : ∀ rs, list.clazz.node_reset = some rs →
          (rs (list.heap.payload t) key).1 ≠ 0 := fun rs e1 e2 => hrs ⟨rs, e1, e2⟩
      obtain ⟨h1, h2, _⟩ := new_full_recycle list key D t hcap hr hfail
      rw [h1] at hok
      obtain ⟨i1, i2, i3, _, _, i6⟩ := h2 hok
      refine ⟨i3.clazz, ⟨D, by rw [i1]; exact i2⟩, Or.inr ⟨_, hok, ?_⟩⟩
      rw [i6, i1]; simp
  · cases ha : list.memory.alloc list.heap.live with
    | none =>
      rw [new_room_oom list key hcap ha] at hok
      simp [FT_TS_Err_Out_Of_Memory] at hok
    | some p =>
      obtain ⟨hp0, hpl⟩ := hm _ _ ha
      have hpL : p ∉ L := fun h => hpl (hown p h)
      obtain ⟨h1, h2, _⟩ := new_room list key L p hcap hr ha hp0 hpL
      rw [h1] at hok
      obtain ⟨i1, i2, i3, _, _, i6⟩ := h2 hok
      refine ⟨i3.clazz, ⟨L, by rw [i1]; exact i2⟩, Or.inr ⟨_, hok, ?_⟩⟩
      rw [i6, i1]; simp

/-- C30: `ftc_basic_family_init` returns `0` for every query and leaves in
the family the attributes (scaler and `load_flags`) of the query, so that with
a reflexive scaler comparison `ftc_basic_family_compare( family, query )` is
true right afterwards; and on a well-formed list of basic families, after an
`FTC_MruList_New` that succeeded for a query, `FTC_MruList_Find` with the same
query returns the node New returned. -/
theorem C30_family_init_stores_configuration
    (scalerCompare : FTC_ScalerRec → FTC_ScalerRec → Bool) (cache : Nat)
    (family : FTC_BasicFamilyRec) (query : FTC_BasicQueryRec)
    (list : FTC_MruListRec FTC_BasicFamilyRec FTC_BasicQueryRec) (L : List Ptr) (fuel : Nat)
    (hrefl : ∀ s, scalerCompare s s = true)
    (hcl : list.clazz = ftc_basic_family_class scalerCompare cache) (hwf : WF list L)
    (hown : ∀ x ∈ L, x ∈ list.heap.live) (hm : FreshMemory list.memory)
    (hok : (FTC_MruList_New list query).1 = 0) (hf : 0 < fuel) :
    (ftc_basic_family_init cache family query).1 = 0 ∧
    (ftc_basic_family_init cache family query).2.attrs = query.attrs ∧
    ftc_basic_family_compare scalerCompare (ftc_basic_family_init cache family query).2 query
      = true ∧
    ∃ list', FTC_MruList_Find fuel (FTC_MruList_New list query).2.2 query =
      some ((FTC_MruList_New list query).2.1, list') := by
  have hcmp : ∀ f : FTC_BasicFamilyRec, f.attrs = query.attrs →
      ftc_basic_family_compare scalerCompare f query = true := by
    intro f hfa
    simp [ftc_basic_family_compare, FTC_BASIC_ATTR_COMPARE, hfa, hrefl]
  refine ⟨rfl, rfl, hcmp _ rfl, ?_⟩
  obtain ⟨h1, ⟨T, h2⟩, h3⟩ := new_success_head list L query hwf hown hm hok
  have hhit : hits (FTC_MruList_New list query).2.2 query (FTC_MruList_New list query).2.1
      = true := by
    unfold hits
    rw [h1, hcl]
    rcases h3 with ⟨rs, p, e1, _⟩ | ⟨p, _, e2⟩
    · rw [hcl] at e1
      simp [ftc_basic_family_class] at e1
    · rw [hcl] at e2
      rw [e2]
      exact hcmp _ rfl
  have := find_hit (FTC_MruList_New list query).2.2 [] T (FTC_MruList_New list query).2.1 query
    fuel (by simpa using h2) (by simpa using hf) (fun x hx => by simp at hx) hhit
  exact ⟨_, this⟩

/-- C25, the failing input: the list holds node 1 with `max_nodes = 1`, its
class has a `node_done` and no `node_reset`, and `node_init` fails on the key
0.  One call of `FTC_MruList_New` for the key 0 invokes `node_done` twice on
node 1: once when the tail is unlinked, once on the `Fail` path. -/
theorem C25_done_twice_on_failed_recycle :
    WF pickyList [1] ∧ atCapacity pickyList ∧
    pickyList.trace.filter Event.isDone = [] ∧
    (FTC_MruList_New pickyList 0).1 = 7 ∧
    (FTC_MruList_New pickyList 0).2.2.trace = pickyList.trace ++
      [Event.done 1, Event.init 1 0, Event.done 1, Event.free 1] ∧
    ((FTC_MruList_New pickyList 0).2.2.trace.filter Event.isDone).count (Event.done 1) = 2 := by
  decide

/-- An instance of C21: the image lookup of the glyph index 5 with an `anode`
finds node 1 and pins it: its `ref_count` goes from 0 to 1. -/
theorem C21_witness :
    (FTC_ImageCache_Lookup sampleEnv sampleCache (some sampleType) 5 (some 0) (some 0)).map
        (fun r => (r.error, r.anode, (sampleCache.node 1).ref_count,
          (r.cache.node 1).ref_count)) = some (0, some 1, 0, 1) ∧
    ∃ r, FTC_ImageCache_Lookup sampleEnv sampleCache (some sampleType) 5 (some 0) (some 0) =
        some r ∧ Pinning sampleEnv sampleCache true r :=
  ⟨by decide, _, rfl,
    (C21_lookup_pins_found_node sampleEnv sampleCache (some sampleType) none 0 5 (some 0) none
      (some 0)).1 _ rfl⟩

/-- The claim C22 as written fails when a step fails with `Invalid_Argument`
itself: loading the glyph index 99 fails with that error, which
`ftc_basic_family_load_glyph` returns, although the glyph load did not
succeed. -/
theorem C22_counterexample :
    (sampleLoadEnv.FTC_Manager_LookupSize () zeroFamily.attrs.scaler).1 = 0 ∧
    (sampleLoadEnv.FT_TS_Load_Glyph () 2 99 (toInt zeroFamily.attrs.load_flags)).1 ≠ 0 ∧
    (ftc_basic_family_load_glyph sampleLoadEnv () zeroFamily 99 0).error =
      FT_TS_Err_Invalid_Argument ∧
    (ftc_basic_family_load_glyph sampleLoadEnv () zeroFamily 99 0).calls =
      [FTC_LoadCall.lookupSize zeroFamily.attrs.scaler, FTC_LoadCall.loadGlyph 2 99 0] := by
  decide

/-- An instance of C22 as amended: loading the glyph index 5 succeeds, the
slot holds a bitmap, and the glyph 9 is extracted. -/
theorem C22_witness :
    (ftc_basic_family_load_glyph sampleLoadEnv () zeroFamily 5 0).error = 0 ∧
    (ftc_basic_family_load_glyph sampleLoadEnv () zeroFamily 5 0).aglyph = 9 :=
  have h := (C22_load_glyph_errors sampleLoadEnv () zeroFamily 5 0 0 0 0 1 9 () () () rfl rfl
    rfl).2.2.2.1 rfl rfl (by decide)
  ⟨h.1, h.2.1⟩

/-- The claim C23 as written fails when a lookup rejects a `NULL` argument
before it has written its outputs: `FTC_ImageCache_Lookup` with a `NULL`
`aglyph` returns `Invalid_Argument` and leaves in `*anode` the 77 it held;
`FTC_ImageCache_LookupScaler` and `FTC_SBitCache_LookupScaler` with a `NULL`
scaler leave `*aglyph` and `*ansbit` as they were. -/
theorem C23_counterexample :
    (FTC_ImageCache_Lookup sampleEnv sampleCache (some sampleType) 5 none (some 77)).map
        (fun r => (r.error, r.anode)) = some (FT_TS_Err_Invalid_Argument, some 77) ∧
    FT_TS_Err_Invalid_Argument ≠ 0 ∧
    ((FTC_ImageCache_LookupScaler sampleEnv sampleCache none 0 5 (some 88) (some 77)).error,
      (FTC_ImageCache_LookupScaler sampleEnv sampleCache none 0 5 (some 88) (some 77)).out,
      (FTC_ImageCache_LookupScaler sampleEnv sampleCache none 0 5 (some 88) (some 77)).anode) =
        (FT_TS_Err_Invalid_Argument, some 88, some 77) ∧
    ((FTC_SBitCache_LookupScaler sampleEnv sampleCache none 0 5 (some (FTC_SBit.item 3 1))
        (some 77)).error,
      (FTC_SBitCache_LookupScaler sampleEnv sampleCache none 0 5 (some (FTC_SBit.item 3 1))
        (some 77)).out) = (FT_TS_Err_Invalid_Argument, some (FTC_SBit.item 3 1)) := by
  decide

/-- An instance of C23 as amended: the small bitmap lookup over a generic
lookup that fails leaves `NULL` in `*ansbit` and in `*anode`. -/
theorem C23_witness :
    (FTC_SBitCache_Lookup failingEnv sampleCache (some sampleType) 5 (some (FTC_SBit.item 3 1))
        (some 77)).map (fun r => (r.error, r.out, r.anode)) =
      some (FT_TS_Err_Out_Of_Memory, some FTC_SBit.null, some 0) ∧
    ∃ r, FTC_SBitCache_Lookup failingEnv sampleCache (some sampleType) 5
        (some (FTC_SBit.item 3 1)) (some 77) = some r ∧ r.error ≠ 0 ∧
      r.out = some FTC_SBit.null ∧ r.anode = some 0 :=
  ⟨by decide, _, rfl, by decide,
    (C23_failure_after_checks_nulls_outputs failingEnv sampleCache (some sampleType) none 0 5
      none (some (FTC_SBit.item 3 1)) (some 77)).2.2.1 _ rfl (by decide)⟩

/-- The claim C24 as written fails: the list holds node 1 with `max_nodes = 1`
and its class has no `node_reset`; New for the key 9 succeeds and returns
node 1, the former tail itself, not a new block: the events of the call are
the `node_done` and the `node_init` of node 1, nothing is allocated or
released, and node 1 is still the only block in use. -/
theorem C24_counterexample :
    WF pickyList [1] ∧ atCapacity pickyList ∧ pickyList.clazz.node_reset.isSome = false ∧
    pickyList.heap.prev pickyList.nodes = 1 ∧
    (FTC_MruList_New pickyList 9).1 = 0 ∧ (FTC_MruList_New pickyList 9).2.1 = 1 ∧
    (FTC_MruList_New pickyList 9).2.2.trace =
      pickyList.trace ++ [Event.done 1, Event.init 1 9] ∧
    pickyList.heap.live = [1] ∧ (FTC_MruList_New pickyList 9).2.2.heap.live = [1] := by
  decide

/-- An instance of C24 as amended, on the same list and key. -/
theorem C24_witness :
    WF pickyList [1] ∧ atCapacity pickyList ∧
    (FTC_MruList_New pickyList 9).1 = 0 ∧
    (FTC_MruList_New pickyList 9).2.1 = pickyList.heap.prev pickyList.nodes ∧
    (FTC_MruList_New pickyList 9).2.2.heap.live = pickyList.heap.live := by
  have h := C24_new_at_capacity_reuses_tail pickyList [1] 9 (by decide) (by decide)
    (fun rs hrs => by
      have e : pickyList.clazz.node_reset = none := rfl
      rw [e] at hrs
      cases hrs)
    (by decide)
  exact ⟨by decide, by decide, h.2.1, h.2.2.1, h.2.2.2.2.2.2.2⟩

/-- An instance of C26: on the list of nodes 2 and 1, the selection "stores
the key 20" is evaluated on node 2, then on node 1. -/
theorem C26_witness :
    WF sampleList [2, 1] ∧
    ∃ list' evs, FTC_MruList_RemoveSelection 2 sampleList (some storesKey) 20 = some list' ∧
      list'.trace = sampleList.trace ++ evs ∧
      evs.filter Event.isSelect = [Event.select 2, Event.select 1] := by
  obtain ⟨list', evs, h1, h2, h3, _⟩ :=
    C26_selection_evaluated_once_per_node sampleList [2, 1] storesKey 20 2 (by decide)
      (by decide)
  exact ⟨by decide, list', evs, h1, h2, h3⟩

/-- An instance of C27: the list reached from Init by two News, with
`max_nodes = 2`, is at capacity; its head is node 2 and its tail node 1. -/
theorem C27_witness :
    atCapacity (FTC_MruList_New pooledList 20).2.2 ∧
    (FTC_MruList_New pooledList 20).2.2.nodes ≠ 0 ∧
    (FTC_MruList_New pooledList 20).2.2.heap.prev (FTC_MruList_New pooledList 20).2.2.nodes
      ≠ 0 :=
  have h := C27_tail_selection_is_safe keyClass 2 (poolMemory 8 none) (emptyHeap none)
    (FTC_MruList_New pooledList 20).2.2 (poolMemory_fresh 8 none)
    (poolMemory_bounded 8 none (by decide))
    (Reachable.new _ 20 (Reachable.new _ 10 Reachable.init)) (by decide)
  ⟨by decide, h.1, h.2.1⟩

/-- An instance of C28: New for the key 20 on the list of node 1 succeeds and
returns the new head. -/
theorem C28_witness :
    WF pooledList [1] ∧ (FTC_MruList_New pooledList 20).1 = 0 ∧
    ((FTC_MruList_New pooledList 20).2.1 = 0 ↔ (FTC_MruList_New pooledList 20).1 ≠ 0) ∧
    (FTC_MruList_New pooledList 20).2.2.nodes = (FTC_MruList_New pooledList 20).2.1 :=
  have h := C28_new_node_null_iff_error pooledList [1] 20 (by decide) (by decide)
    (poolMemory_fresh 8 none)
  ⟨by decide, by decide, h.1, h.2 (by decide)⟩

/-- An instance of C29: a node of the family of face 7 compared with the face
7 is detached from its family, and `*list_changed` is `FALSE`. -/
theorem C29_witness :
    (ftc_basic_gnode_compare_faceid sampleUnselect sampleFamilyOf 3 7 [] (some true)).result
      = true ∧
    (ftc_basic_gnode_compare_faceid sampleUnselect sampleFamilyOf 3 7 [] (some true)).unselected
      = [3] ∧
    (ftc_basic_gnode_compare_faceid sampleUnselect sampleFamilyOf 3 7 [] (some true)).cache
      = [3] ∧
    (ftc_basic_gnode_compare_faceid sampleUnselect sampleFamilyOf 3 7 [] (some true)).list_changed
      = some false :=
  have h := C29_compare_faceid_unselects_on_match sampleUnselect sampleFamilyOf 3 7 []
    (some true)
  ⟨by decide, (h.2.1 (by decide)).1, (h.2.1 (by decide)).2, h.2.2.2⟩

/-- An instance of C30: on the list of one family of face 8, New for the
sample query (face 7) succeeds, and Find with that query returns the node New
returned. -/
theorem C30_witness :
    WF (familyList 4) [1] ∧ (FTC_MruList_New (familyList 4) sampleQuery).1 = 0 ∧
    ∃ list', FTC_MruList_Find 1 (FTC_MruList_New (familyList 4) sampleQuery).2.2 sampleQuery =
      some ((FTC_MruList_New (familyList 4) sampleQuery).2.1, list') :=
  ⟨by decide, by decide,
    (C30_family_init_stores_configuration sameScaler 0 zeroFamily sampleQuery (familyList 4) [1] 1
      (fun s => by simp [sameScaler]) rfl (by decide) (by decide)
      (poolMemory_fresh 4 zeroFamily) (by decide) (by decide)).2.2.2⟩

/-- C32: `ftc_basic_family_get_count`, the outcome of the face lookup being
`( e, face )`: it returns `0` when the lookup reports an error or yields a
null face, and otherwise `face->num_glyphs` cast to an `FT_TS_UInt`, that is
the value modulo `2 ^ 32`, which is the value itself when it is in range. -/
theorem C32_get_count_casts_num_glyphs {W : Type}
    (lookupFace : W → Nat → Nat × Ptr × W) (num_glyphs : W → Ptr → Int) (world : W)
    (family : FTC_BasicFamilyRec) (e : Nat) (face : Ptr) (w1 : W)
    (h : lookupFace world family.attrs.scaler.face_id = (e, face, w1)) :
    (e ≠ 0 ∨ face = 0 → (ftc_basic_family_get_count lookupFace num_glyphs world family).1 = 0) ∧
    (e = 0 → face ≠ 0 →
      (ftc_basic_family_get_count lookupFace num_glyphs world family).1 =
        toUInt (num_glyphs w1 face) ∧
      ((toUInt (num_glyphs w1 face) : Nat) : Int) = num_glyphs w1 face % (2 ^ 32 : Int) ∧
      (0 ≤ num_glyphs w1 face → num_glyphs w1 face < 2 ^ 32 →
        ((toUInt (num_glyphs w1 face) : Nat) : Int) = num_glyphs w1 face)) := by
  have hs : (UINT_SIZE : Int) = 2 ^ 32 := by
    norm_num [UINT_SIZE, UINT_MAX]
  have hmod : ∀ x : Int, ((toUInt x : Nat) : Int) = x % (2 ^ 32 : Int) := by
    intro x
    unfold toUInt
    rw [hs]
    exact Int.toNat_of_nonneg (Int.emod_nonneg _ (by norm_num))
  unfold ftc_basic_family_get_count
  simp only [h]
  refine ⟨fun hc => ?_, fun he hf => ⟨?_, hmod _, fun h0 h1 => ?_⟩⟩
  · rw [if_pos hc]
  · rw [if_neg (by simp [he, hf])]
  · rw [hmod, Int.emod_eq_of_lt h0 h1]

/-- The end of the small bitmap lookups, on success, leaves in `*ansbit` the
address of the element `gindex - node->gindex` of the node found. -/
theorem sbitLookup_out {R : Type} (env : FTC_BasicEnv R) (cache : FTC_GCacheRec R)
    (attrs : FTC_BasicAttrRec) (gindex : Nat) (anode : Option Ptr)
    (he : (sbitLookup env cache attrs gindex anode).error = 0) :
    ∃ c, (sbitLookup env cache attrs gindex anode).calls = [c] ∧ c.gindex = gindex ∧
      c.attrs = attrs ∧ (env.use cache c).1 = 0 ∧
      (sbitLookup env cache attrs gindex anode).out =
        some (FTC_SBit.item (env.use cache c).2.1
          (subU gindex ((env.use cache c).2.2.node (env.use cache c).2.1).gindex)) := by
  obtain ⟨c, hc⟩ : ∃ c : FTC_GCacheCall, c =
      { nodecmp := FTC_NodeCompare.FTC_SNode_Compare
        hash := (FTC_BASIC_ATTR_HASH env attrs + gindex / env.FTC_SBIT_ITEMS_PER_NODE) %
          env.offset_size
        gindex := gindex, attrs := attrs } := ⟨_, rfl⟩
  have hu : env.use cache c = env.FTC_GCACHE_LOOKUP_CMP cache
      (ftc_basic_family_compare env.FTC_SCALER_COMPARE) FTC_NodeCompare.FTC_SNode_Compare
      ((FTC_BASIC_ATTR_HASH env attrs + gindex / env.FTC_SBIT_ITEMS_PER_NODE) %
        env.offset_size) gindex attrs := by
    rw [hc]; rfl
  refine ⟨c, ?_⟩
  rw [hu]
  unfold sbitLookup at he ⊢
  by_cases h : (env.FTC_GCACHE_LOOKUP_CMP cache
      (ftc_basic_family_compare env.FTC_SCALER_COMPARE) FTC_NodeCompare.FTC_SNode_Compare
      ((FTC_BASIC_ATTR_HASH env attrs + gindex / env.FTC_SBIT_ITEMS_PER_NODE) %
        env.offset_size) gindex attrs).1 = 0
  · cases anode <;> simp [h, hc]
  · simp [h] at he

/-- The offset `gindex - node->gindex` of a glyph index in the range of a
node does not wrap. -/
theorem subU_in_range (g g0 : Nat) (h : g0 ≤ g) : subU g g0 = g - g0 := by
  unfold subU
  rw [if_pos h]

/-- C33: when `FTC_SBitCache_Lookup` or `FTC_SBitCache_LookupScaler`
succeeds, it has used `FTC_GCACHE_LOOKUP_CMP` once, with `gindex`, and
`*ansbit` is the address of the element of the array `sbits` of the node found
at the offset `gindex - node->gindex`; for a glyph index in the range of the
node, `node->gindex <= gindex < node->gindex + ITEMS_PER_NODE`, the offset is
below `ITEMS_PER_NODE`; and two different glyph indices in the range of one
node give two different elements of that node. -/
theorem C33_sbit_lookup_returns_sub_element {R : Type} (env : FTC_BasicEnv R)
    (cache : FTC_GCacheRec R) (type : FTC_ImageTypeRec) (scaler : FTC_ScalerRec)
    (load_flags gindex : Nat) (ansbit : FTC_SBit) (anode : Option Ptr) :
    (∀ r, FTC_SBitCache_Lookup env cache (some type) gindex (some ansbit) anode = some r →
      r.error = 0 →
      ∃ c, r.calls = [c] ∧ c.gindex = gindex ∧ (env.use cache c).1 = 0 ∧
        r.out = some (FTC_SBit.item (env.use cache c).2.1
          (subU gindex ((env.use cache c).2.2.node (env.use cache c).2.1).gindex))) ∧
    ((FTC_SBitCache_LookupScaler env cache (some scaler) load_flags gindex (some ansbit)
        anode).error = 0 →
      ∃ c, (FTC_SBitCache_LookupScaler env cache (some scaler) load_flags gindex (some ansbit)
          anode).calls = [c] ∧ c.gindex = gindex ∧ (env.use cache c).1 = 0 ∧
        (FTC_SBitCache_LookupScaler env cache (some scaler) load_flags gindex (some ansbit)
          anode).out = some (FTC_SBit.item (env.use cache c).2.1
            (subU gindex ((env.use cache c).2.2.node (env.use cache c).2.1).gindex))) ∧
    (∀ g0 g, g0 ≤ g → g < g0 + env.FTC_SBIT_ITEMS_PER_NODE →
      subU g g0 = g - g0 ∧ subU g g0 < env.FTC_SBIT_ITEMS_PER_NODE) ∧
    (∀ (n : Ptr) (g0 g1 g2 : Nat), g0 ≤ g1 → g0 ≤ g2 → g1 ≠ g2 →
      FTC_SBit.item n (subU g1 g0) ≠ FTC_SBit.item n (subU g2 g0)) := by
  refine ⟨fun r hr he => ?_, fun he => ?_, fun g0 g h1 h2 => ?_, fun n g0 g1 g2 h1 h2 hne => ?_⟩
  · unfold FTC_SBitCache_Lookup at hr
    simp only [Option.some.injEq] at hr
    subst hr
    obtain ⟨c, hc1, hc2, _, hc4, hc5⟩ := sbitLookup_out env cache _ gindex _ he
    exact ⟨c, hc1, hc2, hc4, hc5⟩
  · unfold FTC_SBitCache_LookupScaler at he ⊢
    obtain ⟨c, hc1, hc2, _, hc4, hc5⟩ := sbitLookup_out env cache _ gindex _ he
    exact ⟨c, hc1, hc2, hc4, hc5⟩
  · rw [subU_in_range g g0 h1]
    exact ⟨rfl, by omega⟩
  · rw [subU_in_range g1 g0 h1, subU_in_range g2 g0 h2]
    intro h
    injection h with _ h'
    omega

/-- The cast to `FT_TS_UInt` of a value first cast to a wider unsigned type
is the cast of the value. -/
theorem toUInt_of_wider (x : Int) (U : Nat) (hU : UINT_SIZE ∣ U) (hpos : 0 < U) :
    (x % (U : Int)).toNat % UINT_SIZE = toUInt x := by
  have hS : (0 : Int) < (UINT_SIZE : Int) := by
    norm_num [UINT_SIZE, UINT_MAX]
  have h1 : (0 : Int) ≤ x % (U : Int) := Int.emod_nonneg _ (by exact_mod_cast hpos.ne')
  have h2 : (((x % (U : Int)).toNat % UINT_SIZE : Nat) : Int) = x % (UINT_SIZE : Int) := by
    rw [Int.natCast_mod, Int.toNat_of_nonneg h1]
    exact Int.emod_emod_of_dvd x (by exact_mod_cast hU)
  unfold toUInt
  rw [← h2, Int.toNat_natCast]

/-- C34: the type-based and the scaler-based lookups agree.  For an image
type `t` and an `FT_TS_ULong` `load_flags` with the low 32 bits of `t->flags`
(as the cast of `t->flags` to `FT_TS_ULong` has, whatever the width `U` of
that type), `FTC_ImageCache_Lookup` with `t` builds the query attributes of
`FTC_ImageCache_LookupScaler` with the scaler `( t->face_id, t->width,
t->height, pixel = 1, x_res = 0, y_res = 0 )` and `load_flags`, hence the same
hash, and the two calls have the same outcome (error, outputs, cache, use of
`FTC_GCACHE_LOOKUP_CMP`); likewise `FTC_SBitCache_Lookup` and
`FTC_SBitCache_LookupScaler`. -/
theorem C34_type_and_scaler_lookups_agree {R : Type} (env : FTC_BasicEnv R)
    (cache : FTC_GCacheRec R) (t : FTC_ImageTypeRec) (load_flags gindex : Nat)
    (aglyph : Option Ptr) (ansbit : Option FTC_SBit) (anode : Option Ptr)
    (hflags : load_flags % UINT_SIZE = toUInt t.flags) :
    typeAttrs t = scalerAttrs (typeScaler t) load_flags ∧
    FTC_BASIC_ATTR_HASH env (typeAttrs t) =
      FTC_BASIC_ATTR_HASH env (scalerAttrs (typeScaler t) load_flags) ∧
    FTC_ImageCache_Lookup env cache (some t) gindex aglyph anode =
      some (FTC_ImageCache_LookupScaler env cache (some (typeScaler t)) load_flags gindex
        aglyph anode) ∧
    FTC_SBitCache_Lookup env cache (some t) gindex ansbit anode =
      some (FTC_SBitCache_LookupScaler env cache (some (typeScaler t)) load_flags gindex
        ansbit anode) ∧
    (∀ U : Nat, UINT_SIZE ∣ U → 0 < U → (t.flags % (U : Int)).toNat % UINT_SIZE = toUInt t.flags) := by
  have ha : typeAttrs t = scalerAttrs (typeScaler t) load_flags := by
    simp [typeAttrs, scalerAttrs, typeScaler, hflags]
  refine ⟨ha, by rw [ha], ?_, ?_, fun U hU hpos => toUInt_of_wider _ U hU hpos⟩
  · unfold FTC_ImageCache_Lookup FTC_ImageCache_LookupScaler
    cases aglyph with
    | none => rfl
    | some a => simp only [ha]
  · unfold FTC_SBitCache_Lookup FTC_SBitCache_LookupScaler
    cases ansbit with
    | none => rfl
    | some a => simp only [ha]

/-- The end of the image lookups uses `FTC_GCACHE_LOOKUP_CMP` once, with the
attributes it was given and the hash of these attributes plus the glyph
index, and returns its error; on success `*aglyph` is the glyph of the node
found. -/
theorem imageLookup_call {R : Type} (env : FTC_BasicEnv R) (cache : FTC_GCacheRec R)
    (attrs : FTC_BasicAttrRec) (gindex : Nat) (anode : Option Ptr) (c : FTC_GCacheCall)
    (hc : c = { nodecmp := FTC_NodeCompare.FTC_GNode_Compare
                hash := (FTC_BASIC_ATTR_HASH env attrs + gindex) % env.offset_size
                gindex := gindex, attrs := attrs }) :
    (imageLookup env cache attrs gindex anode).calls = [c] ∧
    (imageLookup env cache attrs gindex anode).error = (env.use cache c).1 ∧
    ((env.use cache c).1 = 0 →
      (imageLookup env cache attrs gindex anode).out =
        some ((env.use cache c).2.2.node (env.use cache c).2.1).glyph ∧
      (imageLookup env cache attrs gindex anode).anode =
        anode.map (fun _ => (env.use cache c).2.1)) := by
  have hu : env.use cache c = env.FTC_GCACHE_LOOKUP_CMP cache
      (ftc_basic_family_compare env.FTC_SCALER_COMPARE) FTC_NodeCompare.FTC_GNode_Compare
      ((FTC_BASIC_ATTR_HASH env attrs + gindex) % env.offset_size) gindex attrs := by
    rw [hc]; rfl
  rw [hu, hc]
  unfold imageLookup
  by_cases h : (env.FTC_GCACHE_LOOKUP_CMP cache
      (ftc_basic_family_compare env.FTC_SCALER_COMPARE) FTC_NodeCompare.FTC_GNode_Compare
      ((FTC_BASIC_ATTR_HASH env attrs + gindex) % env.offset_size) gindex attrs).1 = 0
  · cases anode <;> simp [h]
  · simp [h]

/-- The end of the small bitmap lookups uses `FTC_GCACHE_LOOKUP_CMP` once,
with the attributes it was given and the hash of these attributes plus the
batch number of the glyph index, and returns its error; on success `*ansbit`
is the address of the element `gindex - node->gindex` of the node found. -/
theorem sbitLookup_call {R : Type} (env : FTC_BasicEnv R) (cache : FTC_GCacheRec R)
    (attrs : FTC_BasicAttrRec) (gindex : Nat) (anode : Option Ptr) (c : FTC_GCacheCall)
    (hc : c = { nodecmp := FTC_NodeCompare.FTC_SNode_Compare
                hash := (FTC_BASIC_ATTR_HASH env attrs + gindex / env.FTC_SBIT_ITEMS_PER_NODE) %
                  env.offset_size
                gindex := gindex, attrs := attrs }) :
    (sbitLookup env cache attrs gindex anode).calls = [c] ∧
    (sbitLookup env cache attrs gindex anode).error = (env.use cache c).1 ∧
    ((env.use cache c).1 = 0 →
      (sbitLookup env cache attrs gindex anode).out =
        some (FTC_SBit.item (env.use cache c).2.1
          (subU gindex ((env.use cache c).2.2.node (env.use cache c).2.1).gindex)) ∧
      (sbitLookup env cache attrs gindex anode).anode =
        anode.map (fun _ => (env.use cache c).2.1)) := by
  have hu : env.use cache c = env.FTC_GCACHE_LOOKUP_CMP cache
      (ftc_basic_family_compare env.FTC_SCALER_COMPARE) FTC_NodeCompare.FTC_SNode_Compare
      ((FTC_BASIC_ATTR_HASH env attrs + gindex / env.FTC_SBIT_ITEMS_PER_NODE) %
        env.offset_size) gindex attrs := by
    rw [hc]; rfl
  rw [hu, hc]
  unfold sbitLookup
  by_cases h : (env.FTC_GCACHE_LOOKUP_CMP cache
      (ftc_basic_family_compare env.FTC_SCALER_COMPARE) FTC_NodeCompare.FTC_SNode_Compare
      ((FTC_BASIC_ATTR_HASH env attrs + gindex / env.FTC_SBIT_ITEMS_PER_NODE) %
        env.offset_size) gindex attrs).1 = 0
  · cases anode <;> simp [h]
  · simp [h]

/-- C35: `FTC_ImageCache_LookupScaler` and `FTC_SBitCache_LookupScaler`, called
with a scaler and an output pointer that are not `NULL`, hand
`FTC_GCACHE_LOOKUP_CMP` a query whose attributes are the scaler and the
`FT_TS_ULong` argument `load_flags` modulo `2 ^ 32`, the number of values of
an `FT_TS_UInt`, with the hash of these attributes plus the glyph index (the
batch number of the glyph index, for the small bitmaps), and return the error
of that lookup and, on success, the glyph or small bitmap of the node it
found, which is also left in `*anode`.  So two calls with the same scaler and
glyph index whose `load_flags` are congruent modulo `2 ^ 32` build the same
query attributes and the same hash, use `FTC_GCACHE_LOOKUP_CMP` alike and have
the same outcome: they are served by the same family and node. -/
theorem C35_high_load_flag_bits_dropped {R : Type} (env : FTC_BasicEnv R)
    (cache : FTC_GCacheRec R) (scaler : Option FTC_ScalerRec) (s : FTC_ScalerRec)
    (lf1 lf2 gindex : Nat) (y : Ptr) (b : FTC_SBit) (aglyph : Option Ptr)
    (ansbit : Option FTC_SBit) (anode : Option Ptr) (ci cs : FTC_GCacheCall)
    (hc : lf1 % 2 ^ 32 = lf2 % 2 ^ 32)
    (hci : ci = { nodecmp := FTC_NodeCompare.FTC_GNode_Compare
                  hash := (FTC_BASIC_ATTR_HASH env { scaler := s, load_flags := lf1 % 2 ^ 32 } +
                    gindex) % env.offset_size
                  gindex := gindex
                  attrs := { scaler := s, load_flags := lf1 % 2 ^ 32 } })
    (hcs : cs = { nodecmp := FTC_NodeCompare.FTC_SNode_Compare
                  hash := (FTC_BASIC_ATTR_HASH env { scaler := s, load_flags := lf1 % 2 ^ 32 } +
                    gindex / env.FTC_SBIT_ITEMS_PER_NODE) % env.offset_size
                  gindex := gindex
                  attrs := { scaler := s, load_flags := lf1 % 2 ^ 32 } }) :
    ((FTC_ImageCache_LookupScaler env cache (some s) lf1 gindex (some y) anode).calls = [ci] ∧
      (FTC_ImageCache_LookupScaler env cache (some s) lf2 gindex (some y) anode).calls = [ci] ∧
      (FTC_ImageCache_LookupScaler env cache (some s) lf1 gindex (some y) anode).error =
        (env.use cache ci).1 ∧
      ((env.use cache ci).1 = 0 →
        (FTC_ImageCache_LookupScaler env cache (some s) lf1 gindex (some y) anode).out =
          some ((env.use cache ci).2.2.node (env.use cache ci).2.1).glyph ∧
        (FTC_ImageCache_LookupScaler env cache (some s) lf1 gindex (some y) anode).anode =
          anode.map (fun _ => (env.use cache ci).2.1))) ∧
    ((FTC_SBitCache_LookupScaler env cache (some s) lf1 gindex (some b) anode).calls = [cs] ∧
      (FTC_SBitCache_LookupScaler env cache (some s) lf2 gindex (some b) anode).calls = [cs] ∧
      (FTC_SBitCache_LookupScaler env cache (some s) lf1 gindex (some b) anode).error =
        (env.use cache cs).1 ∧
      ((env.use cache cs).1 = 0 →
        (FTC_SBitCache_LookupScaler env cache (some s) lf1 gindex (some b) anode).out =
          some (FTC_SBit.item (env.use cache cs).2.1
            (subU gindex ((env.use cache cs).2.2.node (env.use cache cs).2.1).gindex)) ∧
        (FTC_SBitCache_LookupScaler env cache (some s) lf1 gindex (some b) anode).anode =
          anode.map (fun _ => (env.use cache cs).2.1))) ∧
    (scalerAttrs s lf1).load_flags = lf1 % 2 ^ 32 ∧
    scalerAttrs s lf1 = scalerAttrs s lf2 ∧
    FTC_BASIC_ATTR_HASH env (scalerAttrs s lf1) = FTC_BASIC_ATTR_HASH env (scalerAttrs s lf2) ∧
    FTC_ImageCache_LookupScaler env cache scaler lf1 gindex aglyph anode =
      FTC_ImageCache_LookupScaler env cache scaler lf2 gindex aglyph anode ∧
    FTC_SBitCache_LookupScaler env cache scaler lf1 gindex ansbit anode =
      FTC_SBitCache_LookupScaler env cache scaler lf2 gindex ansbit anode := by
  have hs : UINT_SIZE = 2 ^ 32 := by decide
  have ha : ∀ s', scalerAttrs s' lf1 = scalerAttrs s' lf2 := by
    intro s'
    simp only [scalerAttrs, hs, hc]
  have hattrs : scalerAttrs s lf1 = { scaler := s, load_flags := lf1 % 2 ^ 32 } := by
    simp only [scalerAttrs, hs]
  have hmap : ∀ n : Ptr, (anode.map (fun _ => (0 : Ptr))).map (fun _ => n) =
      anode.map (fun _ => n) := by
    intro n; cases anode <;> rfl
  have hi := imageLookup_call env cache (scalerAttrs s lf1) gindex (anode.map (fun _ => 0)) ci
    (by rw [hci, hattrs])
  have hsb := sbitLookup_call env cache (scalerAttrs s lf1) gindex (anode.map (fun _ => 0)) cs
    (by rw [hcs, hattrs])
  have ei1 : FTC_ImageCache_LookupScaler env cache (some s) lf1 gindex (some y) anode =
      imageLookup env cache (scalerAttrs s lf1) gindex (anode.map (fun _ => 0)) := rfl
  have ei2 : FTC_ImageCache_LookupScaler env cache (some s) lf2 gindex (some y) anode =
      imageLookup env cache (scalerAttrs s lf1) gindex (anode.map (fun _ => 0)) := by
    rw [ha s]; rfl
  have es1 : FTC_SBitCache_LookupScaler env cache (some s) lf1 gindex (some b) anode =
      sbitLookup env cache (scalerAttrs s lf1) gindex (anode.map (fun _ => 0)) := rfl
  have es2 : FTC_SBitCache_LookupScaler env cache (some s) lf2 gindex (some b) anode =
      sbitLookup env cache (scalerAttrs s lf1) gindex (anode.map (fun _ => 0)) := by
    rw [ha s]; rfl
  refine ⟨?_, ?_, by simp only [scalerAttrs, hs], ha s, by rw [ha s], ?_, ?_⟩
  · rw [ei1, ei2]
    refine ⟨hi.1, hi.1, hi.2.1, fun h0 => ?_⟩
    obtain ⟨h1, h2⟩ := hi.2.2 h0
    exact ⟨h1, by rw [h2, hmap]⟩
  · rw [es1, es2]
    refine ⟨hsb.1, hsb.1, hsb.2.1, fun h0 => ?_⟩
    obtain ⟨h1, h2⟩ := hsb.2.2 h0
    exact ⟨h1, by rw [h2, hmap]⟩
  · unfold FTC_ImageCache_LookupScaler
    cases aglyph <;> cases scaler <;> simp only [ha]
  · unfold FTC_SBitCache_LookupScaler
    cases ansbit <;> cases scaler <;> simp only [ha]

theorem addU_small (a b : Nat) (h : a + b ≤ UINT_MAX) : addU a b = a + b := by
  unfold addU
  rw [if_pos h]

/-- The comparison is `0` exactly when the range of the record holds the
glyph index. -/
theorem compare_zero_iff (doc : Svg_doc) (g : Nat) :
    compare_svg_doc doc g = 0 ↔ doc.holds g := by
  unfold compare_svg_doc Svg_doc.holds
  split_ifs with h1 h2
  · simp; omega
  · simp; omega
  · simp; omega

theorem compare_neg_iff (doc : Svg_doc) (g : Nat) :
    compare_svg_doc doc g = -1 ↔ g < doc.start_glyph_id := by
  unfold compare_svg_doc
  split_ifs with h1 h2 <;> simp [h1]

theorem compare_pos_iff (doc : Svg_doc) (g : Nat) :
    compare_svg_doc doc g = 1 ↔ ¬ g < doc.start_glyph_id ∧ doc.end_glyph_id < g := by
  unfold compare_svg_doc
  split_ifs with h1 h2 <;> simp [h1]
  · exact h2
  · omega

/-- The loop of `find_doc` on a list of `n` records, entered with both
bounds below `n` and fuel for the interval, the first record not being above
the glyph index and the last not being below it: the loop returns, and all
its events are in bounds. -/
theorem findLoop_safe (stream : List Nat) (g n : Nat) (hn : n ≤ 65535)
    (h0 : compare_svg_doc (docAt stream 0) g ≠ -1)
    (hl : compare_svg_doc (docAt stream (n - 1)) g ≠ 1) :
    ∀ (fuel s e : Nat) (tr : List FindEvent), s < n → e < n → e + 1 - s ≤ fuel →
      ∃ r tr', findLoop stream g fuel s e tr = some (r, tr ++ tr') ∧
        (∀ ev ∈ tr', FindEvent.inBounds n ev) ∧
        (∀ d, r = some d → ∃ j, j < n ∧ d = docAt stream j ∧ compare_svg_doc d g = 0)
  | 0, s, e, tr, _, _, hf => by
    have hse : ¬ s ≤ e := by omega
    refine ⟨none, [], by simp [findLoop, hse], by simp, by simp⟩
  | fuel + 1, s, e, tr, hs, he, hf => by
    by_cases hse : s ≤ e
    · have hadd : addU s e = s + e := addU_small s e (by unfold UINT_MAX; omega)
      obtain ⟨i, hi⟩ : ∃ i, i = (s + e) / 2 := ⟨_, rfl⟩
      have hi1 : s ≤ i := by omega
      have hi2 : i ≤ e := by omega
      have hdoc : extract_svg_doc stream (i * 12) = docAt stream i := rfl
      simp only [findLoop, if_pos hse, hadd, ← hi, hdoc]
      by_cases c1 : compare_svg_doc (docAt stream i) g = 1
      · have hin : i ≠ n - 1 := fun h => hl (h ▸ c1)
        have hinc : incU i = i + 1 := incU_lt i (by unfold UINT_MAX; omega)
        rw [if_pos c1, hinc]
        obtain ⟨r, tr', h1, h2, h3⟩ := findLoop_safe stream g n hn h0 hl fuel (i + 1) e
          (tr ++ [FindEvent.probe i, FindEvent.read (i * 12)] ++
            [FindEvent.read ((i + 1) * 4)]) (by omega) he (by omega)
        refine ⟨r, [FindEvent.probe i, FindEvent.read (i * 12),
          FindEvent.read ((i + 1) * 4)] ++ tr', by rw [h1]; simp, ?_, h3⟩
        intro ev hev
        simp only [List.mem_append, List.mem_cons, List.mem_singleton, List.not_mem_nil,
          or_false] at hev
        rcases hev with (rfl | rfl | rfl) | hev
        · show i < n
          omega
        · show i * 12 + 12 ≤ n * 12
          omega
        · show (i + 1) * 4 + 12 ≤ n * 12
          omega
        · exact h2 ev hev
      · rw [if_neg c1]
        by_cases c2 : compare_svg_doc (docAt stream i) g = -1
        · have hin : i ≠ 0 := fun h => h0 (h ▸ c2)
          have hdec : decU i = i - 1 := decU_pos i (by omega)
          rw [if_pos c2, hdec]
          obtain ⟨r, tr', h1, h2, h3⟩ := findLoop_safe stream g n hn h0 hl fuel s (i - 1)
            (tr ++ [FindEvent.probe i, FindEvent.read (i * 12)] ++
              [FindEvent.lower i, FindEvent.read ((i - 1) * 4)]) hs (by omega) (by omega)
          refine ⟨r, [FindEvent.probe i, FindEvent.read (i * 12), FindEvent.lower i,
            FindEvent.read ((i - 1) * 4)] ++ tr', by rw [h1]; simp, ?_, h3⟩
          intro ev hev
          simp only [List.mem_append, List.mem_cons, List.mem_singleton, List.not_mem_nil,
            or_false] at hev
          rcases hev with (rfl | rfl | rfl | rfl) | hev
          · show i < n
            omega
          · show i * 12 + 12 ≤ n * 12
            omega
          · show 0 < i
            omega
          · show (i - 1) * 4 + 12 ≤ n * 12
            omega
          · exact h2 ev hev
        · rw [if_neg c2]
          refine ⟨some (docAt stream i), [FindEvent.probe i, FindEvent.read (i * 12)],
            by simp, ?_, ?_⟩
          · intro ev hev
            simp only [List.mem_cons, List.mem_singleton, List.not_mem_nil, or_false] at hev
            rcases hev with rfl | rfl
            · show i < n
              omega
            · show i * 12 + 12 ≤ n * 12
              omega
          · intro d hd
            simp only [Option.some.injEq] at hd
            subst hd
            refine ⟨i, by omega, rfl, ?_⟩
            unfold compare_svg_doc at c1 c2 ⊢
            split_ifs at c1 c2 ⊢ <;> simp_all
    · refine ⟨none, [], by simp [findLoop, hse], by simp, by simp⟩

/-- The loop of `find_doc` on a list of records with non-empty, ascending,
disjoint ranges, entered with bounds that enclose every record holding the
glyph index: if the loop ends without a record, no record holds the glyph
index. -/
theorem findLoop_search (stream : List Nat) (g n : Nat) (hn : n ≤ 65535)
    (h0 : compare_svg_doc (docAt stream 0) g ≠ -1)
    (hl : compare_svg_doc (docAt stream (n - 1)) g ≠ 1)
    (hne : ∀ j, j < n → (docAt stream j).start_glyph_id ≤ (docAt stream j).end_glyph_id)
    (hsorted : ∀ i j, i < j → j < n →
      (docAt stream i).end_glyph_id < (docAt stream j).start_glyph_id) :
    ∀ (fuel s e : Nat) (tr tr' : List FindEvent), s < n → e < n →
      (∀ j, j < n → (docAt stream j).holds g → s ≤ j ∧ j ≤ e) →
      findLoop stream g fuel s e tr = some (none, tr') →
      ∀ j, j < n → ¬ (docAt stream j).holds g
  | 0, s, e, tr, tr', _, _, hinv, hres => by
    intro j hj hh
    by_cases hse : s ≤ e
    · simp [findLoop, hse] at hres
    · have := hinv j hj hh
      omega
  | fuel + 1, s, e, tr, tr', hs, he, hinv, hres => by
    by_cases hse : s ≤ e
    · have hadd : addU s e = s + e := addU_small s e (by unfold UINT_MAX; omega)
      obtain ⟨i, hi⟩ : ∃ i, i = (s + e) / 2 := ⟨_, rfl⟩
      have hi1 : s ≤ i := by omega
      have hi2 : i ≤ e := by omega
      have hdoc : extract_svg_doc stream (i * 12) = docAt stream i := rfl
      simp only [findLoop, if_pos hse, hadd, ← hi, hdoc] at hres
      by_cases c1 : compare_svg_doc (docAt stream i) g = 1
      · have hin : i ≠ n - 1 := fun h => hl (h ▸ c1)
        have hinc : incU i = i + 1 := incU_lt i (by unfold UINT_MAX; omega)
        rw [if_pos c1, hinc] at hres
        have hgi := (compare_pos_iff _ _).mp c1
        refine findLoop_search stream g n hn h0 hl hne hsorted fuel (i + 1) e _ tr'
          (by omega) he (fun j hj hh => ?_) hres
        obtain ⟨hj1, hj2⟩ := hinv j hj hh
        refine ⟨?_, hj2⟩
        by_contra hlt
        have hji : j ≤ i := by omega
        have hend : (docAt stream j).end_glyph_id ≤ (docAt stream i).end_glyph_id := by
          rcases Nat.lt_or_eq_of_le hji with h | h
          · have := hsorted j i h (by omega)
            have := hne i (by omega)
            omega
          · rw [h]
        unfold Svg_doc.holds at hh
        omega
      · rw [if_neg c1] at hres
        by_cases c2 : compare_svg_doc (docAt stream i) g = -1
        · have hin : i ≠ 0 := fun h => h0 (h ▸ c2)
          have hdec : decU i = i - 1 := decU_pos i (by omega)
          rw [if_pos c2, hdec] at hres
          have hgi := (compare_neg_iff _ _).mp c2
          refine findLoop_search stream g n hn h0 hl hne hsorted fuel s (i - 1) _ tr'
            hs (by omega) (fun j hj hh => ?_) hres
          obtain ⟨hj1, hj2⟩ := hinv j hj hh
          refine ⟨hj1, ?_⟩
          by_contra hlt
          have hji : i ≤ j := by omega
          have hstart : (docAt stream i).start_glyph_id ≤ (docAt stream j).start_glyph_id := by
            rcases Nat.lt_or_eq_of_le hji with h | h
            · have := hsorted i j h hj
              have := hne i (by omega)
              omega
            · rw [h]
          unfold Svg_doc.holds at hh
          omega
        · rw [if_neg c2] at hres
          simp at hres
    · intro j hj hh
      have := hinv j hj hh
      omega

/-- Two records of a list with ascending, disjoint ranges that
hold the same glyph index are the same record. -/
theorem holds_unique (stream : List Nat) (g n : Nat)
    (hsorted : ∀ i j, i < j → j < n →
      (docAt stream i).end_glyph_id < (docAt stream j).start_glyph_id)
    (i j : Nat) (hi : i < n) (hj : j < n) (h1 : (docAt stream i).holds g)
    (h2 : (docAt stream j).holds g) : i = j := by
  unfold Svg_doc.holds at h1 h2
  rcases Nat.lt_trichotomy i j with h | h | h
  · have := hsorted i j h hj
    omega
  · exact h
  · have := hsorted j i h hi
    omega

/-- C37: `find_doc` on a document list of `num_entries >= 1` records of any
content (`num_entries` being an `FT_TS_UShort`) returns, given fuel for the
entries, and every event of the call is in bounds: every read of a record,
those at the byte offsets `start_index * 4` and `end_index * 4` included,
lies within the `num_entries * 12` bytes of the list, every probed index is
below `num_entries`, and `end_index = i - 1` is never computed with
`i = 0`. -/
theorem C37_find_doc_stays_in_bounds (stream : List Nat) (num_entries glyph_index fuel : Nat)
    (h1 : 1 ≤ num_entries) (h16 : num_entries ≤ 65535) (hf : num_entries ≤ fuel) :
    ∃ r, find_doc stream num_entries glyph_index fuel = some r ∧
      ∀ ev ∈ r.trace, FindEvent.inBounds num_entries ev := by
  have hn0 : num_entries ≠ 0 := by omega
  have hdec : decU num_entries = num_entries - 1 := decU_pos _ (by omega)
  have hd0 : extract_svg_doc stream (0 * 12) = docAt stream 0 := rfl
  have hdl : extract_svg_doc stream ((num_entries - 1) * 12) =
      docAt stream (num_entries - 1) := rfl
  have hpre : ∀ ev ∈ [FindEvent.read (0 * 12), FindEvent.read ((num_entries - 1) * 12)],
      FindEvent.inBounds num_entries ev := by
    intro ev hev
    simp only [List.mem_cons, List.mem_singleton, List.not_mem_nil, or_false] at hev
    rcases hev with rfl | rfl
    · show 0 * 12 + 12 ≤ num_entries * 12
      omega
    · show (num_entries - 1) * 12 + 12 ≤ num_entries * 12
      omega
  unfold find_doc
  simp only [if_neg hn0, hdec, hd0, hdl]
  by_cases hc : compare_svg_doc (docAt stream 0) glyph_index = -1 ∨
      compare_svg_doc (docAt stream (num_entries - 1)) glyph_index = 1
  · rw [if_pos hc]
    exact ⟨_, rfl, hpre⟩
  · rw [if_neg hc]
    push_neg at hc
    obtain ⟨r, tr', e1, e2, _⟩ := findLoop_safe stream glyph_index num_entries h16 hc.1 hc.2
      fuel 0 (num_entries - 1)
      [FindEvent.read (0 * 12), FindEvent.read ((num_entries - 1) * 12)]
      (by omega) (by omega) (by omega)
    rw [e1]
    have hall : ∀ ev ∈ [FindEvent.read (0 * 12), FindEvent.read ((num_entries - 1) * 12)] ++ tr',
        FindEvent.inBounds num_entries ev := by
      intro ev hev
      rcases List.mem_append.mp hev with h | h
      · exact hpre ev h
      · exact e2 ev h
    cases r with
    | none => exact ⟨_, rfl, hall⟩
    | some d => exact ⟨_, rfl, hall⟩

/-- C38: `find_doc` returns `Invalid_Table` for an empty document list; on a
list of `num_entries >= 1` records (`num_entries` being an `FT_TS_UShort`) with
non-empty, ascending, pairwise disjoint glyph ranges it returns, given fuel
for the entries: success with the offset, length, start and end glyph of the
record whose range holds the glyph index, which is unique, when there is one,
and `Invalid_Glyph_Index` without writing anything when there is none. -/
theorem C38_find_doc_range_search (stream : List Nat) (num_entries glyph_index fuel : Nat)
    (h16 : num_entries ≤ 65535) (hf : num_entries ≤ fuel)
    (hne : ∀ j, j < num_entries →
      (docAt stream j).start_glyph_id ≤ (docAt stream j).end_glyph_id)
    (hsorted : ∀ i j, i < j → j < num_entries →
      (docAt stream i).end_glyph_id < (docAt stream j).start_glyph_id) :
    (num_entries = 0 →
      (find_doc stream num_entries glyph_index fuel).map (fun r => (r.error, r.doc)) =
        some (FT_TS_Err_Invalid_Table, none)) ∧
    (1 ≤ num_entries →
      ∃ r, find_doc stream num_entries glyph_index fuel = some r ∧
        (∀ j, j < num_entries → (docAt stream j).holds glyph_index →
          r.error = 0 ∧ r.doc = some (docAt stream j) ∧
          ∀ k, k < num_entries → (docAt stream k).holds glyph_index → k = j) ∧
        ((∀ j, j < num_entries → ¬ (docAt stream j).holds glyph_index) →
          r.error = FT_TS_Err_Invalid_Glyph_Index ∧ r.doc = none)) := by
  constructor
  · intro h
    subst h
    rfl
  · intro h1
    have hn0 : num_entries ≠ 0 := by omega
    have hdec : decU num_entries = num_entries - 1 := decU_pos _ (by omega)
    have hd0 : extract_svg_doc stream (0 * 12) = docAt stream 0 := rfl
    have hdl : extract_svg_doc stream ((num_entries - 1) * 12) =
        docAt stream (num_entries - 1) := rfl
    have huniq := holds_unique stream glyph_index num_entries hsorted
    unfold find_doc
    simp only [if_neg hn0, hdec, hd0, hdl]
    by_cases hc : compare_svg_doc (docAt stream 0) glyph_index = -1 ∨
        compare_svg_doc (docAt stream (num_entries - 1)) glyph_index = 1
    · rw [if_pos hc]
      have hnone : ∀ j, j < num_entries → ¬ (docAt stream j).holds glyph_index := by
        intro j hj hh
        unfold Svg_doc.holds at hh
        rcases hc with hc | hc
        · have hg := (compare_neg_iff _ _).mp hc
          rcases Nat.eq_zero_or_pos j with h | h
          · rw [h] at hh; omega
          · have := hsorted 0 j h hj
            have := hne 0 (by omega)
            omega
        · have hg := (compare_pos_iff _ _).mp hc
          rcases Nat.lt_or_eq_of_le (Nat.le_sub_one_of_lt hj) with h | h
          · have := hsorted j (num_entries - 1) h (by omega)
            have := hne (num_entries - 1) (by omega)
            omega
          · rw [h] at hh; omega
      exact ⟨_, rfl, fun j hj hh => absurd hh (hnone j hj), fun _ => ⟨rfl, rfl⟩⟩
    · rw [if_neg hc]
      push_neg at hc
      obtain ⟨r, tr', e1, _, e3⟩ := findLoop_safe stream glyph_index num_entries h16 hc.1 hc.2
        fuel 0 (num_entries - 1)
        [FindEvent.read (0 * 12), FindEvent.read ((num_entries - 1) * 12)]
        (by omega) (by omega) (by omega)
      rw [e1]
      cases r with
      | none =>
        have hnone := findLoop_search stream glyph_index num_entries h16 hc.1 hc.2 hne hsorted
          fuel 0 (num_entries - 1) _ _ (by omega) (by omega)
          (fun j hj _ => ⟨Nat.zero_le _, by omega⟩) e1
        exact ⟨_, rfl, fun j hj hh => absurd hh (hnone j hj), fun _ => ⟨rfl, rfl⟩⟩
      | some d =>
        obtain ⟨i, hi, hd, hcmp⟩ := e3 d rfl
        have hhold : (docAt stream i).holds glyph_index := by
          rw [← hd]; exact (compare_zero_iff d glyph_index).mp hcmp
        refine ⟨_, rfl, fun j hj hh => ⟨rfl, ?_, fun k hk hkh => huniq k j hk hj hkh hh⟩,
          fun hno => absurd hhold (hno i hi)⟩
        have hij : i = j := huniq i j hi hj hhold hh
        simp only [hd, hij]

/-- What holds of a table `tt_face_load_svg` accepts: the offset of the
document list is at least 10 and leaves room for the entry count and one
record, and the records, counted from the offset, fit the table. -/
theorem tt_face_load_svg_accepts (src : SvgSource) (svg : Svg)
    (h : tt_face_load_svg src = (0, some svg)) :
    SVG_TABLE_HEADER_SIZE ≤ svg.svg_doc_list ∧
    svg.svg_doc_list + SVG_DOCUMENT_LIST_MINIMUM_SIZE ≤ svg.table_size ∧
    svg.svg_doc_list + svg.num_entries * SVG_DOCUMENT_RECORD_SIZE ≤ svg.table_size ∧
    svg.table_size = src.table.length := by
  unfold tt_face_load_svg at h
  simp only at h
  split_ifs at h with c1 c2 c3 c4 c5 c6
  all_goals simp only [Prod.mk.injEq, Option.some.injEq] at h
  · exact absurd h.1 c1
  · simp [FT_TS_Err_Invalid_Table] at h
  · exact absurd h.1 c3
  · exact absurd h.1 c4
  · simp [FT_TS_Err_Invalid_Table] at h
  · simp [FT_TS_Err_Invalid_Table] at h
  · obtain ⟨_, rfl⟩ := h
    dsimp only
    simp only [SVG_MINIMUM_SIZE, SVG_DOCUMENT_LIST_MINIMUM_SIZE, SVG_TABLE_HEADER_SIZE,
      SVG_DOCUMENT_RECORD_SIZE] at *
    refine ⟨by omega, by omega, by omega, trivial⟩

/-- C36, the failing input: a table of 36 bytes whose document list is at the
offset 12 and has 2 entries.  `tt_face_load_svg` accepts it, although the
list, its 2-byte count and 2 records of 12 bytes, ends at the offset 38; and
`find_doc` on the records of the accepted table, the 22 bytes from the offset
14 on, reads the last record at the byte offset 12, past the end. -/
theorem C36_accepts_list_past_table_end :
    shortSvgTable.length = 36 ∧
    tt_face_load_svg { goto_error := 0, table := shortSvgTable, extract_error := 0,
                       new_error := 0 } =
      (0, some { version := 0, num_entries := 2, svg_doc_list := 12, table := shortSvgTable,
                 table_size := 36 }) ∧
    ¬ (12 + 2 + 12 * 2 ≤ 36) ∧
    (shortSvgTable.drop 14).length = 22 ∧
    (find_doc (shortSvgTable.drop 14) 2 7 2).map (fun r => r.trace.take 2) =
      some [FindEvent.read 0, FindEvent.read 12] := by
  decide

/-- C39: `woff2_known_tags` returns, for an index up to 62, the tag of that
index in the known-table list of the WOFF2 specification (`cmap` for 0, `glyf`
for 10, `SVG ` for 36, `Sill` for 62), and `0` for an index above 62; the 63
tags are not `0` and pairwise different, so the function is injective on the
indices up to 62 and returns `0` exactly for the indices above 62. -/
theorem C39_woff2_known_tags_table :
    known_tags.length = 63 ∧ known_tags = woff2SpecTags.map tagOfString ∧
    (∀ i, i ≤ 62 → woff2_known_tags i = (woff2SpecTags.map tagOfString).getD i 0) ∧
    woff2_known_tags 0 = tagOfString "cmap" ∧ woff2_known_tags 10 = tagOfString "glyf" ∧
    woff2_known_tags 36 = tagOfString "SVG " ∧ woff2_known_tags 62 = tagOfString "Sill" ∧
    (∀ i, 62 < i → woff2_known_tags i = 0) ∧
    (∀ t ∈ known_tags, t ≠ 0) ∧ known_tags.Nodup ∧
    (∀ i j, i ≤ 62 → j ≤ 62 → woff2_known_tags i = woff2_known_tags j → i = j) ∧
    (∀ i, woff2_known_tags i = 0 ↔ 62 < i) := by
  have hlen : known_tags.length = 63 := by decide
  have hspec : known_tags = woff2SpecTags.map tagOfString := by decide
  have hnd : known_tags.Nodup := by decide
  have hnz : ∀ t ∈ known_tags, t ≠ 0 := by decide
  have hget : ∀ i, i ≤ 62 → ∃ h : i < known_tags.length,
      woff2_known_tags i = known_tags.get ⟨i, h⟩ := by
    intro i hi
    have h : i < known_tags.length := by rw [hlen]; omega
    refine ⟨h, ?_⟩
    unfold woff2_known_tags
    rw [if_neg (by omega), List.getD_eq_getElem _ _ h]
    rfl
  refine ⟨hlen, hspec, fun i hi => ?_, by decide, by decide, by decide, by decide,
    fun i hi => ?_, hnz, hnd, fun i j hi hj hij => ?_, fun i => ⟨fun h => ?_, fun h => ?_⟩⟩
  · unfold woff2_known_tags
    rw [if_neg (by omega), hspec]
  · unfold woff2_known_tags
    rw [if_pos hi]
  · obtain ⟨h1, e1⟩ := hget i hi
    obtain ⟨h2, e2⟩ := hget j hj
    rw [e1, e2] at hij
    have := (List.Nodup.get_inj_iff hnd).mp hij
    exact congrArg Fin.val this
  · by_contra hle
    obtain ⟨h1, e1⟩ := hget i (by omega)
    rw [e1] at h
    exact hnz _ (List.get_mem _ _ _) h
  · unfold woff2_known_tags
    rw [if_pos h]

/-- An instance of C32: the family of face 7, whose face has 300 glyphs; and
the family of face 8, whose face reports `-1`, counts `2 ^ 32 - 1`. -/
theorem C32_witness :
    (ftc_basic_family_get_count sampleLookupFace sampleNumGlyphs ()
      (ftc_basic_family_init 0 zeroFamily sampleQuery).2).1 = toUInt 300 ∧
    toUInt 300 = 300 ∧
    (ftc_basic_family_get_count sampleLookupFace sampleNumGlyphs ()
      (ftc_basic_family_init 0 zeroFamily otherQuery).2).1 = 4294967295 ∧
    (ftc_basic_family_get_count sampleLookupFace sampleNumGlyphs () zeroFamily).1 = 0 :=
  ⟨((C32_get_count_casts_num_glyphs sampleLookupFace sampleNumGlyphs ()
      (ftc_basic_family_init 0 zeroFamily sampleQuery).2 0 7 () rfl).2 rfl (by decide)).1,
    by decide, by decide, by decide⟩

/-- The scenario of C33: with four small bitmaps per node and the node 1
starting at the glyph index 4, the lookups of 5, 6 and 7 return the elements
1, 2 and 3 of node 1. -/
theorem C33_witness :
    ([5, 6, 7].map (fun g =>
        (FTC_SBitCache_Lookup sampleEnv sampleCache (some sampleType) g (some FTC_SBit.null)
          none).map (fun r => (r.error, r.out))) =
      [some (0, some (FTC_SBit.item 1 1)), some (0, some (FTC_SBit.item 1 2)),
        some (0, some (FTC_SBit.item 1 3))]) ∧
    (subU 5 4 = 5 - 4 ∧ subU 5 4 < sampleEnv.FTC_SBIT_ITEMS_PER_NODE) ∧
    FTC_SBit.item 1 (subU 5 4) ≠ FTC_SBit.item 1 (subU 6 4) :=
  have h := C33_sbit_lookup_returns_sub_element sampleEnv sampleCache sampleType
    sampleQuery.attrs.scaler 0 5 FTC_SBit.null none
  ⟨by decide, h.2.2.1 4 5 (by decide) (by decide),
    h.2.2.2 1 4 5 6 (by decide) (by decide) (by decide)⟩

/-- An instance of C34: the sample type (face 7, 12 by 12, flags 0) and the
scaler built from it, with `load_flags = 0`. -/
theorem C34_witness :
    typeAttrs sampleType = scalerAttrs (typeScaler sampleType) 0 ∧
    FTC_ImageCache_Lookup sampleEnv sampleCache (some sampleType) 5 (some 0) (some 0) =
      some (FTC_ImageCache_LookupScaler sampleEnv sampleCache (some (typeScaler sampleType)) 0 5
        (some 0) (some 0)) ∧
    FTC_SBitCache_Lookup sampleEnv sampleCache (some sampleType) 5 (some FTC_SBit.null)
        (some 0) =
      some (FTC_SBitCache_LookupScaler sampleEnv sampleCache (some (typeScaler sampleType)) 0 5
        (some FTC_SBit.null) (some 0)) :=
  have h := C34_type_and_scaler_lookups_agree sampleEnv sampleCache sampleType 0 5 (some 0)
    (some FTC_SBit.null) (some 0) (by decide)
  ⟨h.1, h.2.2.1, h.2.2.2.1⟩

/-- An instance of C35: the load flags 4 and `4 + 2 ^ 32` give the same query,
with the load flags 4, the hash 232 for the image lookup of the glyph index 5
and the hash 228 for its small bitmap lookup. -/
theorem C35_witness :
    4 % 2 ^ 32 = 4294967300 % 2 ^ 32 ∧
    (FTC_ImageCache_LookupScaler sampleEnv sampleCache (some sampleQuery.attrs.scaler)
        4294967300 5 (some 0) (some 0)).calls.map
          (fun c => (c.attrs.scaler, c.attrs.load_flags, c.hash, c.gindex)) =
      [(sampleQuery.attrs.scaler, 4, 232, 5)] ∧
    (FTC_SBitCache_LookupScaler sampleEnv sampleCache (some sampleQuery.attrs.scaler)
        4294967300 5 (some FTC_SBit.null) (some 0)).calls.map
          (fun c => (c.attrs.scaler, c.attrs.load_flags, c.hash, c.gindex)) =
      [(sampleQuery.attrs.scaler, 4, 228, 5)] ∧
    (FTC_ImageCache_LookupScaler sampleEnv sampleCache (some sampleQuery.attrs.scaler) 4 5
        (some 0) (some 0)).calls =
      (FTC_ImageCache_LookupScaler sampleEnv sampleCache (some sampleQuery.attrs.scaler)
        4294967300 5 (some 0) (some 0)).calls ∧
    FTC_ImageCache_LookupScaler sampleEnv sampleCache (some sampleQuery.attrs.scaler) 4 5
        (some 0) (some 0) =
      FTC_ImageCache_LookupScaler sampleEnv sampleCache (some sampleQuery.attrs.scaler)
        4294967300 5 (some 0) (some 0) :=
  have h := C35_high_load_flag_bits_dropped sampleEnv sampleCache
    (some sampleQuery.attrs.scaler) sampleQuery.attrs.scaler 4 4294967300 5 0 FTC_SBit.null
    (some 0) (some FTC_SBit.null) (some 0) _ _ (by decide) rfl rfl
  ⟨by decide, by decide, by decide, h.1.1.trans h.1.2.1.symm, h.2.2.2.2.2.1⟩

/-- An instance of C37: the search of the glyph index 3 in the sample list of
three records probes the records 1 and 0. -/
theorem C37_witness :
    (find_doc sampleDocs 3 3 3).map (fun r => r.trace) =
      some [FindEvent.read 0, FindEvent.read 24, FindEvent.probe 1, FindEvent.read 12,
        FindEvent.lower 1, FindEvent.read 0, FindEvent.probe 0, FindEvent.read 0] ∧
    ∃ r, find_doc sampleDocs 3 3 3 = some r ∧ ∀ ev ∈ r.trace, FindEvent.inBounds 3 ev :=
  ⟨by decide, C37_find_doc_stays_in_bounds sampleDocs 3 3 3 (by decide) (by decide)
    (by decide)⟩

/-- An instance of C38: in the sample list of three records the glyph index
7 is found in the record 1, and the glyph index 5 is in no record. -/
theorem C38_witness :
    (find_doc sampleDocs 3 7 3).map (fun r => (r.error, r.doc)) =
      some (0, some { start_glyph_id := 7, end_glyph_id := 7, offset := 200, length := 60 }) ∧
    (find_doc sampleDocs 3 5 3).map (fun r => (r.error, r.doc)) =
      some (FT_TS_Err_Invalid_Glyph_Index, none) ∧
    ∃ r, find_doc sampleDocs 3 7 3 = some r ∧ r.error = 0 ∧ r.doc = some (docAt sampleDocs 1) := by
  obtain ⟨r, h1, h2, _⟩ := (C38_find_doc_range_search sampleDocs 3 7 3 (by decide) (by decide)
    (by decide)
    (fun i j hij hj => by
      have hj' : j = 1 ∨ j = 2 := by omega
      rcases hj' with rfl | rfl
      · have hi : i = 0 := by omega
        subst hi; decide
      · have hi : i = 0 ∨ i = 1 := by omega
        rcases hi with rfl | rfl <;> decide)).2 (by decide)
  have h := h2 1 (by decide) (by decide)
  exact ⟨by decide, by decide, r, h1, h.1, h.2.1⟩

/-- An instance of C39: the index 200 is out of range, the index 10 is
`glyf`. -/
theorem C39_witness :
    woff2_known_tags 200 = 0 ∧ (woff2_known_tags 10 = 0 ↔ 62 < 10) :=
  ⟨C39_woff2_known_tags_table.2.2.2.2.2.2.2.1 200 (by decide),
    C39_woff2_known_tags_table.2.2.2.2.2.2.2.2.2.2.2 10⟩

end FTCMru
